import Mathlib

/-!
Verification of a thread-safe, disk-oriented B+ tree index design, together
with the ordering logic of the surrounding portfolio site's work index.

The B+ tree model below is a shallow embedding of the design's pseudocode:

* pages become an inductive tree type (`BPage`): a leaf page is its ordered
  list of (key, record-identifier) entries, an internal page is its ordered
  list of (key, child) slots, where — exactly as in the source layout — the
  number of keys equals the number of children and the key in slot 0 is the
  sentinel that is never compared;
* the page-identifier indirection of the paged storage collaborator is
  resolved: a child page identifier is represented by the child page itself,
  and the leaf sibling chain, which the split/merge routines relink so that
  it always enumerates the leaves left to right, is represented by that
  left-to-right order;
* the externally supplied key comparator is `compare` of a linear order;
* machine integers (sizes, indices) are `Nat`.

All definitions are executable, and the binary-search loops are modelled with
an explicit iteration budget (`fuel`) that is always at least the number of
iterations the corresponding `while` loop performs.
-/

namespace BPlus

/-- A B+ tree page.  `leaf es` holds the ordered (key, record-id) entries of a
leaf page; `internal es` holds the ordered (key, child) slots of an internal
page.  As in the source, an internal page stores the same number of keys as
children, and the key of slot 0 is the invalid sentinel (never used in
comparisons while the page is routed through). -/
inductive BPage (α V : Type) where
  | leaf (entries : List (α × V))
  | internal (entries : List (α × BPage α V))

/-- `GetMinSize`: minimum required entries, `(max_size_ + 1) / 2`, which is
ceiling division `⌈max_size / 2⌉`. -/
def GetMinSize (maxSize : Nat) : Nat := (maxSize + 1) / 2

/-- `GetSize`: number of key-value pairs currently in the page. -/
def BPage.size {α V : Type} : BPage α V → Nat
  | .leaf es => es.length
  | .internal es => es.length

/-- `IsLeafPage`. -/
def BPage.isLeafPage {α V : Type} : BPage α V → Bool
  | .leaf _ => true
  | .internal _ => false

/-- Operation kind driving the latch-coupling decisions (`INSERT` / `DELETE`);
searches take shared latches and never consult the safe-node check. -/
inductive OpKind where
  | insert
  | delete
deriving DecidableEq

/-- `IsSafeNode` (helper 5.7.1): a page is safe for an insert when
`size < max_size` (it cannot split) and safe for a delete when
`size > min_size` (it cannot underflow); the leaf and internal branches of the
source compute the identical condition for deletes. -/
def IsSafeNode (size maxSize : Nat) (op : OpKind) : Bool :=
  match op with
  | .insert => decide (size < maxSize)
  | .delete => decide (GetMinSize maxSize < size)

section Search

variable {α : Type} [LinearOrder α]

/-- Loop body of leaf `LowerBound`: `while left < right` binary search with
`mid = left + (right - left) / 2`, moving `left` past `mid` when
`comparator(key_array_[mid], key) < 0` and lowering `right` to `mid`
otherwise.  `fuel` bounds the number of iterations; `ks.length` iterations
always suffice because `right - left` shrinks every round. -/
def lowerBoundGo (cmp : α → α → Ordering) (ks : List α) (key : α) :
    Nat → Nat → Nat → Nat
  | 0, left, _ => left
  | fuel + 1, left, right =>
    if left < right then
      let mid := left + (right - left) / 2
      match ks[mid]? with
      | some a =>
        if cmp a key = Ordering.lt then lowerBoundGo cmp ks key fuel (mid + 1) right
        else lowerBoundGo cmp ks key fuel left mid
      | none => left
    else left

/-- Leaf `LowerBound(key, comparator)` with an explicit comparator: binary
search for the index of the first key `≥ key`, returning `size` when every
key is smaller. -/
def LowerBoundC (cmp : α → α → Ordering) (ks : List α) (key : α) : Nat :=
  lowerBoundGo cmp ks key ks.length 0 ks.length

/-- Leaf `LowerBound` with the tree's key comparator. -/
def LowerBound (ks : List α) (key : α) : Nat :=
  LowerBoundC compare ks key

/-- Loop body of internal `Lookup`: `while left <= right` binary search over
indices `1 .. size - 1` (slot 0 is the sentinel), with
`right = mid - 1` when `comparator(key, KeyAt(mid)) < 0` and `left = mid + 1`
otherwise; after the loop `right` is the answer. -/
def internalLookupGo (cmp : α → α → Ordering) (ks : List α) (key : α) :
    Nat → Nat → Nat → Nat
  | 0, _, right => right
  | fuel + 1, left, right =>
    if left ≤ right then
      let mid := left + (right - left) / 2
      match ks[mid]? with
      | some a =>
        if cmp key a = Ordering.lt then internalLookupGo cmp ks key fuel left (mid - 1)
        else internalLookupGo cmp ks key fuel (mid + 1) right
      | none => right
    else right

/-- Internal `Lookup(key, comparator)` with an explicit comparator, reduced to
the slot index it selects (`ValueAt` of that index is the child descended
into): the size-1 special case returns slot 0 without entering the loop, and
otherwise the binary search runs over `left = 1`, `right = size - 1`. -/
def InternalLookupC (cmp : α → α → Ordering) (ks : List α) (key : α) : Nat :=
  if ks.length = 1 then 0
  else internalLookupGo cmp ks key ks.length 1 (ks.length - 1)

/-- Internal `Lookup` with the tree's key comparator. -/
def InternalLookup (ks : List α) (key : α) : Nat :=
  InternalLookupC compare ks key

end Search

section Pages

variable {α : Type} [LinearOrder α] {V : Type}

/-- Leaf `Lookup(key, result, comparator)`: `LowerBound`, then one equality
comparison; `some` is the `true` return with `*result` filled in. -/
def LeafLookup (es : List (α × V)) (key : α) : Option V :=
  let idx := LowerBound (es.map Prod.fst) key
  match es[idx]? with
  | some (k, v) => if compare k key = Ordering.eq then some v else none
  | none => none

/-- Leaf `Insert(key, value, comparator)` — the node routine: `LowerBound`,
the duplicate-key branch (option 1 of the source: leave the page unchanged),
otherwise shift and insert at the found index. -/
def LeafInsert (es : List (α × V)) (key : α) (v : V) : List (α × V) :=
  let idx := LowerBound (es.map Prod.fst) key
  match es[idx]? with
  | some (k, _) =>
    if compare k key = Ordering.eq then es else es.insertIdx idx (key, v)
  | none => es.insertIdx idx (key, v)

mutual

/-- In-order contents of a subtree: the concatenation of its leaf entries
left to right.  Because `MoveHalfTo` and `MoveAllTo` relink the
`next_page_id_` chain exactly so that it enumerates the leaves left to right,
this is also what a full iteration along the sibling chain yields. -/
def BPage.toList {α V : Type} : BPage α V → List (α × V)
  | .leaf es => es
  | .internal es => entsToList es

def entsToList {α V : Type} : List (α × BPage α V) → List (α × V)
  | [] => []
  | (_, c) :: rest => c.toList ++ entsToList rest

end

/-- Keys stored in the leaves of a subtree, in leaf-chain order. -/
def BPage.keys {α V : Type} (p : BPage α V) : List α := p.toList.map Prod.fst

/-- Lower-bound check of an optional key interval bound. -/
def loOk (lo : Option α) (k : α) : Bool :=
  match lo with
  | none => true
  | some l => decide (l ≤ k)

/-- Strict lower-bound check, used for the routing keys of an internal page:
a separator stored at slot 1 or later always lies strictly above the
separator the page itself is routed with. -/
def loStrict (lo : Option α) (k : α) : Bool :=
  match lo with
  | none => true
  | some l => decide (l < k)

/-- Strict upper-bound check of an optional key interval bound. -/
def hiOk (hi : Option α) (k : α) : Bool :=
  match hi with
  | none => true
  | some h => decide (k < h)

/-- Adjacent strict ascent of a key list (equivalent to strict sortedness). -/
def ascB : List α → Bool
  | [] => true
  | [_] => true
  | a :: b :: t => decide (a < b) && ascB (b :: t)

/-- The upper interval bound of a child slot: the key of the next slot, or
the node's own upper bound for the last slot. -/
def firstKey {α V : Type} (es : List (α × BPage α V)) (hi : Option α) : Option α :=
  match es with
  | [] => hi
  | e :: _ => some e.1

mutual

/-- Structural well-formedness of a page within the half-open key interval
`[lo, hi)`:

* a leaf's keys are strictly ascending and inside the interval;
* an internal page is non-empty, its sentinel slot-0 key equals the separator
  the parent routes to it with (when there is one — the interval `lo`), its
  routing keys from slot 1 on are strictly increasing, lie inside the
  interval, and each child is well-formed in the sub-interval its slot
  delimits (`child[0]` below `key[1]`, `child[i]` between `key[i]` and
  `key[i+1]`, the last child up to `hi`).

The sentinel equality is exactly the property the source relies on when
`MoveAllTo` / `MoveFirstToEndOf` copy an internal page's slot 0 into a
routing position of the recipient. -/
def wfPage {α V : Type} [LinearOrder α] (lo hi : Option α) : BPage α V → Bool
  | .leaf es =>
    ascB (es.map Prod.fst) &&
      (es.map Prod.fst).all (fun k => loOk lo k && hiOk hi k)
  | .internal es =>
    match es with
    | [] => false
    | (s0, c0) :: rest =>
      (match lo with | none => true | some l => decide (s0 = l)) &&
      ascB (rest.map Prod.fst) &&
      (rest.map Prod.fst).all (fun k => loStrict lo k && hiOk hi k) &&
      wfPage lo (firstKey rest hi) c0 &&
      wfChildren hi rest

def wfChildren {α V : Type} [LinearOrder α] (hi : Option α) :
    List (α × BPage α V) → Bool
  | [] => true
  | (k, c) :: rest =>
    wfPage (some k) (firstKey rest hi) c && wfChildren hi rest

end

end Pages

section Ops

variable {α : Type} [LinearOrder α] {V : Type}

/-- Result of inserting into a subtree: `dup` is the duplicate-key abort of the
tree orchestrator, `one` an updated page, `split l sep r` an updated page that
split, with the separator key to be propagated to the parent. -/
inductive InsRes (α V : Type) where
  | dup
  | one (p : BPage α V)
  | split (l : BPage α V) (sep : α) (r : BPage α V)

/-- Result of updating the child at a given slot of an internal page:
`pending` means the child split and the `(sep, r)` pair still has to be
inserted after that slot (`InsertIntoParent`). -/
inductive WalkRes (α V : Type) where
  | dup
  | noSplit (es : List (α × BPage α V))
  | pending (es : List (α × BPage α V)) (sep : α) (r : BPage α V)

mutual

/-- Insert along the root-to-leaf path (tree `Insert` after `FindLeaf`, with
the upward split propagation of `InsertIntoParent` folded into the return
value).  At the leaf, the tree orchestrator first checks for a duplicate with
leaf `Lookup` and aborts before the leaf's insert routine runs; otherwise the
leaf inserts, and `SplitLeaf` fires when the size exceeds `max_size`
(precondition `size == max_size + 1`): `mid = size / 2`, upper half moves to
the new right sibling and its first key is the separator.  At an internal
page that must receive a propagated `(sep, r)` pair, `SplitInternal` fires
pre-emptively when the page is exactly full (`size == max_size`): the page is
split at `mid = size / 2`, the key of slot `mid` becomes the middle key (it
travels to the new right page's sentinel slot), and the pair goes to the left
or right half according to `comparator(sep, middle_key)`; otherwise
`InsertNodeAfter` places the pair right after the split child's slot. -/
def insertAux {α V : Type} [LinearOrder α] (lMax iMax : Nat) (key : α) (v : V) :
    BPage α V → InsRes α V
  | .leaf es =>
    match LeafLookup es key with
    | some _ => .dup
    | none =>
      let es' := LeafInsert es key v
      if lMax < es'.length then
        let mid := es'.length / 2
        match (es'.drop mid).head? with
        | some e => .split (.leaf (es'.take mid)) e.1 (.leaf (es'.drop mid))
        | none => .one (.leaf es')
      else .one (.leaf es')
  | .internal es =>
    match insertEntries lMax iMax key v es (InternalLookup (es.map Prod.fst) key) with
    | .dup => .dup
    | .noSplit es' => .one (.internal es')
    | .pending es1 sep r =>
      let i := InternalLookup (es.map Prod.fst) key
      if es1.length = iMax then
        let mid := es1.length / 2
        match es1[mid]? with
        | some m =>
          if compare sep m.1 = Ordering.lt then
            .split (.internal ((es1.take mid).insertIdx (i + 1) (sep, r))) m.1
              (.internal (es1.drop mid))
          else
            .split (.internal (es1.take mid)) m.1
              (.internal ((es1.drop mid).insertIdx (i - mid + 1) (sep, r)))
        | none => .one (.internal es1)
      else .one (.internal (es1.insertIdx (i + 1) (sep, r)))

/-- Walk to the slot selected by internal `Lookup` and update its child
(the descent step of `FindLeaf` for writes). -/
def insertEntries {α V : Type} [LinearOrder α] (lMax iMax : Nat) (key : α) (v : V) :
    List (α × BPage α V) → Nat → WalkRes α V
  | [], _ => .noSplit []
  | (k, c) :: rest, 0 =>
    match insertAux lMax iMax key v c with
    | .dup => .dup
    | .one c' => .noSplit ((k, c') :: rest)
    | .split l sep r => .pending ((k, l) :: rest) sep r
  | (k, c) :: rest, n + 1 =>
    match insertEntries lMax iMax key v rest n with
    | .dup => .dup
    | .noSplit rest' => .noSplit ((k, c) :: rest')
    | .pending rest' sep r => .pending ((k, c) :: rest') sep r

end

/-- `CoalesceOrRedistribute` on the child at slot `i` of an internal page's
entry list: prefer the left sibling (fall back to the right one only for slot
0); borrow one boundary entry when the sibling has more than `min_size`
entries, otherwise merge and remove the absorbed separator from this page.
The returned flag records whether a merge (`Coalesce`) removed a separator,
which is what may make this page itself underflow.  The leaf and internal
variants mirror `MoveLastToFrontOf`, `MoveFirstToEndOf` and `MoveAllTo` of
the two page classes, including the internal ones copying the donor's
sentinel slot into a routing position — which is sound precisely because of
the sentinel-equality invariant of `wfPage`.  A slot with no sibling at all
is left alone, as is the unreachable case of siblings of different kinds. -/
def CoalesceOrRedistribute {α V : Type} [LinearOrder α] (lMax iMax : Nat)
    (es : List (α × BPage α V)) (i : Nat) : List (α × BPage α V) × Bool :=
  match es[i]? with
  | none => (es, false)
  | some (ki, node) =>
    if 0 < i then
      match es[i - 1]? with
      | none => (es, false)
      | some (ks, sib) =>
        match node, sib with
        | .leaf nes, .leaf ses =>
          if GetMinSize lMax < ses.length then
            match ses.getLast? with
            | some m =>
              ((es.set (i - 1) (ks, .leaf ses.dropLast)).set i (m.1, .leaf (m :: nes)),
                false)
            | none => (es, false)
          else
            ((es.set (i - 1) (ks, .leaf (ses ++ nes))).eraseIdx i, true)
        | .internal nes, .internal ses =>
          if GetMinSize iMax < ses.length then
            match ses.getLast? with
            | some m =>
              ((es.set (i - 1) (ks, .internal ses.dropLast)).set i
                  (m.1, .internal (m :: nes)),
                false)
            | none => (es, false)
          else
            ((es.set (i - 1) (ks, .internal (ses ++ nes))).eraseIdx i, true)
        | _, _ => (es, false)
    else
      match es[i + 1]? with
      | none => (es, false)
      | some (_, sib) =>
        match node, sib with
        | .leaf nes, .leaf ses =>
          if GetMinSize lMax < ses.length then
            match ses with
            | m :: s2 :: srest =>
              ((es.set i (ki, .leaf (nes ++ [m]))).set (i + 1)
                  (s2.1, .leaf (s2 :: srest)),
                false)
            | _ => (es, false)
          else
            ((es.set i (ki, .leaf (nes ++ ses))).eraseIdx (i + 1), true)
        | .internal nes, .internal ses =>
          if GetMinSize iMax < ses.length then
            match ses with
            | m :: s2 :: srest =>
              ((es.set i (ki, .internal (nes ++ [m]))).set (i + 1)
                  (s2.1, .internal (s2 :: srest)),
                false)
            | _ => (es, false)
          else
            ((es.set i (ki, .internal (nes ++ ses))).eraseIdx (i + 1), true)
        | _, _ => (es, false)

mutual

/-- Delete along the root-to-leaf path (tree `Remove` after `FindLeaf`).
`none` is the silent not-found path: `LowerBound` at the leaf does not hit the
key, nothing is touched, all guards are released.  Otherwise the leaf removes
the entry and reports, through the returned flag, whether it now violates its
minimum (`size < min_size`) so that the caller runs
`CoalesceOrRedistribute` — or, at the root, `AdjustRoot`.  An internal page
whose child reports underflow fixes it locally; the page then reports its own
underflow exactly when a merge removed one of its separators and left it
below its minimum, which is when the source recurses the resolution one
level up. -/
def removeAux {α V : Type} [LinearOrder α] (lMax iMax : Nat) (key : α) :
    BPage α V → Option (BPage α V × Bool)
  | .leaf es =>
    let idx := LowerBound (es.map Prod.fst) key
    match es[idx]? with
    | some (k, _) =>
      if compare k key = Ordering.eq then
        let es' := es.eraseIdx idx
        some (.leaf es', decide (es'.length < GetMinSize lMax))
      else none
    | none => none
  | .internal es =>
    let i := InternalLookup (es.map Prod.fst) key
    match removeEntries lMax iMax key es i with
    | none => none
    | some (es', childUnderflow) =>
      if childUnderflow then
        let fixed := CoalesceOrRedistribute lMax iMax es' i
        some (.internal fixed.1,
          fixed.2 && decide (fixed.1.length < GetMinSize iMax))
      else some (.internal es', false)

/-- Walk to the slot selected by internal `Lookup` and delete inside its
child. -/
def removeEntries {α V : Type} [LinearOrder α] (lMax iMax : Nat) (key : α) :
    List (α × BPage α V) → Nat → Option (List (α × BPage α V) × Bool)
  | [], _ => none
  | (k, c) :: rest, 0 =>
    match removeAux lMax iMax key c with
    | none => none
    | some (c', fix) => some ((k, c') :: rest, fix)
  | (k, c) :: rest, n + 1 =>
    match removeEntries lMax iMax key rest n with
    | none => none
    | some (rest', fix) => some ((k, c) :: rest', fix)

end

mutual

/-- `GetValue` along the root-to-leaf path: resolve the next child with
internal `Lookup`, finish with leaf `Lookup`. -/
def findAux {α V : Type} [LinearOrder α] (key : α) : BPage α V → Option V
  | .leaf es => LeafLookup es key
  | .internal es => findEntries key es (InternalLookup (es.map Prod.fst) key)

/-- Walk to the slot selected by internal `Lookup` and search its child. -/
def findEntries {α V : Type} [LinearOrder α] (key : α) :
    List (α × BPage α V) → Nat → Option V
  | [], _ => none
  | (_, c) :: _, 0 => findAux key c
  | _ :: rest, n + 1 => findEntries key rest n

end

/-- The B+ tree: the header's mutable root pointer (`none` is the
`INVALID_PAGE_ID` empty-tree sentinel) plus the two capacity parameters. -/
structure BPlusTree (α V : Type) where
  root : Option (BPage α V)
  leafMax : Nat
  internalMax : Nat

/-- `IsEmpty`. -/
def BPlusTree.IsEmpty (t : BPlusTree α V) : Bool := t.root.isNone

/-- A freshly constructed tree: empty root pointer. -/
def BPlusTree.empty (α V : Type) (lMax iMax : Nat) : BPlusTree α V :=
  ⟨none, lMax, iMax⟩

/-- Tree `GetValue(key)`: `false`/not-found on the empty tree, otherwise
descend from the root. -/
def BPlusTree.GetValue (t : BPlusTree α V) (key : α) : Option V :=
  match t.root with
  | none => none
  | some r => findAux key r

/-- Tree `Insert(key, value)`: `StartNewTree` on the empty tree; otherwise
descend and insert, returning `false` and leaving the tree untouched when the
key already exists; when the root itself split, `CreateNewRoot` builds a new
internal root with exactly two children (its sentinel slot 0 gets the default
`KeyType{}` key) and the header's root pointer is updated. -/
def BPlusTree.Insert [Inhabited α] (t : BPlusTree α V) (key : α) (v : V) :
    BPlusTree α V × Bool :=
  match t.root with
  | none => ({ t with root := some (.leaf [(key, v)]) }, true)
  | some r =>
    match insertAux t.leafMax t.internalMax key v r with
    | .dup => (t, false)
    | .one r' => ({ t with root := some r' }, true)
    | .split l sep rr =>
      ({ t with root := some (.internal [(default, l), (sep, rr)]) }, true)

/-- Tree `Remove(key)`: no-op on the empty tree and on an absent key;
otherwise remove, and when the root reports underflow run `AdjustRoot`:
a leaf root with zero entries empties the tree, an internal root with exactly
one remaining child is collapsed into that child
(`RemoveAndReturnOnlyChild`). -/
def BPlusTree.Remove (t : BPlusTree α V) (key : α) : BPlusTree α V :=
  match t.root with
  | none => t
  | some r =>
    match removeAux t.leafMax t.internalMax key r with
    | none => t
    | some (p, rootUnderflow) =>
      if rootUnderflow then
        match p with
        | .leaf es => if es.length = 0 then { t with root := none } else { t with root := some p }
        | .internal [(_, c)] => { t with root := some c }
        | .internal _ => { t with root := some p }
      else { t with root := some p }

/-- Well-formedness of a whole tree: sane capacities (a leaf holds at least
one entry, an internal page at least its two-children root form) and a
well-formed root with unconstrained key interval. -/
def BPlusTree.wf (t : BPlusTree α V) : Bool :=
  decide (1 ≤ t.leafMax) && decide (2 ≤ t.internalMax) &&
    (match t.root with
     | none => true
     | some r => wfPage none none r)

/-- Keys currently stored in the tree. -/
def BPlusTree.keys (t : BPlusTree α V) : List α :=
  match t.root with
  | none => []
  | some r => r.keys

/-- The in-order contents of the tree. -/
def BPlusTree.toList (t : BPlusTree α V) : List (α × V) :=
  match t.root with
  | none => []
  | some r => r.toList

mutual

/-- The fill invariant of a subtree: the top page holds between `min_size`
and `max_size` entries (between 1 and `max_size` when it is the root), and so
do, recursively, all pages below it. -/
def fillPage {α V : Type} (lMax iMax : Nat) (isRoot : Bool) : BPage α V → Bool
  | .leaf es =>
    decide ((if isRoot then 1 else GetMinSize lMax) ≤ es.length) &&
      decide (es.length ≤ lMax)
  | .internal es =>
    decide ((if isRoot then 1 else GetMinSize iMax) ≤ es.length) &&
      decide (es.length ≤ iMax) && fillChildren lMax iMax es

def fillChildren {α V : Type} (lMax iMax : Nat) : List (α × BPage α V) → Bool
  | [] => true
  | (_, c) :: rest => fillPage lMax iMax false c && fillChildren lMax iMax rest

end

/-- The fill invariant of a whole tree. -/
def BPlusTree.fill (t : BPlusTree α V) : Bool :=
  match t.root with
  | none => true
  | some r => fillPage t.leafMax t.internalMax true r

mutual

/-- Height of a subtree (a leaf has height 0). -/
def BPage.height {α V : Type} : BPage α V → Nat
  | .leaf _ => 0
  | .internal es => entsHeight es + 1

def entsHeight {α V : Type} : List (α × BPage α V) → Nat
  | [] => 0
  | (_, c) :: rest => max c.height (entsHeight rest)

end

mutual

/-- Balance: below an internal page, all children have equal height and are
themselves balanced, so all leaves sit at the same depth. -/
def balancedPage {α V : Type} : BPage α V → Bool
  | .leaf _ => true
  | .internal es => balancedChildren es

def balancedChildren {α V : Type} : List (α × BPage α V) → Bool
  | [] => true
  | (_, c) :: rest =>
    balancedPage c && rest.all (fun e => e.2.height == c.height) &&
      balancedChildren rest

end

/-- Balance of a whole tree. -/
def BPlusTree.balanced (t : BPlusTree α V) : Bool :=
  match t.root with
  | none => true
  | some r => balancedPage r

/-- Reference lookup in an association list (first matching key). -/
def lookupKey {α V : Type} [DecidableEq α] : List (α × V) → α → Option V
  | [], _ => none
  | (k, w) :: rest, key => if k = key then some w else lookupKey rest key

/-- Reference insertion into a sorted association list, in front of the first
key that is not smaller. -/
def insertKey {α V : Type} [LinearOrder α] : List (α × V) → α → V → List (α × V)
  | [], key, v => [(key, v)]
  | (k, w) :: rest, key, v =>
    if key ≤ k then (key, v) :: (k, w) :: rest else (k, w) :: insertKey rest key v

/-- Reference removal of the first entry with the given key from an
association list. -/
def eraseKey {α V : Type} [DecidableEq α] : List (α × V) → α → List (α × V)
  | [], _ => []
  | (k, w) :: rest, key => if k = key then rest else (k, w) :: eraseKey rest key

/-- The trees reachable from an empty tree (with sane capacities) by any
sequence of `Insert` and `Remove` operations. -/
inductive Reachable {α V : Type} [LinearOrder α] [Inhabited α] :
    BPlusTree α V → Prop where
  | empty (lMax iMax : Nat) (h1 : 1 ≤ lMax) (h2 : 2 ≤ iMax) :
      Reachable (BPlusTree.empty α V lMax iMax)
  | insert {t : BPlusTree α V} (key : α) (v : V) (h : Reachable t) :
      Reachable (t.Insert key v).1
  | remove {t : BPlusTree α V} (key : α) (h : Reachable t) :
      Reachable (t.Remove key)

/-- The capacity half of the fill invariant, without the minimum-occupancy
lower bound: what remains true of a page whose top entry count just dropped
below its minimum while everything beneath it is still properly filled. -/
def fillUnder (lMax iMax : Nat) : BPage α V → Bool
  | .leaf es => decide (es.length ≤ lMax)
  | .internal es => decide (es.length ≤ iMax) && fillChildren lMax iMax es

/-- Root-shape invariant maintained by the tree operations: an internal root
always holds at least two slots (`CreateNewRoot` builds it with two children
and `AdjustRoot` collapses it before it can keep a single one). -/
def rootOk (t : BPlusTree α V) : Bool :=
  match t.root with
  | some (.internal es) => decide (2 ≤ es.length)
  | _ => true

end Ops

section Latches

/-- A page-guard acquisition or release event, tagged with the page's depth
on the descent path: the header page is depth 0, the root page depth 1, and
each further tree level is one deeper. -/
inductive LatchEvent where
  | acquire (level : Nat)
  | release (level : Nat)
deriving DecidableEq

/-- The descent loop of `FindLeaf` for writes (§7.3): for each next node on
the path — given as its `(size, max_size)` pair — the child's guard is taken
*before* any ancestor guard is touched, and when the child is safe every
guard of the write set is popped; the write set is carried as the list of
levels currently held in it.  The guards still held on arrival at the leaf
are released only after the operation itself and are not part of the descent
trace. -/
def crabSteps (op : OpKind) : List (Nat × Nat) → Nat → List Nat → List LatchEvent
  | [], _, _ => []
  | (sz, mx) :: rest, lvl, held =>
    LatchEvent.acquire lvl ::
      (if IsSafeNode sz mx op then
        held.map LatchEvent.release ++ crabSteps op rest (lvl + 1) [lvl]
      else crabSteps op rest (lvl + 1) (held ++ [lvl]))

/-- `FindLeaf` for a write operation (§7.3) as the trace of guard events it
emits while descending a path of nodes, each given as its
`(size, max_size)` pair with the root first: take the header guard (level 0,
protecting `root_page_id`), take the root guard (level 1), drop the header
guard exactly when the root is safe for the operation, then crab down the
rest of the path with the root in the write set. -/
def FindLeafWrite (op : OpKind) : List (Nat × Nat) → List LatchEvent
  | [] => []
  | (rsz, rmx) :: rest =>
    LatchEvent.acquire 0 :: LatchEvent.acquire 1 ::
      ((if IsSafeNode rsz rmx op then [LatchEvent.release 0] else []) ++
        crabSteps op rest 2 [1])

/-- The descent loop of `GetValue` (§7.4): each child's read guard is taken
first, and only then is the parent's guard dropped (the assignment to
`current_guard` destroys the old guard after `ReadPage` returned the new
one). -/
def readSteps : Nat → Nat → List LatchEvent
  | _, 0 => []
  | lvl, k + 1 =>
    LatchEvent.acquire lvl :: LatchEvent.release (lvl - 1) :: readSteps (lvl + 1) k

/-- `FindLeaf` for a read (§7.4), over a path of `depth` nodes below the
root: take the root's read guard, then descend, taking each child before
releasing its parent.  Reads never consult the safe-node check. -/
def FindLeafRead (depth : Nat) : List LatchEvent :=
  LatchEvent.acquire 1 :: readSteps 2 depth

/-- The levels acquired along a trace, in trace order. -/
def acquires : List LatchEvent → List Nat
  | [] => []
  | .acquire l :: r => l :: acquires r
  | .release _ :: r => acquires r

/-- Scan of a trace checking that every released level had, by that moment,
some strictly deeper level already acquired — the "child taken before the
parent is dropped" discipline; `acq` accumulates the levels acquired so
far. -/
def releasesCovered : List Nat → List LatchEvent → Bool
  | _, [] => true
  | acq, .acquire l :: r => releasesCovered (l :: acq) r
  | acq, .release l :: r => acq.any (fun x => decide (l < x)) && releasesCovered acq r

end Latches

section WorkIndex

/-- A work entry as written to `index.json` by `generateWorkIndex.mjs` and
consumed by the Home page: the front-matter title, ISO date and description
over the markdown file's slug.  `date` is `none` when the front matter has no
parsable date (`toIsoDate` returned `undefined`). -/
structure WorkItem where
  slug : String
  title : String
  date : Option String
  description : Option String
deriving DecidableEq

/-- `x.date ?? ''`: the key both comparators sort by. -/
def dateKey (i : WorkItem) : String := i.date.getD ""

/-- The generator's ordering step,
`items.sort((a, b) => (b.date ?? '').localeCompare(a.date ?? ''))`:
JavaScript's stable `Array.prototype.sort`, which keeps `a` in front of `b`
exactly when the comparator value is non-positive, i.e. when
`(b.date ?? '') ≤ (a.date ?? '')` in the string order modelling
`localeCompare`. -/
def generateWorkIndexSort (items : List WorkItem) : List WorkItem :=
  items.mergeSort (fun a b => decide (dateKey b ≤ dateKey a))

/-- The Home component's `sortedWork` memo,
`[...work].sort((a, b) => (b.date ?? '').localeCompare(a.date ?? ''))`: the
identical stable sort on a copy of the fetched index. -/
def homeSortedWork (items : List WorkItem) : List WorkItem :=
  items.mergeSort (fun a b => decide (dateKey b ≤ dateKey a))

end WorkIndex

/-! Theorems. -/

section Theorems

variable {α : Type} [LinearOrder α] {V : Type}

mutual

/-- Structural induction over pages: the internal case may assume the motive
for every child. -/
theorem BPage.ind {α V : Type} {motive : BPage α V → Prop}
    (hleaf : ∀ es, motive (.leaf es))
    (hint : ∀ es, (∀ e ∈ es, motive e.2) → motive (.internal es)) :
    ∀ p, motive p
  | .leaf es => hleaf es
  | .internal es => hint es (BPage.indList hleaf hint es)

theorem BPage.indList {α V : Type} {motive : BPage α V → Prop}
    (hleaf : ∀ es, motive (.leaf es))
    (hint : ∀ es, (∀ e ∈ es, motive e.2) → motive (.internal es)) :
    ∀ es : List (α × BPage α V), ∀ e ∈ es, motive e.2
  | [] => fun f hf => absurd hf (List.not_mem_nil f)
  | e :: rest => fun f hf =>
    Or.elim (List.mem_cons.mp hf)
      (fun h => h ▸ BPage.ind hleaf hint e.2)
      (fun h => BPage.indList hleaf hint rest f h)

end

theorem loOk_true {lo : Option α} {k : α} :
    loOk lo k = true ↔ ∀ l, lo = some l → l ≤ k := by
  cases lo <;> simp [loOk]

theorem hiOk_true {hi : Option α} {k : α} :
    hiOk hi k = true ↔ ∀ h, hi = some h → k < h := by
  cases hi <;> simp [hiOk]

theorem loStrict_true {lo : Option α} {k : α} :
    loStrict lo k = true ↔ ∀ l, lo = some l → l < k := by
  cases lo <;> simp [loStrict]

theorem ascB_iff_pairwise {l : List α} :
    ascB l = true ↔ l.Pairwise (· < ·) := by
  induction l with
  | nil => simp [ascB]
  | cons a t ih =>
    cases t with
    | nil => simp [ascB]
    | cons b u =>
      rw [List.pairwise_cons]
      constructor
      · intro h
        have h' := h
        simp only [ascB, Bool.and_eq_true, decide_eq_true_eq] at h'
        obtain ⟨hab, hrest⟩ := h'
        have hp := ih.1 hrest
        refine ⟨?_, hp⟩
        intro x hx
        rcases List.mem_cons.1 hx with rfl | hx
        · exact hab
        · exact hab.trans (List.rel_of_pairwise_cons hp hx)
      · rintro ⟨hall, hp⟩
        simp only [ascB, Bool.and_eq_true, decide_eq_true_eq]
        exact ⟨hall b (by simp), ih.2 hp⟩

theorem lowerBoundGo_spec {ks : List α} {key : α}
    (hs : ks.Pairwise (· < ·)) :
    ∀ (fuel left right : Nat), left ≤ right → right ≤ ks.length →
      right - left ≤ fuel →
      (∀ j (h : j < ks.length), j < left → ks.get ⟨j, h⟩ < key) →
      (∀ j (h : j < ks.length), right ≤ j → key ≤ ks.get ⟨j, h⟩) →
      let r := lowerBoundGo compare ks key fuel left right
      left ≤ r ∧ r ≤ right ∧
        (∀ j (h : j < ks.length), j < r → ks.get ⟨j, h⟩ < key) ∧
        (∀ j (h : j < ks.length), r ≤ j → key ≤ ks.get ⟨j, h⟩) := by
  intro fuel
  induction fuel with
  | zero =>
    intro left right hlr hrl hf hlow hhigh
    have : left = right := by omega
    subst this
    simpa [lowerBoundGo] using ⟨hlow, hhigh⟩
  | succ fuel ih =>
    intro left right hlr hrl hf hlow hhigh
    by_cases hlt : left < right
    · have hmidlt : left + (right - left) / 2 < ks.length := by omega
      have hmem : ks[left + (right - left) / 2]? =
          some (ks.get ⟨left + (right - left) / 2, hmidlt⟩) := by
        simp [List.getElem?_eq_getElem hmidlt]
      rw [lowerBoundGo, if_pos hlt]
      simp only [hmem]
      by_cases hcmp :
          compare (ks.get ⟨left + (right - left) / 2, hmidlt⟩) key = Ordering.lt
      · have hklt : ks.get ⟨left + (right - left) / 2, hmidlt⟩ < key :=
          compare_lt_iff_lt.1 hcmp
        rw [if_pos hcmp]
        have hres := ih (left + (right - left) / 2 + 1) right (by omega) hrl
          (by omega) ?_ hhigh
        · exact ⟨by omega, hres.2.1, hres.2.2.1, hres.2.2.2⟩
        · intro j hj hjm
          rcases Nat.lt_or_ge j (left + (right - left) / 2) with hjlt | hge
          · exact lt_trans
              (List.pairwise_iff_get.1 hs ⟨j, hj⟩ ⟨left + (right - left) / 2, hmidlt⟩
                hjlt) hklt
          · have : j = left + (right - left) / 2 := by omega
            subst this; exact hklt
      · have hkge : key ≤ ks.get ⟨left + (right - left) / 2, hmidlt⟩ := by
          rcases lt_trichotomy (ks.get ⟨left + (right - left) / 2, hmidlt⟩) key with
            hl | he | hg
          · exact absurd (compare_lt_iff_lt.2 hl) hcmp
          · exact le_of_eq he.symm
          · exact le_of_lt hg
        rw [if_neg hcmp]
        have hres := ih left (left + (right - left) / 2) (by omega) (by omega)
          (by omega) hlow ?_
        · exact ⟨hres.1, by omega, hres.2.2.1, hres.2.2.2⟩
        · intro j hj hjm
          rcases Nat.lt_or_ge (left + (right - left) / 2) j with hjgt | hge
          · exact le_trans hkge
              (le_of_lt (List.pairwise_iff_get.1 hs ⟨left + (right - left) / 2, hmidlt⟩
                ⟨j, hj⟩ hjgt))
          · have : j = left + (right - left) / 2 := by omega
            subst this; exact hkge
    · have : left = right := by omega
      subst this
      rw [lowerBoundGo, if_neg hlt]
      exact ⟨le_refl _, le_refl _, hlow, hhigh⟩

/-- Leaf `LowerBound` returns the index of the first key `≥ key` of a
strictly sorted key list (`size` when there is none): everything before the
result is `< key`, everything from the result on is `≥ key`, and the result
is at most `size`. -/
theorem LowerBound_spec {ks : List α} {key : α} (hs : ks.Pairwise (· < ·)) :
    LowerBound ks key ≤ ks.length ∧
      (∀ j (h : j < ks.length), j < LowerBound ks key → ks.get ⟨j, h⟩ < key) ∧
      (∀ j (h : j < ks.length), LowerBound ks key ≤ j → key ≤ ks.get ⟨j, h⟩) := by
  have h := @lowerBoundGo_spec α _ ks key hs ks.length 0 ks.length (Nat.zero_le _)
    (le_refl _) (by omega) (by intro j hj hj0; omega) (by intro j hj hge; omega)
  exact ⟨h.2.1, h.2.2.1, h.2.2.2⟩

theorem internalLookupGo_spec {ks : List α} {key : α}
    (hs : (ks.drop 1).Pairwise (· < ·)) :
    ∀ (fuel left right : Nat), 1 ≤ left → left ≤ right + 1 →
      right < ks.length → right + 1 - left ≤ fuel →
      (∀ j (h : j < ks.length), 1 ≤ j → j < left → ks.get ⟨j, h⟩ ≤ key) →
      (∀ j (h : j < ks.length), right < j → key < ks.get ⟨j, h⟩) →
      let r := internalLookupGo compare ks key fuel left right
      left - 1 ≤ r ∧ r ≤ right ∧
        (∀ j (h : j < ks.length), 1 ≤ j → j ≤ r → ks.get ⟨j, h⟩ ≤ key) ∧
        (∀ j (h : j < ks.length), r < j → key < ks.get ⟨j, h⟩) := by
  have hsget : ∀ i j (hi : i < ks.length) (hj : j < ks.length), 1 ≤ i → i < j →
      ks.get ⟨i, hi⟩ < ks.get ⟨j, hj⟩ := by
    intro i j hi hj h1 hij
    have hi' : i - 1 < (ks.drop 1).length := by simp; omega
    have hj' : j - 1 < (ks.drop 1).length := by simp; omega
    have := List.pairwise_iff_get.1 hs ⟨i - 1, hi'⟩ ⟨j - 1, hj'⟩ (by simp; omega)
    simpa [List.get_drop, Nat.sub_add_cancel h1,
      Nat.sub_add_cancel (by omega : 1 ≤ j)] using this
  intro fuel
  induction fuel with
  | zero =>
    intro left right h1 hlr hrl hf hlow hhigh
    have : left = right + 1 := by omega
    subst this
    simp only [internalLookupGo]
    refine ⟨by omega, le_refl _, ?_, hhigh⟩
    intro j hj hj1 hjr
    exact hlow j hj hj1 (by omega)
  | succ fuel ih =>
    intro left right h1 hlr hrl hf hlow hhigh
    by_cases hle : left ≤ right
    · have hmidlt : left + (right - left) / 2 < ks.length := by omega
      have hmem : ks[left + (right - left) / 2]? =
          some (ks.get ⟨left + (right - left) / 2, hmidlt⟩) := by
        simp [List.getElem?_eq_getElem hmidlt]
      rw [internalLookupGo, if_pos hle]
      simp only [hmem]
      by_cases hcmp :
          compare key (ks.get ⟨left + (right - left) / 2, hmidlt⟩) = Ordering.lt
      · have hklt : key < ks.get ⟨left + (right - left) / 2, hmidlt⟩ :=
          compare_lt_iff_lt.1 hcmp
        rw [if_pos hcmp]
        have hres := ih left (left + (right - left) / 2 - 1) h1 (by omega)
          (by omega) (by omega) hlow ?_
        · exact ⟨hres.1, by omega, hres.2.2.1, hres.2.2.2⟩
        · intro j hj hgt
          rcases Nat.lt_or_ge (left + (right - left) / 2) j with hjgt | hge
          · exact lt_trans hklt (hsget _ _ hmidlt hj (by omega) hjgt)
          · have : j = left + (right - left) / 2 := by omega
            subst this; exact hklt
      · have hkge : ks.get ⟨left + (right - left) / 2, hmidlt⟩ ≤ key := by
          rcases lt_trichotomy key (ks.get ⟨left + (right - left) / 2, hmidlt⟩) with
            hl | he | hg
          · exact absurd (compare_lt_iff_lt.2 hl) hcmp
          · exact le_of_eq he.symm
          · exact le_of_lt hg
        rw [if_neg hcmp]
        have hres := ih (left + (right - left) / 2 + 1) right (by omega) (by omega)
          hrl (by omega) ?_ hhigh
        · exact ⟨by omega, hres.2.1, hres.2.2.1, hres.2.2.2⟩
        · intro j hj hj1 hjm
          rcases Nat.lt_or_ge j (left + (right - left) / 2) with hjlt | hge
          · exact le_trans (le_of_lt (hsget _ _ hj hmidlt hj1 hjlt)) hkge
          · have : j = left + (right - left) / 2 := by omega
            subst this; exact hkge
    · have : left = right + 1 := by omega
      subst this
      rw [internalLookupGo, if_neg hle]
      refine ⟨by omega, le_refl _, ?_, hhigh⟩
      intro j hj hj1 hjr
      exact hlow j hj hj1 (by omega)

/-- Internal `Lookup` of a non-empty page whose routing keys (from slot 1 on)
are strictly increasing selects the slot of the largest routing key `≤ key`
— slot 0 when every routing key exceeds `key`: the result is in range, every
routing key up to it is `≤ key`, and every key past it is `> key`. -/
theorem InternalLookup_spec {ks : List α} {key : α} (hne : ks ≠ [])
    (hs : (ks.drop 1).Pairwise (· < ·)) :
    InternalLookup ks key < ks.length ∧
      (∀ j (h : j < ks.length), 1 ≤ j → j ≤ InternalLookup ks key →
        ks.get ⟨j, h⟩ ≤ key) ∧
      (∀ j (h : j < ks.length), InternalLookup ks key < j → key < ks.get ⟨j, h⟩) := by
  have hlen : 1 ≤ ks.length := by
    cases ks with
    | nil => exact absurd rfl hne
    | cons a t => simp
  unfold InternalLookup InternalLookupC
  by_cases h1 : ks.length = 1
  · rw [if_pos h1]
    refine ⟨by omega, ?_, ?_⟩
    · intro j hj hj1 hjr; omega
    · intro j hj hjr; omega
  · rw [if_neg h1]
    have hres := @internalLookupGo_spec α _ ks key hs ks.length 1 (ks.length - 1)
      (le_refl _) (by omega) (by omega) (by omega) (by intro j hj hj1 hlt; omega)
      (by intro j hj hgt; omega)
    exact ⟨by omega, hres.2.2.1, hres.2.2.2⟩

theorem wfPage_leaf_iff {lo hi : Option α} {es : List (α × V)} :
    wfPage lo hi (.leaf es) = true ↔
      (es.map Prod.fst).Pairwise (· < ·) ∧
        ∀ k ∈ es.map Prod.fst,
          (∀ l, lo = some l → l ≤ k) ∧ ∀ h, hi = some h → k < h := by
  simp only [wfPage, Bool.and_eq_true, ascB_iff_pairwise, List.all_eq_true]
  constructor
  · rintro ⟨hp, hall⟩
    refine ⟨hp, fun k hk => ?_⟩
    have := hall k hk
    simp only [Bool.and_eq_true, loOk_true, hiOk_true] at this
    exact this
  · rintro ⟨hp, hall⟩
    refine ⟨hp, fun k hk => ?_⟩
    simp only [Bool.and_eq_true, loOk_true, hiOk_true]
    exact hall k hk

theorem wfPage_internal_nil {lo hi : Option α} :
    wfPage lo hi (.internal ([] : List (α × BPage α V))) = false := by
  simp [wfPage]

theorem wfPage_internal_iff {lo hi : Option α} {s0 : α} {c0 : BPage α V}
    {rest : List (α × BPage α V)} :
    wfPage lo hi (.internal ((s0, c0) :: rest)) = true ↔
      (∀ l, lo = some l → s0 = l) ∧
        (rest.map Prod.fst).Pairwise (· < ·) ∧
        (∀ k ∈ rest.map Prod.fst,
          (∀ l, lo = some l → l < k) ∧ ∀ h, hi = some h → k < h) ∧
        wfPage lo (firstKey rest hi) c0 = true ∧
        wfChildren hi rest = true := by
  simp only [wfPage, Bool.and_eq_true, ascB_iff_pairwise, List.all_eq_true]
  constructor
  · rintro ⟨⟨⟨⟨hs, hp⟩, hall⟩, hc0⟩, hch⟩
    refine ⟨?_, hp, fun k hk => ?_, hc0, hch⟩
    · intro l hl; subst hl
      simpa using hs
    · have := hall k hk
      simp only [Bool.and_eq_true, loStrict_true, hiOk_true] at this
      exact this
  · rintro ⟨hs, hp, hall, hc0, hch⟩
    refine ⟨⟨⟨⟨?_, hp⟩, fun k hk => ?_⟩, hc0⟩, hch⟩
    · cases lo with
      | none => rfl
      | some l => simpa using hs l rfl
    · simp only [Bool.and_eq_true, loStrict_true, hiOk_true]
      exact hall k hk

theorem wfChildren_nil {hi : Option α} :
    wfChildren hi ([] : List (α × BPage α V)) = true := rfl

theorem wfChildren_cons_iff {hi : Option α} {k : α} {c : BPage α V}
    {rest : List (α × BPage α V)} :
    wfChildren hi ((k, c) :: rest) = true ↔
      wfPage (some k) (firstKey rest hi) c = true ∧ wfChildren hi rest = true := by
  simp [wfChildren, Bool.and_eq_true]

theorem firstKey_append {xs ys : List (α × BPage α V)} {hi : Option α} :
    firstKey (xs ++ ys) hi = firstKey xs (firstKey ys hi) := by
  cases xs <;> simp [firstKey]

theorem firstKey_cons {e : α × BPage α V} {es : List (α × BPage α V)}
    {hi : Option α} : firstKey (e :: es) hi = some e.1 := rfl

theorem wfChildren_append {xs ys : List (α × BPage α V)} {hi : Option α} :
    wfChildren hi (xs ++ ys) = true ↔
      wfChildren (firstKey ys hi) xs = true ∧ wfChildren hi ys = true := by
  induction xs with
  | nil => simp [wfChildren]
  | cons e rest ih =>
    obtain ⟨k, c⟩ := e
    simp only [List.cons_append, wfChildren_cons_iff, ih, firstKey_append]
    tauto

theorem entsToList_append {xs ys : List (α × BPage α V)} :
    entsToList (xs ++ ys) = entsToList xs ++ entsToList ys := by
  induction xs with
  | nil => simp [entsToList]
  | cons e rest ih =>
    obtain ⟨k, c⟩ := e
    simp [entsToList, ih]

theorem entsToList_cons {e : α × BPage α V} {es : List (α × BPage α V)} :
    entsToList (e :: es) = e.2.toList ++ entsToList es := by
  obtain ⟨k, c⟩ := e
  simp [entsToList]

/-- Bounds and sortedness of the flattened contents of a well-formed child
list, assuming the facts the enclosing node provides: pairwise slot keys and
slot keys below `hi`. -/
theorem wfChildren_toList {es : List (α × BPage α V)} {hi : Option α}
    (hIH : ∀ e ∈ es, ∀ lo hi, wfPage lo hi e.2 = true →
      ((e.2.toList.map Prod.fst).Pairwise (· < ·) ∧
        ∀ k ∈ e.2.toList.map Prod.fst,
          (∀ l, lo = some l → l ≤ k) ∧ ∀ h, hi = some h → k < h))
    (hw : wfChildren hi es = true)
    (hpw : (es.map Prod.fst).Pairwise (· < ·))
    (hhi : ∀ e ∈ es, ∀ h, hi = some h → e.1 < h) :
    ((entsToList es).map Prod.fst).Pairwise (· < ·) ∧
      ∀ k ∈ (entsToList es).map Prod.fst,
        (∀ e0, es.head? = some e0 → e0.1 ≤ k) ∧ ∀ h, hi = some h → k < h := by
  induction es with
  | nil => simp [entsToList]
  | cons e rest ih =>
    obtain ⟨k0, c0⟩ := e
    rw [wfChildren_cons_iff] at hw
    obtain ⟨hwc, hwr⟩ := hw
    simp only [List.map_cons, List.pairwise_cons] at hpw
    obtain ⟨hk0lt, hpw'⟩ := hpw
    have hc0 := hIH (k0, c0) (by simp) (some k0) (firstKey rest hi) hwc
    have hrest := ih (fun e he => hIH e (List.mem_cons_of_mem _ he)) hwr hpw'
      (fun e he => hhi e (List.mem_cons_of_mem _ he))
    -- facts about c0's keys: ≥ k0, < firstKey rest hi
    have hc0lo : ∀ k ∈ c0.toList.map Prod.fst, k0 ≤ k := fun k hk =>
      (hc0.2 k hk).1 k0 rfl
    have hc0hi : ∀ k ∈ c0.toList.map Prod.fst, ∀ h, hi = some h → k < h := by
      intro k hk h hh
      cases rest with
      | nil => exact (hc0.2 k hk).2 h (by simpa [firstKey] using hh)
      | cons e1 r1 =>
        have hkk1 : k < e1.1 := (hc0.2 k hk).2 e1.1 (by simp [firstKey])
        exact lt_trans hkk1 (hhi e1 (by simp) h hh)
    have hrlo : ∀ k ∈ (entsToList rest).map Prod.fst, k0 ≤ k := by
      intro k hk
      cases rest with
      | nil => simp [entsToList] at hk
      | cons e1 r1 =>
        have h1 : e1.1 ≤ k := (hrest.2 k hk).1 e1 (by simp)
        exact le_of_lt (lt_of_lt_of_le (hk0lt e1.1 (by simp)) h1)
    constructor
    · rw [entsToList_cons, List.map_append, List.pairwise_append]
      refine ⟨hc0.1, hrest.1, ?_⟩
      intro x hx y hy
      cases rest with
      | nil => simp [entsToList] at hy
      | cons e1 r1 =>
        have hxk1 : x < e1.1 := (hc0.2 x hx).2 e1.1 (by simp [firstKey])
        exact lt_of_lt_of_le hxk1 ((hrest.2 y hy).1 e1 (by simp))
    · intro k hk
      rw [entsToList_cons, List.map_append, List.mem_append] at hk
      rcases hk with hk | hk
      · exact ⟨fun e0 he0 => by
          simp at he0; subst he0; exact hc0lo k hk, hc0hi k hk⟩
      · exact ⟨fun e0 he0 => by
          simp at he0; subst he0; exact hrlo k hk,
          fun h hh => (hrest.2 k hk).2 h hh⟩

/-- Flattened contents of a well-formed page: keys strictly sorted and inside
the page's interval. -/
theorem wf_toList {p : BPage α V} : ∀ (lo hi : Option α),
    wfPage lo hi p = true →
      (p.toList.map Prod.fst).Pairwise (· < ·) ∧
        ∀ k ∈ p.toList.map Prod.fst,
          (∀ l, lo = some l → l ≤ k) ∧ ∀ h, hi = some h → k < h := by
  induction p using BPage.ind with
  | hleaf es =>
    intro lo hi hw
    rw [wfPage_leaf_iff] at hw
    simpa [BPage.toList] using hw
  | hint es hIH =>
    intro lo hi hw
    match es, hw with
    | (s0, c0) :: rest, hw =>
      rw [wfPage_internal_iff] at hw
      obtain ⟨hs0, hpw, hall, hc0, hch⟩ := hw
      have hc0f := hIH (s0, c0) (by simp) lo (firstKey rest hi) hc0
      have hrest := wfChildren_toList
        (fun e he => hIH e (List.mem_cons_of_mem _ he)) hch hpw
        (fun e he h hh => (hall e.1 (List.mem_map_of_mem _ he)).2 h hh)
      have hc0hi : ∀ k ∈ c0.toList.map Prod.fst, ∀ h, hi = some h → k < h := by
        intro k hk h hh
        cases rest with
        | nil => exact (hc0f.2 k hk).2 h (by simpa [firstKey] using hh)
        | cons e1 r1 =>
          have hkk1 : k < e1.1 := (hc0f.2 k hk).2 e1.1 (by simp [firstKey])
          exact lt_trans hkk1 ((hall e1.1 (by simp)).2 h hh)
      constructor
      · show ((entsToList ((s0, c0) :: rest)).map Prod.fst).Pairwise _
        rw [entsToList_cons, List.map_append, List.pairwise_append]
        refine ⟨hc0f.1, hrest.1, ?_⟩
        intro x hx y hy
        cases rest with
        | nil => simp [entsToList] at hy
        | cons e1 r1 =>
          have hxk1 : x < e1.1 := (hc0f.2 x hx).2 e1.1 (by simp [firstKey])
          exact lt_of_lt_of_le hxk1 ((hrest.2 y hy).1 e1 (by simp))
      · intro k hk
        show (∀ l, lo = some l → l ≤ k) ∧ ∀ h, hi = some h → k < h
        have hk' : k ∈ ((entsToList ((s0, c0) :: rest)).map Prod.fst) := hk
        rw [entsToList_cons, List.map_append, List.mem_append] at hk'
        rcases hk' with hk' | hk'
        · exact ⟨fun l hl => (hc0f.2 k hk').1 l hl, hc0hi k hk'⟩
        · refine ⟨fun l hl => ?_, fun h hh => (hrest.2 k hk').2 h hh⟩
          cases rest with
          | nil => simp [entsToList] at hk'
          | cons e1 r1 =>
            have h1 : e1.1 ≤ k := (hrest.2 k hk').1 e1 (by simp)
            exact le_trans (le_of_lt ((hall e1.1 (by simp)).1 l hl)) h1

theorem wfChildren_get {hi : Option α} {es : List (α × BPage α V)}
    (hw : wfChildren hi es = true) :
    ∀ {j : Nat} (h : j < es.length),
      wfPage (some ((es.get ⟨j, h⟩).1)) (firstKey (es.drop (j + 1)) hi)
        ((es.get ⟨j, h⟩).2) = true := by
  induction es with
  | nil => intro j h; simp at h
  | cons e rest ih =>
    obtain ⟨k, c⟩ := e
    rw [wfChildren_cons_iff] at hw
    intro j h
    match j with
    | 0 => simpa using hw.1
    | j + 1 => simpa using ih hw.2 (by simpa using h)

theorem wfChildren_take {hi : Option α} {es : List (α × BPage α V)}
    (hw : wfChildren hi es = true) (i : Nat) :
    wfChildren (firstKey (es.drop i) hi) (es.take i) = true := by
  have h := hw
  rw [← List.take_append_drop i es, wfChildren_append] at h
  exact h.1

theorem wfChildren_drop {hi : Option α} {es : List (α × BPage α V)}
    (hw : wfChildren hi es = true) (i : Nat) :
    wfChildren hi (es.drop i) = true := by
  have h := hw
  rw [← List.take_append_drop i es, wfChildren_append] at h
  exact h.2

/-- The slot that internal `Lookup` selects on a well-formed internal page
covers the search key: the slot exists, its child is well-formed in a
sub-interval that contains the key, and every leaf key stored left
(respectively right) of that child is strictly below (above) the key. -/
theorem wf_route {lo hi : Option α} {es : List (α × BPage α V)} (key : α)
    (hw : wfPage lo hi (.internal es) = true)
    (hklo : ∀ l, lo = some l → l ≤ key)
    (hkhi : ∀ h, hi = some h → key < h) :
    ∃ e, es[InternalLookup (es.map Prod.fst) key]? = some e ∧
      wfPage (if InternalLookup (es.map Prod.fst) key = 0 then lo else some e.1)
        (firstKey (es.drop (InternalLookup (es.map Prod.fst) key + 1)) hi)
        e.2 = true ∧
      (∀ l, (if InternalLookup (es.map Prod.fst) key = 0 then lo else some e.1) =
        some l → l ≤ key) ∧
      (∀ h, firstKey (es.drop (InternalLookup (es.map Prod.fst) key + 1)) hi =
        some h → key < h) ∧
      (∀ k ∈ (entsToList (es.take (InternalLookup (es.map Prod.fst) key))).map
        Prod.fst, k < key) ∧
      (∀ k ∈ (entsToList (es.drop (InternalLookup (es.map Prod.fst) key + 1))).map
        Prod.fst, key < k) := by
  match es with
  | [] => rw [wfPage_internal_nil] at hw; exact absurd hw (by simp)
  | (s0, c0) :: rest =>
    rw [wfPage_internal_iff] at hw
    obtain ⟨hs0, hpw, hall, hc0, hch⟩ := hw
    set es := (s0, c0) :: rest with hes
    have hks : (es.map Prod.fst).drop 1 = rest.map Prod.fst := by simp [hes]
    have hspec := @InternalLookup_spec α _ (es.map Prod.fst) key
      (by simp [hes]) (by rw [hks]; exact hpw)
    obtain ⟨hilt, hle, hgt⟩ := hspec
    rw [List.length_map] at hilt
    obtain ⟨i, hi_def⟩ : ∃ n, InternalLookup (es.map Prod.fst) key = n := ⟨_, rfl⟩
    rw [hi_def] at hilt hle hgt ⊢
    have hget : ∀ (j : Nat) (hj : j < es.length),
        (es.map Prod.fst).get ⟨j, by simpa using hj⟩ = (es.get ⟨j, hj⟩).1 := by
      intro j hj; simp
    -- the slot key of any index j ≥ 1 viewed inside rest
    have hrest_get : ∀ (j : Nat) (hj : j + 1 < es.length),
        es.get ⟨j + 1, hj⟩ = rest.get ⟨j, by simpa [hes] using hj⟩ := by
      intro j hj; simp [hes]
    refine ⟨es.get ⟨i, hilt⟩, by simp [List.getElem?_eq_getElem hilt], ?_, ?_, ?_, ?_, ?_⟩
    · -- child well-formed in its slot interval
      by_cases hi0 : i = 0
      · subst hi0
        simpa [hes, firstKey] using hc0
      · obtain ⟨j, rfl⟩ : ∃ j, i = j + 1 := ⟨i - 1, by omega⟩
        have hj : j < rest.length := by simp [hes] at hilt; omega
        have := wfChildren_get hch hj
        have hdrop : rest.drop (j + 1) = es.drop (j + 1 + 1) := by simp [hes]
        rw [if_neg (by omega)]
        rw [hrest_get j hilt]
        rw [← hdrop]
        exact this
    · -- the child's lower bound is at most the key
      by_cases hi0 : i = 0
      · simpa [hi0] using hklo
      · rw [if_neg hi0]
        intro l hl
        injection hl with hl
        subst hl
        have := hle i (by simpa using hilt) (by omega) (le_refl _)
        rwa [hget i hilt] at this
    · -- the key is below the child's upper bound
      intro h hh
      rcases hdrop : es.drop (i + 1) with _ | ⟨e1, r1⟩
      · rw [hdrop] at hh
        exact hkhi h (by simpa [firstKey] using hh)
      · rw [hdrop] at hh
        simp only [firstKey] at hh
        injection hh with hh
        subst hh
        have he1 : i + 1 < es.length := by
          have := congrArg List.length hdrop
          simp at this; omega
        have hee : es.get ⟨i + 1, he1⟩ = e1 := by
          have h2 := List.drop_eq_getElem_cons he1
          rw [hdrop] at h2
          have h3 := (List.cons.injEq _ _ _ _ ▸ h2.symm : _ ∧ _)
          simpa using h3.1
        have := hgt (i + 1) (by simpa using he1) (by omega)
        rw [hget (i + 1) he1, hee] at this
        exact this
    · -- all keys to the left are below the search key
      intro k hk
      by_cases hi0 : i = 0
      · simp [hi0, entsToList] at hk
      · obtain ⟨j, rfl⟩ : ∃ j, i = j + 1 := ⟨i - 1, by omega⟩
        have htake : es.take (j + 1) = (s0, c0) :: rest.take j := by simp [hes]
        rw [htake, entsToList_cons, List.map_append, List.mem_append] at hk
        rcases hk with hk | hk
        · -- keys under c0
          have hc0f := wf_toList lo (firstKey rest hi) hc0
          have hb := (hc0f.2 k hk).2
          cases hrest : rest with
          | nil =>
            exfalso
            rw [hes, hrest] at hilt
            simp at hilt
          | cons e1 r1 =>
            have hklt : k < e1.1 := hb e1.1 (by simp [hrest, firstKey])
            have h1 : (1 : Nat) < es.length := by simp [hes, hrest]
            have hles := hle 1 (by simpa using h1) (le_refl _) (by omega)
            rw [hget 1 h1] at hles
            have he1' : es.get ⟨1, h1⟩ = e1 := by simp [hes, hrest]
            rw [he1'] at hles
            exact lt_of_lt_of_le hklt hles
        · -- keys under rest.take j
          have hsplit : rest = rest.take j ++ rest.drop j := (List.take_append_drop _ _).symm
          have hpw' : ((rest.take j).map Prod.fst).Pairwise (· < ·) :=
            hpw.sublist ((List.take_sublist _ _).map _)
          have hwt := wfChildren_take hch j
          have hjlt : j < rest.length := by simp [hes] at hilt; omega
          have hdropj : rest.drop j = rest.get ⟨j, hjlt⟩ :: rest.drop (j + 1) := by
            have := List.drop_eq_getElem_cons hjlt
            simpa using this
          have hkj : ∀ e ∈ rest.take j, e.1 < (rest.get ⟨j, hjlt⟩).1 := by
            intro e he
            have hmem1 : e.1 ∈ (rest.take j).map Prod.fst := List.mem_map_of_mem _ he
            have hmem2 : (rest.get ⟨j, hjlt⟩).1 ∈ (rest.drop j).map Prod.fst := by
              rw [hdropj, List.map_cons]
              exact List.mem_cons_self _ _
            have hpw2 := hsplit ▸ hpw
            rw [List.map_append, List.pairwise_append] at hpw2
            exact hpw2.2.2 _ hmem1 _ hmem2
          have hfk : firstKey (rest.drop j) hi = some ((rest.get ⟨j, hjlt⟩).1) := by
            rw [hdropj]; rfl
          have hrt := wfChildren_toList
            (fun e _ lo' hi' hw' => wf_toList lo' hi' hw') hwt hpw' (by
              intro e he h hh
              rw [hfk] at hh
              injection hh with hh
              subst hh
              exact hkj e he)
          have hkb := (hrt.2 k hk).2 _ (by rw [hfk])
          have hkey_j : (rest.get ⟨j, hjlt⟩).1 ≤ key := by
            have hj1 : j + 1 < es.length := by simp [hes]; omega
            have := hle (j + 1) (by simpa using hj1) (by omega) (by omega)
            rw [hget _ hj1, hrest_get j hj1] at this
            exact this
          exact lt_of_lt_of_le hkb hkey_j
    · -- all keys to the right are above the search key
      intro k hk
      have hdres : es.drop (i + 1) = rest.drop i := by simp [hes]
      rw [hdres] at hk
      rcases hdi : rest.drop i with _ | ⟨e1, r1⟩
      · simp [hdi, entsToList] at hk
      · have hilt' : i < rest.length := by
          have := congrArg List.length hdi
          simp at this; omega
        have hdropi : rest.drop i = rest.get ⟨i, hilt'⟩ :: rest.drop (i + 1) := by
          have := List.drop_eq_getElem_cons hilt'
          simpa using this
        have hwd := wfChildren_drop hch i
        have hpwd : ((rest.drop i).map Prod.fst).Pairwise (· < ·) :=
          hpw.sublist ((List.drop_sublist _ _).map _)
        have hrt := wfChildren_toList
          (fun e _ lo' hi' hw' => wf_toList lo' hi' hw') hwd hpwd (by
            intro e he h hh
            exact (hall e.1 (List.mem_map_of_mem _ (List.mem_of_mem_drop he))).2 h hh)
        rw [hdi] at hrt hk
        have hhead : e1.1 ≤ k := (hrt.2 k hk).1 e1 rfl
        have hj1 : i + 1 < es.length := by simp [hes]; omega
        have he1 : es.get ⟨i + 1, hj1⟩ = e1 := by
          rw [hrest_get i hj1]
          rw [hdropi] at hdi
          injection hdi with h1 h2
        have := hgt (i + 1) (by simpa using hj1) (by omega)
        rw [hget _ hj1, he1] at this
        exact lt_of_lt_of_le this hhead

theorem mem_take_lt {β : Type} {ks : List β} {r : Nat} {P : β → Prop}
    (h : ∀ j (hj : j < ks.length), j < r → P (ks.get ⟨j, hj⟩)) :
    ∀ x ∈ ks.take r, P x := by
  intro x hx
  obtain ⟨n, hn, hx'⟩ := List.getElem_of_mem hx
  rw [List.length_take] at hn
  simp only [List.getElem_take] at hx'
  exact hx' ▸ h n (by omega) (by omega)

theorem mem_drop_ge {β : Type} {ks : List β} {r : Nat} {P : β → Prop}
    (h : ∀ j (hj : j < ks.length), r ≤ j → P (ks.get ⟨j, hj⟩)) :
    ∀ x ∈ ks.drop r, P x := by
  intro x hx
  obtain ⟨n, hn, hx'⟩ := List.getElem_of_mem hx
  rw [List.length_drop] at hn
  simp only [List.getElem_drop] at hx'
  exact hx' ▸ h (r + n) (by omega) (by omega)

theorem insertIdx_eq_take_cons_drop {β : Type} {l : List β} {n : Nat} (x : β)
    (h : n ≤ l.length) : l.insertIdx n x = l.take n ++ x :: l.drop n := by
  induction l generalizing n with
  | nil =>
    have : n = 0 := by simpa using h
    subst this; rfl
  | cons a t ih =>
    cases n with
    | zero => rfl
    | succ n =>
      simp only [List.insertIdx_succ_cons, List.take_succ_cons, List.drop_succ_cons,
        List.cons_append]
      rw [ih (by simpa using h)]

theorem lookupKey_eq_none {es : List (α × V)} {key : α}
    (h : ∀ e ∈ es, e.1 ≠ key) : lookupKey es key = none := by
  induction es with
  | nil => rfl
  | cons e rest ih =>
    obtain ⟨k, w⟩ := e
    rw [lookupKey, if_neg (h (k, w) (by simp))]
    exact ih fun e he => h e (by simp [he])

theorem lookupKey_none_iff {es : List (α × V)} {key : α} :
    lookupKey es key = none ↔ key ∉ es.map Prod.fst := by
  induction es with
  | nil => simp [lookupKey]
  | cons e rest ih =>
    obtain ⟨k, w⟩ := e
    by_cases hk : k = key
    · subst hk
      simp [lookupKey]
    · rw [lookupKey, if_neg hk]
      simp only [List.map_cons, List.mem_cons, ih]
      constructor
      · intro h hc
        rcases hc with hc | hc
        · exact hk hc.symm
        · exact h hc
      · intro h
        exact fun hc => h (Or.inr hc)

theorem lookupKey_append_left {l1 l2 : List (α × V)} {key : α}
    (h : ∀ e ∈ l1, e.1 ≠ key) :
    lookupKey (l1 ++ l2) key = lookupKey l2 key := by
  induction l1 with
  | nil => rfl
  | cons e rest ih =>
    obtain ⟨k, w⟩ := e
    rw [List.cons_append, lookupKey, if_neg (h (k, w) (by simp))]
    exact ih fun e he => h e (by simp [he])

theorem lookupKey_cons_eq {rest : List (α × V)} {key : α} {w : V} :
    lookupKey ((key, w) :: rest) key = some w := by
  simp [lookupKey]

theorem lookupKey_insertKey {l : List (α × V)} {key : α} {v : V} :
    lookupKey (insertKey l key v) key = some v := by
  induction l with
  | nil => simp [insertKey, lookupKey]
  | cons e rest ih =>
    obtain ⟨k, w⟩ := e
    by_cases hle : key ≤ k
    · rw [insertKey, if_pos hle]
      simp [lookupKey]
    · rw [insertKey, if_neg hle]
      rw [lookupKey, if_neg (by intro h; exact hle (le_of_eq h.symm))]
      exact ih

theorem insertKey_append_left {l1 l2 : List (α × V)} {key : α} {v : V}
    (h : ∀ e ∈ l1, e.1 < key) :
    insertKey (l1 ++ l2) key v = l1 ++ insertKey l2 key v := by
  induction l1 with
  | nil => rfl
  | cons e rest ih =>
    obtain ⟨k, w⟩ := e
    rw [List.cons_append, insertKey,
      if_neg (by simpa using h (k, w) (by simp)), List.cons_append]
    rw [ih fun e he => h e (by simp [he])]

theorem insertKey_append_right {l1 l2 : List (α × V)} {key : α} {v : V}
    (h : ∀ e ∈ l2, key < e.1) :
    insertKey (l1 ++ l2) key v = insertKey l1 key v ++ l2 := by
  induction l1 with
  | nil =>
    cases l2 with
    | nil => rfl
    | cons e r =>
      obtain ⟨k, w⟩ := e
      simp only [List.nil_append, insertKey]
      rw [if_pos (le_of_lt (h (k, w) (by simp)))]
      rfl
  | cons e rest ih =>
    obtain ⟨k, w⟩ := e
    by_cases hle : key ≤ k
    · rw [List.cons_append, insertKey, if_pos hle, insertKey, if_pos hle]
      simp
    · rw [List.cons_append, insertKey, if_neg hle, insertKey, if_neg hle, ih,
        List.cons_append]

theorem eraseKey_append_left {l1 l2 : List (α × V)} {key : α}
    (h : ∀ e ∈ l1, e.1 ≠ key) :
    eraseKey (l1 ++ l2) key = l1 ++ eraseKey l2 key := by
  induction l1 with
  | nil => rfl
  | cons e rest ih =>
    obtain ⟨k, w⟩ := e
    rw [List.cons_append, eraseKey, if_neg (h (k, w) (by simp)), List.cons_append,
      ih fun e he => h e (by simp [he])]

theorem eraseKey_of_not_mem {l : List (α × V)} {key : α}
    (h : key ∉ l.map Prod.fst) : eraseKey l key = l := by
  induction l with
  | nil => rfl
  | cons e rest ih =>
    obtain ⟨k, w⟩ := e
    simp only [List.map_cons, List.mem_cons] at h
    push_neg at h
    rw [eraseKey, if_neg (fun hc => h.1 hc.symm), ih h.2]

theorem eraseKey_append_right {l1 l2 : List (α × V)} {key : α}
    (h : ∀ e ∈ l2, e.1 ≠ key) :
    eraseKey (l1 ++ l2) key = eraseKey l1 key ++ l2 := by
  induction l1 with
  | nil =>
    simp only [List.nil_append, eraseKey]
    exact eraseKey_of_not_mem (by
      intro hc
      obtain ⟨e, he, he'⟩ := List.mem_map.mp hc
      exact h e he he')
  | cons e rest ih =>
    obtain ⟨k, w⟩ := e
    by_cases hk : k = key
    · subst hk
      rw [List.cons_append, eraseKey, if_pos rfl, eraseKey, if_pos rfl]
    · rw [List.cons_append, eraseKey, if_neg hk, eraseKey, if_neg hk,
        ih, List.cons_append]

theorem eraseKey_cons_eq {rest : List (α × V)} {key : α} {w : V} :
    eraseKey ((key, w) :: rest) key = rest := by
  simp [eraseKey]

/-- Leaf `Lookup` on a sorted page is association-list lookup. -/
theorem LeafLookup_eq {es : List (α × V)} {key : α}
    (hs : (es.map Prod.fst).Pairwise (· < ·)) :
    LeafLookup es key = lookupKey es key := by
  obtain ⟨hrle, hrlow, hrhigh⟩ := @LowerBound_spec α _ (es.map Prod.fst) key hs
  obtain ⟨r, hr_def⟩ : ∃ n, LowerBound (es.map Prod.fst) key = n := ⟨_, rfl⟩
  rw [hr_def] at hrle hrlow hrhigh
  rw [List.length_map] at hrle
  have hget : ∀ (j : Nat) (hj : j < es.length),
      (es.map Prod.fst).get ⟨j, by simpa using hj⟩ = (es.get ⟨j, hj⟩).1 := by
    intro j hj; simp
  have htake : ∀ e ∈ es.take r, e.1 ≠ key := by
    have hlt := @mem_take_lt (α × V) es r (fun e => e.1 < key) (by
      intro j hj hjr
      have := hrlow j (by simpa using hj) hjr
      rwa [hget j hj] at this)
    exact fun e he => ne_of_lt (hlt e he)
  simp only [LeafLookup]
  rw [hr_def]
  rcases Nat.lt_or_ge r es.length with hr | hr
  · rw [List.getElem?_eq_getElem hr]
    have hky : (es.get ⟨r, hr⟩).1 = (es.map Prod.fst).get ⟨r, by simpa using hr⟩ :=
      (hget r hr).symm
    rcases hgete : es.get ⟨r, hr⟩ with ⟨k, v⟩
    have hge2 : es[r] = es.get ⟨r, hr⟩ := rfl
    rw [hge2, hgete]
    simp only
    by_cases heq : compare k key = Ordering.eq
    · rw [if_pos heq]
      have hkeq : k = key := compare_eq_iff_eq.1 heq
      subst hkeq
      have hsplit : es = es.take r ++ es.get ⟨r, hr⟩ :: es.drop (r + 1) := by
        rw [← hge2, ← List.drop_eq_getElem_cons hr]
        exact (List.take_append_drop r es).symm
      rw [hsplit, lookupKey_append_left htake, hgete, lookupKey_cons_eq]
    · rw [if_neg heq]
      have hkne : k ≠ key := fun hc => heq (compare_eq_iff_eq.2 hc)
      have hkgt : key < k := by
        have := hrhigh r (by simpa using hr) (le_refl _)
        rw [hget r hr, hgete] at this
        exact lt_of_le_of_ne this (Ne.symm hkne)
      symm
      apply lookupKey_eq_none
      intro e he
      obtain ⟨i, he'⟩ := List.mem_iff_get.mp he
      rcases Nat.lt_or_ge i.1 r with hir | hir
      · have hmem : es.get ⟨i.1, i.isLt⟩ ∈ es.take r := by
          have hgl : (es.take r).get ⟨i.1, by rw [List.length_take]; omega⟩ =
              es.get ⟨i.1, i.isLt⟩ := by simp [List.getElem_take]
          rw [← hgl]
          exact List.get_mem _ _ _
        have hne := htake _ hmem
        rw [he'] at hne
        exact hne
      · have hkr : k ≤ (es.get ⟨i.1, i.isLt⟩).1 := by
          rcases Nat.eq_or_lt_of_le hir with heq2 | hlt2
          · have hsame : es.get ⟨i.1, i.isLt⟩ = es.get ⟨r, hr⟩ := by
              congr 1; exact Fin.ext heq2.symm
            rw [hsame, hgete]
          · have := List.pairwise_iff_get.1 hs ⟨r, by simpa using hr⟩
              ⟨i.1, by simpa using i.isLt⟩ (by simpa [Fin.lt_def] using hlt2)
            rw [hget r hr, hget i.1 i.isLt, hgete] at this
            exact le_of_lt this
        intro hc
        rw [← he'] at hc
        rw [hc] at hkr
        exact absurd hkr (not_le.mpr hkgt)
  · rw [List.getElem?_eq_none (by simpa using hr)]
    symm
    apply lookupKey_eq_none
    intro e he
    have : es.take r = es := List.take_of_length_le (by omega)
    exact htake e (by rw [this]; exact he)

theorem lookupKey_append_right {l1 l2 : List (α × V)} {key : α}
    (h : ∀ e ∈ l2, e.1 ≠ key) :
    lookupKey (l1 ++ l2) key = lookupKey l1 key := by
  induction l1 with
  | nil => exact lookupKey_eq_none h
  | cons e rest ih =>
    obtain ⟨k, w⟩ := e
    by_cases hk : k = key
    · subst hk
      rw [List.cons_append, lookupKey, if_pos rfl, lookupKey, if_pos rfl]
    · rw [List.cons_append, lookupKey, if_neg hk, lookupKey, if_neg hk, ih]

/-- Leaf `Insert` of a fresh key into a sorted page inserts exactly at the
`LowerBound` position; equivalently it is ordered association-list
insertion. -/
theorem LeafInsert_eq {es : List (α × V)} {key : α} {v : V}
    (hs : (es.map Prod.fst).Pairwise (· < ·)) (hmem : key ∉ es.map Prod.fst) :
    LeafInsert es key v =
        es.take (LowerBound (es.map Prod.fst) key) ++
          (key, v) :: es.drop (LowerBound (es.map Prod.fst) key) ∧
      LeafInsert es key v = insertKey es key v := by
  obtain ⟨hrle, hrlow, hrhigh⟩ := @LowerBound_spec α _ (es.map Prod.fst) key hs
  obtain ⟨r, hr_def⟩ : ∃ n, LowerBound (es.map Prod.fst) key = n := ⟨_, rfl⟩
  rw [hr_def] at hrle hrlow hrhigh
  rw [hr_def]
  rw [List.length_map] at hrle
  have hget : ∀ (j : Nat) (hj : j < es.length),
      (es.map Prod.fst).get ⟨j, by simpa using hj⟩ = (es.get ⟨j, hj⟩).1 := by
    intro j hj; simp
  have htake : ∀ e ∈ es.take r, e.1 < key := by
    refine @mem_take_lt (α × V) es r (fun e => e.1 < key) ?_
    intro j hj hjr
    have := hrlow j (by simpa using hj) hjr
    rwa [hget j hj] at this
  have hdrop : ∀ e ∈ es.drop r, key < e.1 := by
    refine @mem_drop_ge (α × V) es r (fun e => key < e.1) ?_
    intro j hj hjr
    have h1 := hrhigh j (by simpa using hj) hjr
    rw [hget j hj] at h1
    refine lt_of_le_of_ne h1 ?_
    intro hc
    exact hmem (hc ▸ List.mem_map_of_mem Prod.fst (List.get_mem es _ _))
  have hfirst : LeafInsert es key v = es.insertIdx r (key, v) := by
    simp only [LeafInsert]
    rw [hr_def]
    rcases Nat.lt_or_ge r es.length with hr | hr
    · rw [List.getElem?_eq_getElem hr]
      have hge2 : es[r] = es.get ⟨r, hr⟩ := rfl
      rcases hgete : es.get ⟨r, hr⟩ with ⟨k, w⟩
      rw [hge2, hgete]
      simp only
      have hkne : k ≠ key := by
        intro hc
        apply hmem
        rw [← hc]
        have hm2 : (es.get ⟨r, hr⟩).1 ∈ es.map Prod.fst :=
          List.mem_map_of_mem Prod.fst (List.get_mem es _ _)
        rwa [hgete] at hm2
      rw [if_neg (fun hc => hkne (compare_eq_iff_eq.1 hc))]
    · rw [List.getElem?_eq_none (by simpa using hr)]
  have hform : es.insertIdx r (key, v) = es.take r ++ (key, v) :: es.drop r :=
    insertIdx_eq_take_cons_drop _ hrle
  refine ⟨hfirst.trans hform, ?_⟩
  rw [hfirst, hform]
  have hsplit : es = es.take r ++ es.drop r := (List.take_append_drop r es).symm
  calc es.take r ++ (key, v) :: es.drop r
      = insertKey (es.take r ++ es.drop r) key v := by
        rw [insertKey_append_left htake]
        congr 1
        cases hd : es.drop r with
        | nil => rfl
        | cons e rest =>
          obtain ⟨k, w⟩ := e
          rw [insertKey, if_pos (le_of_lt (by
            have := hdrop (k, w) (by rw [hd]; simp)
            exact this))]
    _ = insertKey es key v := by rw [← hsplit]

theorem insertEntries_eq {lMax iMax : Nat} {key : α} {v : V}
    {es : List (α × BPage α V)} : ∀ {i : Nat} (h : i < es.length),
    insertEntries lMax iMax key v es i =
      match insertAux lMax iMax key v ((es.get ⟨i, h⟩).2) with
      | .dup => .dup
      | .one c' => .noSplit (es.set i ((es.get ⟨i, h⟩).1, c'))
      | .split l sep r => .pending (es.set i ((es.get ⟨i, h⟩).1, l)) sep r := by
  induction es with
  | nil => intro i h; simp at h
  | cons e rest ih =>
    obtain ⟨k, c⟩ := e
    intro i h
    match i with
    | 0 =>
      rw [insertEntries]
      simp only [List.get]
      cases hres : insertAux lMax iMax key v c <;> simp [hres, List.set]
    | i + 1 =>
      rw [insertEntries, ih (by simpa using h)]
      simp only [List.get]
      cases hres : insertAux lMax iMax key v ((rest.get ⟨i, by simpa using h⟩).2) <;>
        simp [hres, List.set]

theorem removeEntries_eq {lMax iMax : Nat} {key : α}
    {es : List (α × BPage α V)} : ∀ {i : Nat} (h : i < es.length),
    removeEntries lMax iMax key es i =
      match removeAux lMax iMax key ((es.get ⟨i, h⟩).2) with
      | none => none
      | some (c', fix) => some (es.set i ((es.get ⟨i, h⟩).1, c'), fix) := by
  induction es with
  | nil => intro i h; simp at h
  | cons e rest ih =>
    obtain ⟨k, c⟩ := e
    intro i h
    match i with
    | 0 =>
      rw [removeEntries]
      simp only [List.get]
      cases hres : removeAux lMax iMax key c <;> simp [hres, List.set]
    | i + 1 =>
      rw [removeEntries, ih (by simpa using h)]
      simp only [List.get]
      cases hres : removeAux lMax iMax key ((rest.get ⟨i, by simpa using h⟩).2) <;>
        simp [hres, List.set]

theorem findEntries_eq {key : α} {es : List (α × BPage α V)} :
    ∀ {i : Nat} (h : i < es.length),
    findEntries key es i = findAux key ((es.get ⟨i, h⟩).2) := by
  induction es with
  | nil => intro i h; simp at h
  | cons e rest ih =>
    obtain ⟨k, c⟩ := e
    intro i h
    match i with
    | 0 => rfl
    | i + 1 => exact ih (by simpa using h)

theorem entsToList_decomp {es : List (α × BPage α V)} {i : Nat}
    (h : i < es.length) :
    entsToList es = entsToList (es.take i) ++
      ((es.get ⟨i, h⟩).2.toList ++ entsToList (es.drop (i + 1))) := by
  conv_lhs => rw [← List.take_append_drop i es]
  rw [entsToList_append]
  congr 1
  have hd : es.drop i = es.get ⟨i, h⟩ :: es.drop (i + 1) := by
    have := List.drop_eq_getElem_cons h
    simpa using this
  rw [hd, entsToList_cons]

/-- `GetValue`'s descent on a well-formed page finds exactly the association
of the key in the page's in-order contents. -/
theorem findAux_ok {key : α} {p : BPage α V} : ∀ (lo hi : Option α),
    wfPage lo hi p = true →
    (∀ l, lo = some l → l ≤ key) → (∀ h, hi = some h → key < h) →
    findAux key p = lookupKey p.toList key := by
  induction p using BPage.ind with
  | hleaf es =>
    intro lo hi hw hklo hkhi
    rw [wfPage_leaf_iff] at hw
    exact LeafLookup_eq hw.1
  | hint es hIH =>
    intro lo hi hw hklo hkhi
    obtain ⟨e, hee, hwc, hclo, hchi, hpre, hsuf⟩ := wf_route key hw hklo hkhi
    obtain ⟨i, hi_def⟩ : ∃ n, InternalLookup (es.map Prod.fst) key = n := ⟨_, rfl⟩
    rw [hi_def] at hee hwc hclo hchi hpre hsuf
    have hilt : i < es.length := by
      by_contra hc
      rw [List.getElem?_eq_none (by omega)] at hee
      exact absurd hee (by simp)
    have hegete : es.get ⟨i, hilt⟩ = e := by
      rw [List.getElem?_eq_getElem hilt] at hee
      simpa using hee
    show findEntries key es (InternalLookup (es.map Prod.fst) key) = _
    rw [hi_def, findEntries_eq hilt, hegete]
    have hihc := hIH e (hegete ▸ List.get_mem es _ _) _ _ hwc hclo hchi
    rw [hihc]
    show _ = lookupKey (entsToList es) key
    rw [entsToList_decomp hilt, lookupKey_append_left (by
      intro e2 he2
      exact ne_of_lt (hpre e2.1 (List.mem_map_of_mem _ he2)))]
    rw [hegete]
    rw [lookupKey_append_right (by
      intro e2 he2
      exact ne_of_gt (hsuf e2.1 (List.mem_map_of_mem _ he2)))]

theorem set_get_self {β : Type} {l : List β} {n : Nat} (h : n < l.length) :
    l.set n (l.get ⟨n, h⟩) = l := by
  apply List.ext_getElem
  · simp
  · intro i h1 h2
    rcases eq_or_ne i n with rfl | hne
    · simp
    · rw [List.getElem_set_ne (Ne.symm hne)]

theorem set_eq_take_cons_drop {β : Type} {l : List β} {n : Nat} (x : β)
    (h : n < l.length) : l.set n x = l.take n ++ x :: l.drop (n + 1) := by
  rw [List.set_eq_take_append_cons_drop, if_pos h]

theorem set_insertIdx_decomp {β : Type} {l : List β} {n : Nat} (x y : β)
    (h : n < l.length) :
    (l.set n x).insertIdx (n + 1) y = l.take n ++ x :: y :: l.drop (n + 1) := by
  rw [set_eq_take_cons_drop x h]
  have hlen : (l.take n).length = n := by
    rw [List.length_take]; omega
  have hle2 : n + 1 ≤ (l.take n ++ x :: l.drop (n + 1)).length := by
    simp [hlen]
  rw [insertIdx_eq_take_cons_drop y hle2]
  have htk : (l.take n ++ x :: l.drop (n + 1)).take (n + 1) = l.take n ++ [x] := by
    have h1 : n + 1 = (l.take n).length + 1 := by omega
    rw [h1, List.take_append]
    rfl
  have hdr : (l.take n ++ x :: l.drop (n + 1)).drop (n + 1) = l.drop (n + 1) := by
    have h1 : n + 1 = (l.take n).length + 1 := by omega
    rw [h1, List.drop_append]
    rfl
  rw [htk, hdr]
  simp

theorem length_insertKey {l : List (α × V)} {key : α} {v : V} :
    (insertKey l key v).length = l.length + 1 := by
  induction l with
  | nil => rfl
  | cons e rest ih =>
    obtain ⟨k, w⟩ := e
    by_cases hle : key ≤ k
    · rw [insertKey, if_pos hle]; simp
    · rw [insertKey, if_neg hle]
      simp [ih]

theorem insertKey_mem_keys {l : List (α × V)} {key x : α} {v : V} :
    x ∈ (insertKey l key v).map Prod.fst ↔ x ∈ l.map Prod.fst ∨ x = key := by
  induction l with
  | nil => simp [insertKey]
  | cons e rest ih =>
    obtain ⟨k, w⟩ := e
    by_cases hle : key ≤ k
    · rw [insertKey, if_pos hle]
      simp only [List.map_cons, List.mem_cons]
      tauto
    · rw [insertKey, if_neg hle]
      simp only [List.map_cons, List.mem_cons, ih]
      tauto

theorem insertKey_pairwise {l : List (α × V)} {key : α} {v : V}
    (hs : (l.map Prod.fst).Pairwise (· < ·)) (hfresh : key ∉ l.map Prod.fst) :
    ((insertKey l key v).map Prod.fst).Pairwise (· < ·) := by
  induction l with
  | nil => simp [insertKey]
  | cons e rest ih =>
    obtain ⟨k, w⟩ := e
    simp only [List.map_cons, List.pairwise_cons] at hs
    simp only [List.map_cons, List.mem_cons] at hfresh
    push_neg at hfresh
    by_cases hle : key ≤ k
    · rw [insertKey, if_pos hle]
      have hklt : key < k := lt_of_le_of_ne hle hfresh.1
      simp only [List.map_cons, List.pairwise_cons]
      refine ⟨?_, hs.1, hs.2⟩
      intro x hx
      rcases List.mem_cons.1 hx with rfl | hx
      · exact hklt
      · exact lt_trans hklt (hs.1 x hx)
    · rw [insertKey, if_neg hle]
      simp only [List.map_cons, List.pairwise_cons]
      refine ⟨?_, ih hs.2 hfresh.2⟩
      intro x hx
      rcases insertKey_mem_keys.1 hx with hx | rfl
      · exact hs.1 x hx
      · exact lt_of_not_le hle

theorem firstKey_set_same {es : List (α × BPage α V)} {hi : Option α} {j : Nat}
    (h : j < es.length) {c' : BPage α V} :
    firstKey (es.set j ((es.get ⟨j, h⟩).1, c')) hi = firstKey es hi := by
  cases es with
  | nil => rfl
  | cons e rest =>
    cases j with
    | zero => rfl
    | succ j => rfl

theorem wfChildren_set {hi : Option α} {rest : List (α × BPage α V)} :
    ∀ {j : Nat} (h : j < rest.length), wfChildren hi rest = true →
    ∀ {c' : BPage α V},
    wfPage (some ((rest.get ⟨j, h⟩).1)) (firstKey (rest.drop (j + 1)) hi) c' = true →
    wfChildren hi (rest.set j ((rest.get ⟨j, h⟩).1, c')) = true := by
  induction rest with
  | nil => intro j h; simp at h
  | cons e tail ih =>
    obtain ⟨k, c⟩ := e
    intro j h hch c' hwc
    rw [wfChildren_cons_iff] at hch
    match j with
    | 0 =>
      rw [show (((k, c) :: tail).set 0 ((((k, c) :: tail).get ⟨0, h⟩).1, c')) =
        (k, c') :: tail from rfl]
      rw [wfChildren_cons_iff]
      exact ⟨hwc, hch.2⟩
    | j + 1 =>
      have hkeep : (((k, c) :: tail).set (j + 1) ((((k, c) :: tail).get ⟨j + 1, h⟩).1, c')) =
          (k, c) :: tail.set j ((tail.get ⟨j, by simpa using h⟩).1, c') := rfl
      rw [hkeep, wfChildren_cons_iff]
      constructor
      · rw [firstKey_set_same (by simpa using h)]
        exact hch.1
      · exact ih (by simpa using h) hch.2 hwc

/-- Replacing the child of one slot (keeping its key) by a page that is
well-formed in that slot's interval preserves well-formedness. -/
theorem wf_set_child {lo hi : Option α} {es : List (α × BPage α V)} {i : Nat}
    (h : i < es.length) (hw : wfPage lo hi (.internal es) = true)
    {c' : BPage α V}
    (hwc : wfPage (if i = 0 then lo else some ((es.get ⟨i, h⟩).1))
      (firstKey (es.drop (i + 1)) hi) c' = true) :
    wfPage lo hi (.internal (es.set i ((es.get ⟨i, h⟩).1, c'))) = true := by
  match es with
  | (s0, c0) :: rest =>
    rw [wfPage_internal_iff] at hw
    obtain ⟨hs0, hpw, hall, hc0, hch⟩ := hw
    match i with
    | 0 =>
      rw [show (((s0, c0) :: rest).set 0 ((((s0, c0) :: rest).get ⟨0, h⟩).1, c')) =
        (s0, c') :: rest from rfl]
      rw [wfPage_internal_iff]
      refine ⟨hs0, hpw, hall, ?_, hch⟩
      rw [if_pos rfl] at hwc
      exact hwc
    | i + 1 =>
      have hkeep : (((s0, c0) :: rest).set (i + 1)
            ((((s0, c0) :: rest).get ⟨i + 1, h⟩).1, c')) =
          (s0, c0) :: rest.set i ((rest.get ⟨i, by simpa using h⟩).1, c') := rfl
      rw [hkeep, wfPage_internal_iff]
      have hmk : (rest.set i ((rest.get ⟨i, by simpa using h⟩).1, c')).map Prod.fst =
          rest.map Prod.fst := by
        rw [List.map_set]
        have hg : ((rest.get ⟨i, by simpa using h⟩).1, c').1 =
            (rest.map Prod.fst).get ⟨i, by simpa using h⟩ := by simp
        rw [hg]
        exact set_get_self (by simpa using h)
      refine ⟨hs0, by rw [hmk]; exact hpw, by rw [hmk]; exact hall, ?_, ?_⟩
      · rw [firstKey_set_same (by simpa using h)]
        exact hc0
      · refine wfChildren_set (by simpa using h) hch ?_
        rw [if_neg (by omega)] at hwc
        exact hwc

theorem pairwise_take_lt_get {l : List α} (hs : l.Pairwise (· < ·)) {m : Nat}
    (hm : m < l.length) : ∀ x ∈ l.take m, x < l.get ⟨m, hm⟩ := by
  refine mem_take_lt ?_
  intro j hj hjm
  exact List.pairwise_iff_get.1 hs ⟨j, hj⟩ ⟨m, hm⟩ (by simpa [Fin.lt_def] using hjm)

theorem pairwise_drop_ge_get {l : List α} (hs : l.Pairwise (· < ·)) {m : Nat}
    (hm : m < l.length) : ∀ x ∈ l.drop m, l.get ⟨m, hm⟩ ≤ x := by
  refine mem_drop_ge ?_
  intro j hj hjm
  rcases Nat.eq_or_lt_of_le hjm with rfl | hlt
  · exact le_of_eq (by congr 1)
  · exact le_of_lt (List.pairwise_iff_get.1 hs ⟨m, hm⟩ ⟨j, hj⟩
      (by simpa [Fin.lt_def] using hlt))

theorem pairwise_insertIdx_between {ks : List α} (hs : ks.Pairwise (· < ·))
    {m : Nat} (hm : m < ks.length) {x : α} (hx1 : ks.get ⟨m, hm⟩ < x)
    (hx2 : ∀ (hy : m + 1 < ks.length), x < ks.get ⟨m + 1, hy⟩) :
    (ks.insertIdx (m + 1) x).Pairwise (· < ·) := by
  rw [insertIdx_eq_take_cons_drop x (by omega)]
  rw [List.pairwise_append]
  refine ⟨hs.sublist (List.take_sublist _ _), ?_, ?_⟩
  · rw [List.pairwise_cons]
    refine ⟨?_, hs.sublist (List.drop_sublist _ _)⟩
    refine mem_drop_ge ?_
    intro j hj hjm
    rcases Nat.eq_or_lt_of_le hjm with heq | hlt
    · subst heq
      exact hx2 hj
    · exact lt_trans (hx2 (by omega))
        (List.pairwise_iff_get.1 hs ⟨m + 1, by omega⟩ ⟨j, hj⟩
          (by simp only [Fin.mk_lt_mk]; omega))
  · intro a ha b hb
    have halt : ∀ y ∈ ks.take (m + 1), y ≤ ks.get ⟨m, hm⟩ := by
      refine mem_take_lt ?_
      intro j hj hjm
      rcases Nat.eq_or_lt_of_le (by omega : j + 1 ≤ m + 1) with heq | hlt
      · have hje : j = m := by omega
        subst hje
        exact le_refl _
      · exact le_of_lt (List.pairwise_iff_get.1 hs ⟨j, hj⟩ ⟨m, hm⟩
          (by simp only [Fin.mk_lt_mk]; omega))
    have hgen : ∀ y ∈ ks.drop (m + 1), x < y := by
      refine mem_drop_ge ?_
      intro j hj hjm
      rcases Nat.eq_or_lt_of_le hjm with heq | hlt
      · subst heq
        exact hx2 hj
      · exact lt_trans (hx2 (by omega))
          (List.pairwise_iff_get.1 hs ⟨m + 1, by omega⟩ ⟨j, hj⟩
            (by simp only [Fin.mk_lt_mk]; omega))
    have hxb : x ≤ b := by
      rcases List.mem_cons.1 hb with rfl | hb
      · exact le_refl _
      · exact le_of_lt (hgen b hb)
    exact lt_of_le_of_lt (halt a ha) (lt_of_lt_of_le hx1 hxb)

theorem firstKey_insertIdx_pos {es : List (α × BPage α V)} {hi : Option α}
    {n : Nat} (hn : 1 ≤ n) {x : α × BPage α V} :
    firstKey (es.insertIdx n x) hi = firstKey es hi := by
  cases es with
  | nil =>
    cases n with
    | zero => omega
    | succ n => rfl
  | cons e rest =>
    cases n with
    | zero => omega
    | succ n => rfl

/-- Replacing a slot's child by the two halves of its split — the left half
keeps the slot, the `(sep, right)` pair goes right after it
(`InsertNodeAfter`) — preserves well-formedness, regardless of the page's
size. -/
theorem wf_set_child_insert {lo hi : Option α} {es : List (α × BPage α V)}
    {i : Nat} (h : i < es.length) (hw : wfPage lo hi (.internal es) = true)
    {l r : BPage α V} {sep : α}
    (hwl : wfPage (if i = 0 then lo else some ((es.get ⟨i, h⟩).1)) (some sep) l = true)
    (hwr : wfPage (some sep) (firstKey (es.drop (i + 1)) hi) r = true)
    (hslo : ∀ x, (if i = 0 then lo else some ((es.get ⟨i, h⟩).1)) = some x → x < sep)
    (hshi : ∀ x, firstKey (es.drop (i + 1)) hi = some x → sep < x) :
    wfPage lo hi
      (.internal ((es.set i ((es.get ⟨i, h⟩).1, l)).insertIdx (i + 1) (sep, r))) =
      true := by
  rw [set_insertIdx_decomp _ _ h]
  match es with
  | (s0, c0) :: rest =>
    rw [wfPage_internal_iff] at hw
    obtain ⟨hs0, hpw, hall, hc0, hch⟩ := hw
    match i with
    | 0 =>
      rw [if_pos rfl] at hwl hslo
      have hfk : firstKey (((s0, c0) :: rest).drop 1) hi = firstKey rest hi := rfl
      rw [hfk] at hwr hshi
      show wfPage lo hi (.internal ((s0, l) :: (sep, r) :: rest)) = true
      rw [wfPage_internal_iff]
      refine ⟨hs0, ?_, ?_, ?_, ?_⟩
      · simp only [List.map_cons]
        rw [List.pairwise_cons]
        refine ⟨?_, hpw⟩
        intro x hx
        cases rest with
        | nil => simp at hx
        | cons e1 r1 =>
          have hsep1 : sep < e1.1 := hshi e1.1 rfl
          rw [List.map_cons] at hx hpw
          rcases List.mem_cons.1 hx with rfl | hx2
          · exact hsep1
          · exact lt_trans hsep1 (List.rel_of_pairwise_cons hpw hx2)
      · intro k hk
        simp only [List.map_cons, List.mem_cons] at hk
        rcases hk with rfl | hk
        · refine ⟨fun x hx => hslo x hx, fun x hx => ?_⟩
          cases rest with
          | nil => exact hshi x (by simpa [firstKey] using hx)
          | cons e1 r1 =>
            exact lt_trans (hshi e1.1 rfl) ((hall e1.1 (by simp)).2 x hx)
        · exact hall k hk
      · exact hwl
      · rw [wfChildren_cons_iff]
        exact ⟨hwr, hch⟩
    | j + 1 =>
      have hjr : j < rest.length := by simpa using h
      have hget1 : ((s0, c0) :: rest).get ⟨j + 1, h⟩ = rest.get ⟨j, hjr⟩ := rfl
      rw [if_neg (by omega)] at hwl hslo
      rw [hget1] at hwl hslo
      have hdr : ((s0, c0) :: rest).drop (j + 1 + 1) = rest.drop (j + 1) := rfl
      rw [hdr] at hwr hshi
      have htk : ((s0, c0) :: rest).take (j + 1) = (s0, c0) :: rest.take j := rfl
      rw [htk, hget1, hdr]
      have hkj : (rest.get ⟨j, hjr⟩).1 = (rest.map Prod.fst).get ⟨j, by simpa using hjr⟩ := by
        simp
      have hdropj : rest.drop j = rest.get ⟨j, hjr⟩ :: rest.drop (j + 1) := by
        have := List.drop_eq_getElem_cons hjr
        simpa using this
      show wfPage lo hi (.internal ((s0, c0) ::
        (rest.take j ++ ((rest.get ⟨j, hjr⟩).1, l) :: (sep, r) :: rest.drop (j + 1)))) = true
      rw [wfPage_internal_iff]
      have hmapform : (rest.take j ++ ((rest.get ⟨j, hjr⟩).1, l) :: (sep, r) ::
          rest.drop (j + 1)).map Prod.fst =
          (rest.map Prod.fst).insertIdx (j + 1) sep := by
        rw [insertIdx_eq_take_cons_drop sep (by simpa using Nat.succ_le_of_lt hjr)]
        rw [List.map_append, List.map_cons, List.map_cons, List.map_take,
          List.map_drop]
        have hts : (rest.map Prod.fst).take (j + 1) =
            (rest.map Prod.fst).take j ++ [(rest.map Prod.fst).get ⟨j, by simpa using hjr⟩] := by
          rw [List.take_succ]
          congr 1
          rw [List.getElem?_eq_getElem (by simpa using hjr)]
          rfl
        rw [hts, hkj]
        simp
      refine ⟨hs0, ?_, ?_, ?_, ?_⟩
      · rw [hmapform]
        refine pairwise_insertIdx_between hpw (by simpa using hjr) ?_ ?_
        · rw [← hkj]
          exact hslo _ rfl
        · intro hy
          have hd1 : (rest.map Prod.fst).get ⟨j + 1, hy⟩ =
              (rest.get ⟨j + 1, by simpa using hy⟩).1 := by simp
          refine hshi _ ?_
          have hd2 : rest.drop (j + 1) =
              rest.get ⟨j + 1, by simpa using hy⟩ :: rest.drop (j + 2) := by
            have h3 := List.drop_eq_getElem_cons
              (show j + 1 < rest.length by simpa using hy)
            simpa using h3
          rw [hd2, hd1]
          rfl
      · intro k hk
        rw [hmapform] at hk
        have hk2 := (List.mem_insertIdx (by simpa using Nat.succ_le_of_lt hjr)).1 hk
        rcases hk2 with rfl | hk2
        · constructor
          · intro x hx
            have h1 := (hall (rest.get ⟨j, hjr⟩).1
              (by rw [hkj]; exact List.get_mem _ _ _)).1 x hx
            exact lt_trans h1 (hslo _ rfl)
          · intro x hx
            cases hde : rest.drop (j + 1) with
            | nil =>
              refine hshi x ?_
              rw [hde]
              simpa [firstKey] using hx
            | cons e1 r1 =>
              have hsep1 : k < e1.1 := by
                refine hshi e1.1 ?_
                rw [hde]
                rfl
              have he1mem : e1.1 ∈ rest.map Prod.fst := by
                refine List.mem_map_of_mem _ ?_
                have : e1 ∈ rest.drop (j + 1) := by rw [hde]; simp
                exact List.mem_of_mem_drop this
              exact lt_trans hsep1 ((hall e1.1 he1mem).2 x hx)
        · exact hall k hk2
      · have hfk2 : firstKey (rest.take j ++ ((rest.get ⟨j, hjr⟩).1, l) :: (sep, r) ::
            rest.drop (j + 1)) hi = firstKey rest hi := by
          cases rest with
          | nil => simp at hjr
          | cons e1 r1 =>
            cases j with
            | zero => rfl
            | succ j2 => rfl
        rw [hfk2]
        exact hc0
      · rw [wfChildren_append]
        constructor
        · have hw1 := wfChildren_take hch j
          rw [hdropj] at hw1
          simpa [firstKey] using hw1
        · rw [wfChildren_cons_iff]
          refine ⟨by simpa [firstKey] using hwl, ?_⟩
          rw [wfChildren_cons_iff]
          exact ⟨hwr, wfChildren_drop hch (j + 1)⟩

/-- Splitting a well-formed internal page at any slot `m ≥ 1` (`MoveHalfTo`):
the first `m` slots keep the page's identity, the remaining slots — whose
first key is the middle key returned to the parent — form a page whose
sentinel is exactly that middle key, and both halves are well-formed on the
two sides of the middle key. -/
theorem wf_internal_split {lo hi : Option α} {es2 : List (α × BPage α V)}
    (hw : wfPage lo hi (.internal es2) = true) {m : Nat} (h1 : 1 ≤ m)
    (h2 : m < es2.length) :
    wfPage lo (some ((es2.get ⟨m, h2⟩).1)) (.internal (es2.take m)) = true ∧
      wfPage (some ((es2.get ⟨m, h2⟩).1)) hi (.internal (es2.drop m)) = true ∧
      (∀ x, lo = some x → x < (es2.get ⟨m, h2⟩).1) ∧
      (∀ x, hi = some x → (es2.get ⟨m, h2⟩).1 < x) := by
  match es2, m with
  | (s0, c0) :: rest, j + 1 =>
    rw [wfPage_internal_iff] at hw
    obtain ⟨hs0, hpw, hall, hc0, hch⟩ := hw
    have hjr : j < rest.length := by simpa using h2
    have hget1 : ((s0, c0) :: rest).get ⟨j + 1, h2⟩ = rest.get ⟨j, hjr⟩ := rfl
    rw [hget1]
    have hkm_mem : (rest.get ⟨j, hjr⟩).1 ∈ rest.map Prod.fst := by
      have : (rest.get ⟨j, hjr⟩).1 = (rest.map Prod.fst).get ⟨j, by simpa using hjr⟩ := by
        simp
      rw [this]
      exact List.get_mem _ _ _
    have hdropj : rest.drop j = rest.get ⟨j, hjr⟩ :: rest.drop (j + 1) := by
      have h3 := List.drop_eq_getElem_cons hjr
      simpa using h3
    have htk : ((s0, c0) :: rest).take (j + 1) = (s0, c0) :: rest.take j := rfl
    have hdrtl : ((s0, c0) :: rest).drop (j + 1) = rest.drop j := rfl
    refine ⟨?_, ?_, ?_, ?_⟩
    · -- left half
      rw [htk, wfPage_internal_iff]
      refine ⟨hs0, ?_, ?_, ?_, ?_⟩
      · rw [List.map_take]
        exact hpw.sublist (List.take_sublist _ _)
      · intro k hk
        rw [List.map_take] at hk
        refine ⟨fun x hx => (hall k (List.mem_of_mem_take hk)).1 x hx, ?_⟩
        intro x hx
        injection hx with hx
        subst hx
        have hlt := pairwise_take_lt_get hpw (by simpa using hjr) k hk
        have hgm : (rest.map Prod.fst).get ⟨j, by simpa using hjr⟩ =
            (rest.get ⟨j, hjr⟩).1 := by simp
        rwa [hgm] at hlt
      · have hfk : firstKey (rest.take j) (some ((rest.get ⟨j, hjr⟩).1)) =
            firstKey rest hi := by
          cases rest with
          | nil => simp at hjr
          | cons e1 r1 =>
            cases j with
            | zero => rfl
            | succ j2 => rfl
        rw [hfk]
        exact hc0
      · have hw1 := wfChildren_take hch j
        rw [hdropj] at hw1
        simpa [firstKey] using hw1
    · -- right half
      rw [hdrtl, hdropj]
      rcases hgm : rest.get ⟨j, hjr⟩ with ⟨km, cm⟩
      show wfPage (some km) hi (.internal ((km, cm) :: rest.drop (j + 1))) = true
      rw [wfPage_internal_iff]
      refine ⟨?_, ?_, ?_, ?_, ?_⟩
      · intro x hx
        injection hx with hx
      · rw [List.map_drop]
        exact hpw.sublist (List.drop_sublist _ _)
      · intro k hk
        rw [List.map_drop] at hk
        have hkmem : k ∈ rest.map Prod.fst :=
          List.mem_of_mem_drop hk
        refine ⟨?_, fun x hx => (hall k hkmem).2 x hx⟩
        intro x hx
        injection hx with hx
        subst hx
        have hgen : ∀ y ∈ (rest.map Prod.fst).drop (j + 1), km < y := by
          refine mem_drop_ge ?_
          intro t ht htj
          have hlt := List.pairwise_iff_get.1 hpw ⟨j, by simpa using hjr⟩ ⟨t, ht⟩
            (by simp only [Fin.mk_lt_mk]; omega)
          have hgj : (rest.map Prod.fst).get ⟨j, by simpa using hjr⟩ =
              (rest.get ⟨j, hjr⟩).1 := by simp
          rw [hgj, hgm] at hlt
          exact hlt
        exact hgen k hk
      · have hwg := wfChildren_get hch hjr
        rw [hgm] at hwg
        exact hwg
      · exact wfChildren_drop hch (j + 1)
    · intro x hx
      exact (hall _ hkm_mem).1 x hx
    · intro x hx
      exact (hall _ hkm_mem).2 x hx

theorem take_insertIdx_le {β : Type} (x : β) :
    ∀ (l : List β) (k n : Nat), k ≤ n → n ≤ l.length →
      (l.insertIdx k x).take (n + 1) = (l.take n).insertIdx k x := by
  intro l
  induction l with
  | nil =>
    intro k n hk hn
    have hn0 : n = 0 := by simpa using hn
    have hk0 : k = 0 := by omega
    subst hn0; subst hk0
    rfl
  | cons a t ih =>
    intro k n hk hn
    cases k with
    | zero =>
      rw [List.insertIdx_zero, List.insertIdx_zero, List.take_succ_cons]
    | succ k =>
      cases n with
      | zero => omega
      | succ n =>
        rw [List.insertIdx_succ_cons, List.take_succ_cons, List.take_succ_cons,
          List.insertIdx_succ_cons, ih k n (by omega) (by simpa using hn)]

theorem drop_insertIdx_le {β : Type} (x : β) :
    ∀ (l : List β) (k n : Nat), k ≤ n →
      (l.insertIdx k x).drop (n + 1) = l.drop n := by
  intro l
  induction l with
  | nil =>
    intro k n hk
    cases k with
    | zero => simp
    | succ k => simp [List.insertIdx]
  | cons a t ih =>
    intro k n hk
    cases k with
    | zero =>
      rw [List.insertIdx_zero, List.drop_succ_cons]
    | succ k =>
      cases n with
      | zero => omega
      | succ n =>
        rw [List.insertIdx_succ_cons, List.drop_succ_cons, List.drop_succ_cons,
          ih k n (by omega)]

theorem take_insertIdx_gt {β : Type} (x : β) :
    ∀ (l : List β) (k n : Nat), n ≤ k →
      (l.insertIdx k x).take n = l.take n := by
  intro l
  induction l with
  | nil =>
    intro k n hk
    cases k with
    | zero =>
      have : n = 0 := by omega
      subst this; rfl
    | succ k => simp [List.insertIdx]
  | cons a t ih =>
    intro k n hk
    cases k with
    | zero =>
      have : n = 0 := by omega
      subst this; rfl
    | succ k =>
      cases n with
      | zero => rfl
      | succ n =>
        rw [List.insertIdx_succ_cons, List.take_succ_cons, List.take_succ_cons,
          ih k n (by omega)]

theorem drop_insertIdx_gt {β : Type} (x : β) :
    ∀ (l : List β) (k n : Nat), n ≤ k → k ≤ l.length →
      (l.insertIdx k x).drop n = (l.drop n).insertIdx (k - n) x := by
  intro l
  induction l with
  | nil =>
    intro k n hk hkl
    have hk0 : k = 0 := by simpa using hkl
    subst hk0
    have hn0 : n = 0 := by omega
    subst hn0
    rfl
  | cons a t ih =>
    intro k n hk hkl
    cases n with
    | zero => rfl
    | succ n =>
      cases k with
      | zero => omega
      | succ k =>
        rw [List.insertIdx_succ_cons, List.drop_succ_cons, List.drop_succ_cons,
          ih k n (by omega) (by simpa using hkl)]
        congr 1
        omega

theorem get_insertIdx_le {β : Type} (x : β) {l : List β} {k n : Nat} (hk : k ≤ n)
    (hn : n < l.length) (h2 : n + 1 < (l.insertIdx k x).length) :
    (l.insertIdx k x).get ⟨n + 1, h2⟩ = l.get ⟨n, hn⟩ := by
  have hd := drop_insertIdx_le x l k n hk
  have h1 := List.drop_eq_getElem_cons h2
  have h3 := List.drop_eq_getElem_cons hn
  rw [hd, h3] at h1
  have h4 := (List.cons.injEq _ _ _ _ ▸ h1 : _ ∧ _)
  exact h4.1.symm

theorem get_insertIdx_gt {β : Type} (x : β) {l : List β} {k n : Nat} (hk : n < k)
    (hkl : k ≤ l.length) (hn : n < l.length) (h2 : n < (l.insertIdx k x).length) :
    (l.insertIdx k x).get ⟨n, h2⟩ = l.get ⟨n, hn⟩ := by
  have hd := drop_insertIdx_gt x l k n (by omega) hkl
  have h1 := List.drop_eq_getElem_cons h2
  have h3 := List.drop_eq_getElem_cons hn
  rw [hd] at h1
  rw [insertIdx_eq_take_cons_drop x (by simp [List.length_drop]; omega)] at h1
  rcases hkn : k - n with _ | m
  · omega
  · rw [hkn] at h1
    rw [h3] at h1
    rw [List.take_succ_cons] at h1
    have h4 := (List.cons.injEq _ _ _ _ ▸ h1 : _ ∧ _)
    exact h4.1.symm

theorem length_insertIdx_le {β : Type} (x : β) {l : List β} {k : Nat}
    (h : k ≤ l.length) : (l.insertIdx k x).length = l.length + 1 := by
  rw [insertIdx_eq_take_cons_drop x h]
  simp
  omega

theorem get_congr {β : Type} {l1 l2 : List β} (h : l1 = l2) {n : Nat}
    (h1 : n < l1.length) (h2 : n < l2.length) : l1.get ⟨n, h1⟩ = l2.get ⟨n, h2⟩ := by
  subst h
  rfl

theorem map_fst_set_same {β γ : Type} {l : List (β × γ)} {i : Nat}
    (h : i < l.length) {y : γ} :
    (l.set i ((l.get ⟨i, h⟩).1, y)).map Prod.fst = l.map Prod.fst := by
  rw [List.map_set]
  have hg : ((l.get ⟨i, h⟩).1, y).1 = (l.map Prod.fst).get ⟨i, by simpa using h⟩ := by
    simp
  rw [hg]
  exact set_get_self (by simpa using h)

/-- Routing keys of a well-formed internal page are strictly increasing from
slot 1 on. -/
theorem wf_internal_get_lt {lo hi : Option α} {es : List (α × BPage α V)}
    (hw : wfPage lo hi (.internal es) = true) {a b : Nat} (ha : 1 ≤ a) (hab : a < b)
    (ha' : a < es.length) (hb : b < es.length) :
    (es.get ⟨a, ha'⟩).1 < (es.get ⟨b, hb⟩).1 := by
  match es with
  | [] => rw [wfPage_internal_nil] at hw; exact absurd hw (by simp)
  | (s0, c0) :: rest =>
    rw [wfPage_internal_iff] at hw
    have hpw := hw.2.1
    obtain ⟨a2, rfl⟩ : ∃ t, a = t + 1 := ⟨a - 1, by omega⟩
    obtain ⟨b2, rfl⟩ : ∃ t, b = t + 1 := ⟨b - 1, by omega⟩
    have ha2 : a2 < rest.length := by simpa using ha'
    have hb2 : b2 < rest.length := by simpa using hb
    have hlt := List.pairwise_iff_get.1 hpw ⟨a2, by simpa using ha2⟩
      ⟨b2, by simpa using hb2⟩ (by simp only [Fin.mk_lt_mk]; omega)
    have hga : (rest.map Prod.fst).get ⟨a2, by simpa using ha2⟩ =
        (rest.get ⟨a2, ha2⟩).1 := by simp
    have hgb : (rest.map Prod.fst).get ⟨b2, by simpa using hb2⟩ =
        (rest.get ⟨b2, hb2⟩).1 := by simp
    rw [hga, hgb] at hlt
    have he1 : ((s0, c0) :: rest).get ⟨a2 + 1, ha'⟩ = rest.get ⟨a2, ha2⟩ := rfl
    have he2 : ((s0, c0) :: rest).get ⟨b2 + 1, hb⟩ = rest.get ⟨b2, hb2⟩ := rfl
    rw [he1, he2]
    exact hlt

theorem wf_internal_get_le {lo hi : Option α} {es : List (α × BPage α V)}
    (hw : wfPage lo hi (.internal es) = true) {a b : Nat} (ha : 1 ≤ a) (hab : a ≤ b)
    (ha' : a < es.length) (hb : b < es.length) :
    (es.get ⟨a, ha'⟩).1 ≤ (es.get ⟨b, hb⟩).1 := by
  rcases eq_or_lt_of_le hab with rfl | hlt
  · exact le_of_eq rfl
  · exact le_of_lt (wf_internal_get_lt hw ha hlt ha' hb)

theorem insertAux_leaf_eq {lMax iMax : Nat} {key : α} {v : V} {es : List (α × V)} :
    insertAux lMax iMax key v (BPage.leaf es) =
      match LeafLookup es key with
      | some _ => InsRes.dup
      | none =>
        if lMax < (LeafInsert es key v).length then
          match ((LeafInsert es key v).drop ((LeafInsert es key v).length / 2)).head? with
          | some e =>
            InsRes.split
              (.leaf ((LeafInsert es key v).take ((LeafInsert es key v).length / 2)))
              e.1 (.leaf ((LeafInsert es key v).drop ((LeafInsert es key v).length / 2)))
          | none => InsRes.one (.leaf (LeafInsert es key v))
        else InsRes.one (.leaf (LeafInsert es key v)) := by
  rw [insertAux]

theorem insertAux_internal_eq {lMax iMax : Nat} {key : α} {v : V}
    {es : List (α × BPage α V)} :
    insertAux lMax iMax key v (BPage.internal es) =
      match insertEntries lMax iMax key v es (InternalLookup (es.map Prod.fst) key) with
      | .dup => InsRes.dup
      | .noSplit es1 => InsRes.one (.internal es1)
      | .pending es1 sep r =>
        if es1.length = iMax then
          match es1[es1.length / 2]? with
          | some m =>
            if compare sep m.1 = Ordering.lt then
              InsRes.split
                (.internal ((es1.take (es1.length / 2)).insertIdx
                  (InternalLookup (es.map Prod.fst) key + 1) (sep, r)))
                m.1 (.internal (es1.drop (es1.length / 2)))
            else
              InsRes.split (.internal (es1.take (es1.length / 2))) m.1
                (.internal ((es1.drop (es1.length / 2)).insertIdx
                  (InternalLookup (es.map Prod.fst) key - es1.length / 2 + 1) (sep, r)))
          | none => InsRes.one (.internal es1)
        else
          InsRes.one (.internal (es1.insertIdx
            (InternalLookup (es.map Prod.fst) key + 1) (sep, r))) := by
  rw [insertAux]

/-- Correctness of the insert descent on a well-formed page routed with a key
inside its interval: a duplicate is reported exactly when the key is present;
otherwise the result holds exactly the old contents with the new entry added
at its ordered position, stays well-formed, and on a split the separator
pushed to the parent lies strictly between the page's interval bounds. -/
theorem insertAux_ok {lMax iMax : Nat} (hl1 : 1 ≤ lMax) (hi2 : 2 ≤ iMax)
    {key : α} {v : V} {p : BPage α V} : ∀ (lo hi : Option α),
    wfPage lo hi p = true →
    (∀ l, lo = some l → l ≤ key) → (∀ h, hi = some h → key < h) →
    match insertAux lMax iMax key v p with
    | .dup => lookupKey p.toList key ≠ none
    | .one p2 => lookupKey p.toList key = none ∧
        p2.toList = insertKey p.toList key v ∧ wfPage lo hi p2 = true
    | .split pl sep pr => lookupKey p.toList key = none ∧
        pl.toList ++ pr.toList = insertKey p.toList key v ∧
        wfPage lo (some sep) pl = true ∧ wfPage (some sep) hi pr = true ∧
        (∀ x, lo = some x → x < sep) ∧ (∀ x, hi = some x → sep < x) := by
  induction p using BPage.ind with
  | hleaf es =>
    intro lo hi hw hklo hkhi
    rw [wfPage_leaf_iff] at hw
    obtain ⟨hs, hbnd⟩ := hw
    rcases hfind : LeafLookup es key with _ | w
    · -- the key is absent: the leaf inserts
      have hlk : lookupKey es key = none := by rw [← LeafLookup_eq hs, hfind]
      have hfresh : key ∉ es.map Prod.fst := lookupKey_none_iff.1 hlk
      obtain ⟨hform, hins⟩ := @LeafInsert_eq α _ V es key v hs hfresh
      have hs2 : ((LeafInsert es key v).map Prod.fst).Pairwise (· < ·) := by
        rw [hins]
        exact insertKey_pairwise hs hfresh
      have hbnd2 : ∀ k ∈ (LeafInsert es key v).map Prod.fst,
          (∀ l, lo = some l → l ≤ k) ∧ ∀ h, hi = some h → k < h := by
        intro k hk
        rw [hins] at hk
        rcases insertKey_mem_keys.1 hk with hk2 | rfl
        · exact hbnd k hk2
        · exact ⟨hklo, hkhi⟩
      by_cases hlen : lMax < (LeafInsert es key v).length
      · -- `SplitLeaf` fires
        have hmidlt : (LeafInsert es key v).length / 2 < (LeafInsert es key v).length := by
          omega
        have hmid1 : 1 ≤ (LeafInsert es key v).length / 2 := by omega
        have hhd : ((LeafInsert es key v).drop ((LeafInsert es key v).length / 2)).head? =
            some ((LeafInsert es key v).get
              ⟨(LeafInsert es key v).length / 2, hmidlt⟩) := by
          rw [List.drop_eq_getElem_cons hmidlt]
          rfl
        have hval : insertAux lMax iMax key v (.leaf es) =
            InsRes.split
              (.leaf ((LeafInsert es key v).take ((LeafInsert es key v).length / 2)))
              ((LeafInsert es key v).get ⟨(LeafInsert es key v).length / 2, hmidlt⟩).1
              (.leaf ((LeafInsert es key v).drop ((LeafInsert es key v).length / 2))) := by
          rw [insertAux_leaf_eq, hfind, if_pos hlen, hhd]
        rw [hval]
        refine ⟨hlk, ?_, ?_, ?_, ?_, ?_⟩
        · show (LeafInsert es key v).take ((LeafInsert es key v).length / 2) ++
            (LeafInsert es key v).drop ((LeafInsert es key v).length / 2) =
            insertKey es key v
          rw [List.take_append_drop]
          exact hins
        · rw [wfPage_leaf_iff]
          constructor
          · rw [List.map_take]
            exact hs2.sublist (List.take_sublist _ _)
          · intro k hk
            rw [List.map_take] at hk
            refine ⟨fun x hx => (hbnd2 k (List.mem_of_mem_take hk)).1 x hx, ?_⟩
            intro x hx
            injection hx with hx
            subst hx
            have hlt := pairwise_take_lt_get hs2 (by simpa using hmidlt) k hk
            have hgm : ((LeafInsert es key v).map Prod.fst).get
                ⟨(LeafInsert es key v).length / 2, by simpa using hmidlt⟩ =
                ((LeafInsert es key v).get
                  ⟨(LeafInsert es key v).length / 2, hmidlt⟩).1 := by simp
            rwa [hgm] at hlt
        · rw [wfPage_leaf_iff]
          constructor
          · rw [List.map_drop]
            exact hs2.sublist (List.drop_sublist _ _)
          · intro k hk
            rw [List.map_drop] at hk
            refine ⟨?_, fun x hx => (hbnd2 k (List.mem_of_mem_drop hk)).2 x hx⟩
            intro x hx
            injection hx with hx
            subst hx
            have hge := pairwise_drop_ge_get hs2 (by simpa using hmidlt) k hk
            have hgm : ((LeafInsert es key v).map Prod.fst).get
                ⟨(LeafInsert es key v).length / 2, by simpa using hmidlt⟩ =
                ((LeafInsert es key v).get
                  ⟨(LeafInsert es key v).length / 2, hmidlt⟩).1 := by simp
            rwa [hgm] at hge
        · intro x hx
          have h0 : 0 < (LeafInsert es key v).length := by omega
          have hx0 : x ≤ ((LeafInsert es key v).get ⟨0, h0⟩).1 :=
            (hbnd2 _ (List.mem_map_of_mem _ (List.get_mem _ 0 h0))).1 x hx
          have hlt0 := List.pairwise_iff_get.1 hs2 ⟨0, by simpa using h0⟩
            ⟨(LeafInsert es key v).length / 2, by simpa using hmidlt⟩
            (by simp only [Fin.mk_lt_mk]; omega)
          have hg0 : ((LeafInsert es key v).map Prod.fst).get ⟨0, by simpa using h0⟩ =
              ((LeafInsert es key v).get ⟨0, h0⟩).1 := by simp
          have hgm : ((LeafInsert es key v).map Prod.fst).get
              ⟨(LeafInsert es key v).length / 2, by simpa using hmidlt⟩ =
              ((LeafInsert es key v).get
                ⟨(LeafInsert es key v).length / 2, hmidlt⟩).1 := by simp
          rw [hg0, hgm] at hlt0
          exact lt_of_le_of_lt hx0 hlt0
        · intro x hx
          exact (hbnd2 _ (List.mem_map_of_mem _
            (List.get_mem _ ((LeafInsert es key v).length / 2) hmidlt))).2 x hx
      · -- the leaf absorbs the entry
        have hval : insertAux lMax iMax key v (.leaf es) =
            InsRes.one (.leaf (LeafInsert es key v)) := by
          rw [insertAux_leaf_eq, hfind, if_neg hlen]
        rw [hval]
        refine ⟨hlk, hins, ?_⟩
        rw [wfPage_leaf_iff]
        exact ⟨hs2, hbnd2⟩
    · -- duplicate key
      have hval : insertAux lMax iMax key v (.leaf es) = InsRes.dup := by
        rw [insertAux_leaf_eq, hfind]
      rw [hval]
      show lookupKey es key ≠ none
      rw [← LeafLookup_eq hs, hfind]
      simp
  | hint es hIH =>
    intro lo hi hw hklo hkhi
    obtain ⟨e, hee, hwc, hclo, hchi, hpre, hsuf⟩ := wf_route key hw hklo hkhi
    obtain ⟨i, hi_def⟩ : ∃ n, InternalLookup (es.map Prod.fst) key = n := ⟨_, rfl⟩
    rw [hi_def] at hee hwc hclo hchi hpre hsuf
    have hilt : i < es.length := by
      by_contra hc
      rw [List.getElem?_eq_none (by omega)] at hee
      exact absurd hee (by simp)
    have hegete : es.get ⟨i, hilt⟩ = e := by
      rw [List.getElem?_eq_getElem hilt] at hee
      simpa using hee
    have hlk_eq : lookupKey (entsToList es) key = lookupKey e.2.toList key := by
      rw [entsToList_decomp hilt, lookupKey_append_left (by
        intro e2 he2
        exact ne_of_lt (hpre e2.1 (List.mem_map_of_mem _ he2)))]
      rw [hegete]
      rw [lookupKey_append_right (by
        intro e2 he2
        exact ne_of_gt (hsuf e2.1 (List.mem_map_of_mem _ he2)))]
    have hchild := hIH e (hegete ▸ List.get_mem es i hilt)
      (if i = 0 then lo else some e.1) (firstKey (es.drop (i + 1)) hi) hwc hclo hchi
    rcases hres : insertAux lMax iMax key v e.2 with _ | c2 | ⟨cl, csep, cr⟩
    · -- duplicate below
      rw [hres] at hchild
      have hval : insertAux lMax iMax key v (.internal es) = InsRes.dup := by
        rw [insertAux_internal_eq, hi_def, insertEntries_eq hilt, hegete, hres]
      rw [hval]
      show lookupKey (entsToList es) key ≠ none
      rw [hlk_eq]
      exact hchild
    · -- the child absorbed the entry
      rw [hres] at hchild
      obtain ⟨hlkn, htl, hwc2⟩ := hchild
      have hval : insertAux lMax iMax key v (.internal es) =
          InsRes.one (.internal (es.set i (e.1, c2))) := by
        rw [insertAux_internal_eq, hi_def, insertEntries_eq hilt, hegete, hres]
      rw [hval]
      refine ⟨?_, ?_, ?_⟩
      · show lookupKey (entsToList es) key = none
        rw [hlk_eq]
        exact hlkn
      · show entsToList (es.set i (e.1, c2)) = insertKey (entsToList es) key v
        rw [set_eq_take_cons_drop _ hilt, entsToList_append, entsToList_cons]
        rw [entsToList_decomp hilt, hegete]
        rw [insertKey_append_left (by
          intro e2 he2
          exact hpre e2.1 (List.mem_map_of_mem _ he2))]
        rw [insertKey_append_right (by
          intro e2 he2
          exact hsuf e2.1 (List.mem_map_of_mem _ he2))]
        rw [htl]
      · have hwc2g : wfPage (if i = 0 then lo else some ((es.get ⟨i, hilt⟩).1))
            (firstKey (es.drop (i + 1)) hi) c2 = true := by
          rw [hegete]
          exact hwc2
        have hres2 := wf_set_child hilt hw hwc2g
        rw [hegete] at hres2
        exact hres2
    · -- the child split: `InsertIntoParent`
      rw [hres] at hchild
      obtain ⟨hlkn, htl, hwl, hwr, hslo, hshi⟩ := hchild
      have hlk : lookupKey (entsToList es) key = none := by
        rw [hlk_eq]
        exact hlkn
      obtain ⟨es1, hes1⟩ : ∃ x, es.set i (e.1, cl) = x := ⟨_, rfl⟩
      obtain ⟨es2, hes2⟩ : ∃ x, es1.insertIdx (i + 1) (csep, cr) = x := ⟨_, rfl⟩
      have hlen1 : es1.length = es.length := by
        rw [← hes1]
        simp
      have hlen2 : es2.length = es.length + 1 := by
        rw [← hes2, length_insertIdx_le _ (by omega), hlen1]
      have hwlg : wfPage (if i = 0 then lo else some ((es.get ⟨i, hilt⟩).1))
          (some csep) cl = true := by
        rw [hegete]
        exact hwl
      have hslog : ∀ x, (if i = 0 then lo else some ((es.get ⟨i, hilt⟩).1)) = some x →
          x < csep := by
        rw [hegete]
        exact hslo
      have hw2 : wfPage lo hi (.internal es2) = true := by
        have h1 := wf_set_child_insert hilt hw hwlg hwr hslog hshi
        rw [hegete] at h1
        rw [← hes2, ← hes1]
        exact h1
      have htol2 : entsToList es2 = insertKey (entsToList es) key v := by
        rw [← hes2, ← hes1]
        rw [set_insertIdx_decomp (e.1, cl) (csep, cr) hilt]
        rw [entsToList_append, entsToList_cons, entsToList_cons]
        rw [entsToList_decomp hilt, hegete]
        rw [insertKey_append_left (by
          intro e2 he2
          exact hpre e2.1 (List.mem_map_of_mem _ he2))]
        rw [insertKey_append_right (by
          intro e2 he2
          exact hsuf e2.1 (List.mem_map_of_mem _ he2))]
        rw [← htl]
        simp [List.append_assoc]
      have hpend : insertEntries lMax iMax key v es i = .pending es1 csep cr := by
        rw [insertEntries_eq hilt, hegete, hres, ← hes1]
      have hv1 : insertAux lMax iMax key v (.internal es) =
          if es1.length = iMax then
            match es1[es1.length / 2]? with
            | some m =>
              if compare csep m.1 = Ordering.lt then
                InsRes.split
                  (.internal ((es1.take (es1.length / 2)).insertIdx (i + 1) (csep, cr)))
                  m.1 (.internal (es1.drop (es1.length / 2)))
              else
                InsRes.split (.internal (es1.take (es1.length / 2))) m.1
                  (.internal ((es1.drop (es1.length / 2)).insertIdx
                    (i - es1.length / 2 + 1) (csep, cr)))
            | none => InsRes.one (.internal es1)
          else InsRes.one (.internal (es1.insertIdx (i + 1) (csep, cr))) := by
        rw [insertAux_internal_eq, hi_def, hpend]
      by_cases hfull : es1.length = iMax
      · -- `SplitInternal`
        have hmid1 : 1 ≤ es1.length / 2 := by omega
        have hmidlt : es1.length / 2 < es1.length := by omega
        have hmidlt2 : es1.length / 2 < es.length := by omega
        obtain ⟨mid, hmid_def⟩ : ∃ n, es1.length / 2 = n := ⟨_, rfl⟩
        rw [hmid_def] at hmid1 hmidlt hmidlt2
        obtain ⟨m, hm_def⟩ : ∃ x, es1.get ⟨mid, hmidlt⟩ = x := ⟨_, rfl⟩
        have hmq : es1[mid]? = some m := by
          rw [List.getElem?_eq_getElem hmidlt, ← hm_def]
          rfl
        have hmap1 : es1.map Prod.fst = es.map Prod.fst := by
          rw [← hes1, ← hegete]
          exact map_fst_set_same hilt
        have hmkey : m.1 = (es.get ⟨mid, hmidlt2⟩).1 := by
          have h1 : (es1.map Prod.fst)[mid]? = (es.map Prod.fst)[mid]? := by
            rw [hmap1]
          rw [List.getElem?_eq_getElem (by simpa using hmidlt),
            List.getElem?_eq_getElem (by simpa using hmidlt2)] at h1
          injection h1 with h1
          rw [List.getElem_map, List.getElem_map] at h1
          rw [← hm_def]
          exact h1
        have hv2 : insertAux lMax iMax key v (.internal es) =
            if compare csep m.1 = Ordering.lt then
              InsRes.split
                (.internal ((es1.take mid).insertIdx (i + 1) (csep, cr)))
                m.1 (.internal (es1.drop mid))
            else
              InsRes.split (.internal (es1.take mid)) m.1
                (.internal ((es1.drop mid).insertIdx (i - mid + 1) (csep, cr))) := by
          rw [hv1, if_pos hfull, hmid_def, hmq]
        by_cases hcmp : compare csep m.1 = Ordering.lt
        · -- the pending pair goes to the left half
          have hcseplt : csep < m.1 := compare_lt_iff_lt.1 hcmp
          have himid : i < mid := by
            by_contra hc
            push_neg at hc
            have hi1 : 1 ≤ i := le_trans hmid1 hc
            have he1lt : e.1 < csep := hslo e.1 (by rw [if_neg (by omega)])
            have hmle : (es.get ⟨mid, hmidlt2⟩).1 ≤ (es.get ⟨i, hilt⟩).1 :=
              wf_internal_get_le hw hmid1 hc hmidlt2 hilt
            rw [hegete] at hmle
            rw [← hmkey] at hmle
            exact absurd (lt_trans (lt_of_lt_of_le hcseplt hmle) he1lt) (lt_irrefl csep)
          have hMlt : mid + 1 < es2.length := by omega
          have hL : es2.take (mid + 1) = (es1.take mid).insertIdx (i + 1) (csep, cr) := by
            rw [← hes2]
            exact take_insertIdx_le _ _ _ _ (by omega) (by omega)
          have hR : es2.drop (mid + 1) = es1.drop mid := by
            rw [← hes2]
            exact drop_insertIdx_le _ _ _ _ (by omega)
          have hMlt0 : mid + 1 < (es1.insertIdx (i + 1) (csep, cr)).length := by
            rw [hes2]
            omega
          have hM0 : (es1.insertIdx (i + 1) (csep, cr)).get ⟨mid + 1, hMlt0⟩ = m := by
            rw [get_insertIdx_le (csep, cr) (by omega) hmidlt hMlt0, hm_def]
          have hM : es2.get ⟨mid + 1, hMlt⟩ = m :=
            (get_congr hes2 hMlt0 hMlt).symm.trans hM0
          obtain ⟨hwL, hwR, hsepLo, hsepHi⟩ :=
            wf_internal_split hw2 (show 1 ≤ mid + 1 by omega) hMlt
          rw [hM] at hwL hwR hsepLo hsepHi
          have hval : insertAux lMax iMax key v (.internal es) =
              InsRes.split (.internal (es2.take (mid + 1))) m.1
                (.internal (es2.drop (mid + 1))) := by
            rw [hv2, if_pos hcmp, ← hL, ← hR]
          rw [hval]
          refine ⟨hlk, ?_, hwL, hwR, hsepLo, hsepHi⟩
          show entsToList (es2.take (mid + 1)) ++ entsToList (es2.drop (mid + 1)) =
            insertKey (entsToList es) key v
          rw [← entsToList_append, List.take_append_drop]
          exact htol2
        · -- the pending pair goes to the right half
          have hmge : m.1 ≤ csep := le_of_not_lt fun hcc => hcmp (compare_lt_iff_lt.2 hcc)
          have hmidle : mid ≤ i := by
            by_contra hc
            push_neg at hc
            have hi1lt : i + 1 < es.length := by omega
            have hfk : firstKey (es.drop (i + 1)) hi =
                some ((es.get ⟨i + 1, hi1lt⟩).1) := by
              rw [List.drop_eq_getElem_cons hi1lt]
              rfl
            have hcslt : csep < (es.get ⟨i + 1, hi1lt⟩).1 := hshi _ hfk
            have hle2 : (es.get ⟨i + 1, hi1lt⟩).1 ≤ (es.get ⟨mid, hmidlt2⟩).1 :=
              wf_internal_get_le hw (by omega) (by omega) hi1lt hmidlt2
            rw [← hmkey] at hle2
            exact absurd (lt_of_lt_of_le hcslt hle2) (not_lt.2 hmge)
          have hMlt : mid < es2.length := by omega
          have hL : es2.take mid = es1.take mid := by
            rw [← hes2]
            exact take_insertIdx_gt _ _ _ _ (by omega)
          have hR : es2.drop mid = (es1.drop mid).insertIdx (i - mid + 1) (csep, cr) := by
            rw [← hes2]
            rw [drop_insertIdx_gt (csep, cr) es1 (i + 1) mid (by omega) (by omega)]
            have harith : i + 1 - mid = i - mid + 1 := by omega
            rw [harith]
          have hMlt0 : mid < (es1.insertIdx (i + 1) (csep, cr)).length := by
            rw [hes2]
            omega
          have hM0 : (es1.insertIdx (i + 1) (csep, cr)).get ⟨mid, hMlt0⟩ = m := by
            rw [get_insertIdx_gt (csep, cr) (by omega) (by omega) hmidlt hMlt0, hm_def]
          have hM : es2.get ⟨mid, hMlt⟩ = m :=
            (get_congr hes2 hMlt0 hMlt).symm.trans hM0
          obtain ⟨hwL, hwR, hsepLo, hsepHi⟩ := wf_internal_split hw2 hmid1 hMlt
          rw [hM] at hwL hwR hsepLo hsepHi
          have hval : insertAux lMax iMax key v (.internal es) =
              InsRes.split (.internal (es2.take mid)) m.1
                (.internal (es2.drop mid)) := by
            rw [hv2, if_neg hcmp, ← hL, ← hR]
          rw [hval]
          refine ⟨hlk, ?_, hwL, hwR, hsepLo, hsepHi⟩
          show entsToList (es2.take mid) ++ entsToList (es2.drop mid) =
            insertKey (entsToList es) key v
          rw [← entsToList_append, List.take_append_drop]
          exact htol2
      · -- the parent has room: `InsertNodeAfter`
        have hval : insertAux lMax iMax key v (.internal es) =
            InsRes.one (.internal es2) := by
          rw [hv1, if_neg hfull, hes2]
        rw [hval]
        exact ⟨hlk, htol2, hw2⟩

theorem set_set_decomp {β : Type} {l : List β} :
    ∀ {n : Nat} (x y : β), n + 1 < l.length →
      (l.set n x).set (n + 1) y = l.take n ++ x :: y :: l.drop (n + 2) := by
  induction l with
  | nil =>
    intro n x y h
    exact absurd h (by simp)
  | cons a t ih =>
    intro n x y h
    cases n with
    | zero =>
      cases t with
      | nil => simp at h
      | cons b t2 => rfl
    | succ n =>
      show a :: (t.set n x).set (n + 1) y = a :: (t.take n ++ x :: y :: t.drop (n + 2))
      rw [ih x y (by simpa using h)]

theorem set_eraseIdx_decomp {β : Type} {l : List β} :
    ∀ {n : Nat} (x : β), n < l.length →
      (l.set n x).eraseIdx (n + 1) = l.take n ++ x :: l.drop (n + 2) := by
  induction l with
  | nil =>
    intro n x h
    exact absurd h (by simp)
  | cons a t ih =>
    intro n x h
    cases n with
    | zero =>
      show x :: t.eraseIdx 0 = x :: t.drop 1
      cases t with
      | nil => rfl
      | cons b t2 => rfl
    | succ n =>
      show a :: (t.set n x).eraseIdx (n + 1) = a :: (t.take n ++ x :: t.drop (n + 2))
      rw [ih x (by simpa using h)]

theorem eraseIdx_decomp {β : Type} {l : List β} {n : Nat} :
    l.eraseIdx n = l.take n ++ l.drop (n + 1) :=
  List.eraseIdx_eq_take_drop_succ l n

theorem entsToList_decomp2 {es : List (α × BPage α V)} {j : Nat}
    (h : j + 1 < es.length) :
    entsToList es = entsToList (es.take j) ++
      ((es.get ⟨j, by omega⟩).2.toList ++
        ((es.get ⟨j + 1, h⟩).2.toList ++ entsToList (es.drop (j + 2)))) := by
  rw [entsToList_decomp (show j < es.length by omega)]
  have hd : es.drop (j + 1) = es.get ⟨j + 1, h⟩ :: es.drop (j + 2) := by
    have := List.drop_eq_getElem_cons h
    simpa using this
  rw [hd, entsToList_cons]

/-- The child of any slot of a well-formed internal page is well-formed in the
interval its slot delimits. -/
theorem wf_slot {lo hi : Option α} {es : List (α × BPage α V)}
    (hw : wfPage lo hi (.internal es) = true) {j : Nat} (hj : j < es.length) :
    wfPage (if j = 0 then lo else some ((es.get ⟨j, hj⟩).1))
      (firstKey (es.drop (j + 1)) hi) ((es.get ⟨j, hj⟩).2) = true := by
  match es with
  | [] => rw [wfPage_internal_nil] at hw; exact absurd hw (by simp)
  | (s0, c0) :: rest =>
    rw [wfPage_internal_iff] at hw
    obtain ⟨hs0, hpw, hall, hc0, hch⟩ := hw
    match j with
    | 0 => simpa [firstKey] using hc0
    | j + 1 =>
      have hjr : j < rest.length := by simpa using hj
      have hg : ((s0, c0) :: rest).get ⟨j + 1, hj⟩ = rest.get ⟨j, hjr⟩ := rfl
      have hd : ((s0, c0) :: rest).drop (j + 1 + 1) = rest.drop (j + 1) := rfl
      rw [if_neg (by omega), hg, hd]
      exact wfChildren_get hch hjr

/-- Gluing two adjacent well-formed leaves (`MoveAllTo` of the leaf page):
the concatenation is well-formed over the union of the intervals. -/
theorem wf_leaf_merge {LO H : Option α} {t : α} {ses nes : List (α × V)}
    (h1 : wfPage LO (some t) (.leaf ses) = true)
    (h2 : wfPage (some t) H (.leaf nes) = true)
    (hlt : ∀ x, LO = some x → x < t)
    (hth : ∀ x, H = some x → t < x) :
    wfPage LO H (.leaf (ses ++ nes)) = true := by
  rw [wfPage_leaf_iff] at h1 h2 ⊢
  obtain ⟨hp1, hb1⟩ := h1
  obtain ⟨hp2, hb2⟩ := h2
  constructor
  · rw [List.map_append, List.pairwise_append]
    refine ⟨hp1, hp2, ?_⟩
    intro x hx y hy
    exact lt_of_lt_of_le ((hb1 x hx).2 t rfl) ((hb2 y hy).1 t rfl)
  · intro k hk
    rw [List.map_append, List.mem_append] at hk
    rcases hk with hk | hk
    · refine ⟨(hb1 k hk).1, ?_⟩
      intro x hx
      exact lt_trans ((hb1 k hk).2 t rfl) (hth x hx)
    · refine ⟨?_, (hb2 k hk).2⟩
      intro x hx
      exact le_trans (le_of_lt (hlt x hx)) ((hb2 k hk).1 t rfl)

/-- Gluing two adjacent well-formed internal pages (`MoveAllTo` of the
internal page): the recipient absorbs the donor's slots, the donor's sentinel
being exactly the separator between them. -/
theorem wf_internal_merge {LO H : Option α} {t : α} {ses nes : List (α × BPage α V)}
    (h1 : wfPage LO (some t) (.internal ses) = true)
    (h2 : wfPage (some t) H (.internal nes) = true)
    (hlt : ∀ x, LO = some x → x < t)
    (hth : ∀ x, H = some x → t < x) :
    wfPage LO H (.internal (ses ++ nes)) = true := by
  match ses with
  | [] => rw [wfPage_internal_nil] at h1; exact absurd h1 (by simp)
  | (s0, c0) :: srest =>
    match nes with
    | [] => rw [wfPage_internal_nil] at h2; exact absurd h2 (by simp)
    | (t0, d0) :: nrest =>
      rw [wfPage_internal_iff] at h1 h2
      obtain ⟨hs0, hpw1, hall1, hc0, hch1⟩ := h1
      obtain ⟨ht0, hpw2, hall2, hd0, hch2⟩ := h2
      have ht0t : t0 = t := ht0 t rfl
      subst ht0t
      show wfPage LO H (.internal ((s0, c0) :: (srest ++ (t0, d0) :: nrest))) = true
      rw [wfPage_internal_iff]
      have hsk_lt : ∀ k ∈ srest.map Prod.fst, k < t0 :=
        fun k hk => (hall1 k hk).2 t0 rfl
      have hnk_gt : ∀ k ∈ nrest.map Prod.fst, t0 < k :=
        fun k hk => (hall2 k hk).1 t0 rfl
      refine ⟨hs0, ?_, ?_, ?_, ?_⟩
      · rw [List.map_append, List.pairwise_append]
        refine ⟨hpw1, ?_, ?_⟩
        · rw [List.map_cons, List.pairwise_cons]
          exact ⟨fun y hy => hnk_gt y hy, hpw2⟩
        · intro x hx y hy
          rw [List.map_cons, List.mem_cons] at hy
          rcases hy with rfl | hy
          · exact hsk_lt x hx
          · exact lt_trans (hsk_lt x hx) (hnk_gt y hy)
      · intro k hk
        rw [List.map_append, List.mem_append] at hk
        rcases hk with hk | hk
        · refine ⟨(hall1 k hk).1, ?_⟩
          intro x hx
          exact lt_trans (hsk_lt k hk) (hth x hx)
        · rw [List.map_cons, List.mem_cons] at hk
          rcases hk with rfl | hk
          · exact ⟨fun x hx => hlt x hx, fun x hx => hth x hx⟩
          · refine ⟨?_, (hall2 k hk).2⟩
            intro x hx
            exact lt_trans (hlt x hx) (hnk_gt k hk)
      · rw [firstKey_append, firstKey_cons]
        exact hc0
      · rw [wfChildren_append]
        refine ⟨?_, ?_⟩
        · rw [firstKey_cons]
          exact hch1
        · rw [wfChildren_cons_iff]
          exact ⟨hd0, hch2⟩

/-- Replacing two adjacent slots of a well-formed internal page by a single
slot that keeps the first slot's key and holds a child well-formed over both
slot intervals (the parent-level effect of `Coalesce`) preserves
well-formedness. -/
theorem wf_merge_pair {lo hi : Option α} {es : List (α × BPage α V)} {j : Nat}
    (hj1 : j + 1 < es.length) (hw : wfPage lo hi (.internal es) = true)
    {c : BPage α V}
    (hwc : wfPage (if j = 0 then lo else some ((es.get ⟨j, by omega⟩).1))
      (firstKey (es.drop (j + 2)) hi) c = true) :
    wfPage lo hi
      (.internal (es.take j ++ ((es.get ⟨j, by omega⟩).1, c) :: es.drop (j + 2))) =
      true := by
  match es with
  | [] => exact absurd hj1 (by simp)
  | (s0, c0) :: rest =>
    rw [wfPage_internal_iff] at hw
    obtain ⟨hs0, hpw, hall, hc0, hch⟩ := hw
    match j with
    | 0 =>
      rw [if_pos rfl] at hwc
      show wfPage lo hi (.internal ((s0, c) :: rest.drop 1)) = true
      rw [wfPage_internal_iff]
      refine ⟨hs0, ?_, ?_, ?_, ?_⟩
      · rw [List.map_drop]
        exact hpw.sublist (List.drop_sublist _ _)
      · intro k hk
        rw [List.map_drop] at hk
        exact hall k (List.mem_of_mem_drop hk)
      · exact hwc
      · exact wfChildren_drop hch 1
    | jj + 1 =>
      have hjr : jj + 1 < rest.length := by simpa using hj1
      have hjr0 : jj < rest.length := by omega
      rw [if_neg (by omega)] at hwc
      have hwc2 : wfPage (some ((rest.get ⟨jj, hjr0⟩).1))
          (firstKey (rest.drop (jj + 2)) hi) c = true := hwc
      show wfPage lo hi (.internal ((s0, c0) ::
        (rest.take jj ++ ((rest.get ⟨jj, hjr0⟩).1, c) :: rest.drop (jj + 2)))) = true
      rw [wfPage_internal_iff]
      have hdj : rest.drop jj = rest.get ⟨jj, hjr0⟩ :: rest.drop (jj + 1) := by
        have := List.drop_eq_getElem_cons hjr0
        simpa using this
      have hdj1 : rest.drop (jj + 1) = rest.get ⟨jj + 1, hjr⟩ :: rest.drop (jj + 2) := by
        have := List.drop_eq_getElem_cons hjr
        simpa using this
      have hsub : List.Sublist
          ((rest.take jj ++ ((rest.get ⟨jj, hjr0⟩).1, c) :: rest.drop (jj + 2)).map
            Prod.fst)
          (rest.map Prod.fst) := by
        rw [List.map_append, List.map_cons]
        conv_rhs => rw [← List.take_append_drop jj rest, List.map_append]
        refine List.Sublist.append_left ?_ _
        rw [hdj, hdj1, List.map_cons, List.map_cons]
        exact List.Sublist.cons₂ _ (List.sublist_cons_self _ _)
      refine ⟨hs0, ?_, ?_, ?_, ?_⟩
      · exact hpw.sublist hsub
      · intro k hk
        exact hall k (hsub.subset hk)
      · have hfk : firstKey
            (rest.take jj ++ ((rest.get ⟨jj, hjr0⟩).1, c) :: rest.drop (jj + 2)) hi =
            firstKey rest hi := by
          cases rest with
          | nil => simp at hjr0
          | cons e1 r1 =>
            cases jj with
            | zero => rfl
            | succ jj2 => rfl
        rw [hfk]
        exact hc0
      · rw [wfChildren_append]
        constructor
        · rw [firstKey_cons]
          have hw1 := wfChildren_take hch jj
          rw [hdj, firstKey_cons] at hw1
          exact hw1
        · rw [wfChildren_cons_iff]
          exact ⟨hwc2, wfChildren_drop hch (jj + 2)⟩

/-- Replacing two adjacent slots of a well-formed internal page by a
redistributed pair — the first slot keeps its key, the second gets the new
boundary separator `k2` — preserves well-formedness (the parent-level effect
of `Redistribute`). -/
theorem wf_replace_pair {lo hi : Option α} {es : List (α × BPage α V)} {j : Nat}
    (hj1 : j + 1 < es.length) (hw : wfPage lo hi (.internal es) = true)
    {c1 c2 : BPage α V} {k2 : α}
    (hw1 : wfPage (if j = 0 then lo else some ((es.get ⟨j, by omega⟩).1))
      (some k2) c1 = true)
    (hw2 : wfPage (some k2) (firstKey (es.drop (j + 2)) hi) c2 = true)
    (hk2lo : ∀ x, (if j = 0 then lo else some ((es.get ⟨j, by omega⟩).1)) = some x →
      x < k2)
    (hk2hi : ∀ x, firstKey (es.drop (j + 2)) hi = some x → k2 < x) :
    wfPage lo hi (.internal
      (es.take j ++ ((es.get ⟨j, by omega⟩).1, c1) :: (k2, c2) :: es.drop (j + 2))) =
      true := by
  have hempty : wfPage (if j = 0 then lo else some ((es.get ⟨j, by omega⟩).1))
      (firstKey (es.drop (j + 2)) hi) (BPage.leaf ([] : List (α × V))) = true := by
    rw [wfPage_leaf_iff]
    constructor
    · simp
    · simp
  have hmerge := wf_merge_pair hj1 hw hempty
  obtain ⟨esm, hesm⟩ : ∃ x, es.take j ++
      ((es.get ⟨j, by omega⟩).1, (BPage.leaf ([] : List (α × V)) : BPage α V)) ::
      es.drop (j + 2) = x := ⟨_, rfl⟩
  rw [hesm] at hmerge
  have hlt : (es.take j).length = j := by
    rw [List.length_take]
    omega
  have hjm : j < esm.length := by
    rw [← hesm, List.length_append, hlt]
    simp
  have htm : esm.take j = es.take j := by
    rw [← hesm]
    exact List.take_left' hlt
  have hdm : esm.drop j =
      ((es.get ⟨j, by omega⟩).1, (BPage.leaf ([] : List (α × V)) : BPage α V)) ::
      es.drop (j + 2) := by
    rw [← hesm]
    exact List.drop_left' hlt
  have hgm : esm.get ⟨j, hjm⟩ =
      ((es.get ⟨j, by omega⟩).1, (BPage.leaf ([] : List (α × V)) : BPage α V)) := by
    have h1 := List.drop_eq_getElem_cons hjm
    rw [hdm] at h1
    have h4 := (List.cons.injEq _ _ _ _ ▸ h1.symm : _ ∧ _)
    exact h4.1
  have hdm1 : esm.drop (j + 1) = es.drop (j + 2) := by
    have h1 := List.drop_eq_getElem_cons hjm
    rw [hdm] at h1
    have h4 := (List.cons.injEq _ _ _ _ ▸ h1.symm : _ ∧ _)
    exact h4.2
  have hwl2 : wfPage (if j = 0 then lo else some ((esm.get ⟨j, hjm⟩).1))
      (some k2) c1 = true := by
    rw [hgm]
    exact hw1
  have hwr2 : wfPage (some k2) (firstKey (esm.drop (j + 1)) hi) c2 = true := by
    rw [hdm1]
    exact hw2
  have hslo2 : ∀ x, (if j = 0 then lo else some ((esm.get ⟨j, hjm⟩).1)) = some x →
      x < k2 := by
    rw [hgm]
    exact hk2lo
  have hshi2 : ∀ x, firstKey (esm.drop (j + 1)) hi = some x → k2 < x := by
    rw [hdm1]
    exact hk2hi
  have happ := wf_set_child_insert hjm hmerge hwl2 hwr2 hslo2 hshi2
  have hfinal : (esm.set j ((esm.get ⟨j, hjm⟩).1, c1)).insertIdx (j + 1) (k2, c2) =
      es.take j ++ ((es.get ⟨j, by omega⟩).1, c1) :: (k2, c2) :: es.drop (j + 2) := by
    rw [set_insertIdx_decomp _ _ hjm, htm, hdm1, hgm]
  rw [hfinal] at happ
  exact happ

theorem getElem?_some_get {β : Type} {l : List β} {n : Nat} {x : β}
    (h : l[n]? = some x) : ∃ hn : n < l.length, l.get ⟨n, hn⟩ = x := by
  have hn : n < l.length := by
    by_contra hc
    rw [List.getElem?_eq_none (by omega)] at h
    exact absurd h (by simp)
  refine ⟨hn, ?_⟩
  rw [List.getElem?_eq_getElem hn] at h
  simpa using h

theorem firstKey_drop_eq {es : List (α × BPage α V)} {hi : Option α} {j : Nat}
    (h : j < es.length) :
    firstKey (es.drop j) hi = some ((es.get ⟨j, h⟩).1) := by
  rw [List.drop_eq_getElem_cons h]
  rfl

/-- The separator routing a slot lies strictly below the key of the next
slot. -/
theorem wf_slotLo_lt_key {lo hi : Option α} {es : List (α × BPage α V)}
    (hw : wfPage lo hi (.internal es) = true) {j : Nat} (hj1 : j + 1 < es.length) :
    ∀ x, (if j = 0 then lo else some ((es.get ⟨j, by omega⟩).1)) = some x →
      x < (es.get ⟨j + 1, hj1⟩).1 := by
  intro x hx
  by_cases hj0 : j = 0
  · subst hj0
    rw [if_pos rfl] at hx
    match es with
    | (s0, c0) :: rest =>
      rw [wfPage_internal_iff] at hw
      have hr : 0 < rest.length := by simpa using hj1
      have hg : ((s0, c0) :: rest).get ⟨1, hj1⟩ = rest.get ⟨0, hr⟩ := rfl
      rw [hg]
      refine (hw.2.2.1 _ ?_).1 x hx
      exact List.mem_map_of_mem _ (List.get_mem rest 0 hr)
  · rw [if_neg hj0] at hx
    injection hx with hx
    subst hx
    exact wf_internal_get_lt hw (by omega) (by omega) (by omega) hj1

/-- The key of a routing slot lies strictly below the slot's upper interval
bound. -/
theorem wf_slotKey_lt_hi {lo hi : Option α} {es : List (α × BPage α V)}
    (hw : wfPage lo hi (.internal es) = true) {j : Nat} (hj : j < es.length)
    (hj1 : 1 ≤ j) :
    ∀ x, firstKey (es.drop (j + 1)) hi = some x → (es.get ⟨j, hj⟩).1 < x := by
  intro x hx
  rcases hd : es.drop (j + 1) with _ | ⟨e2, r2⟩
  · rw [hd] at hx
    simp only [firstKey] at hx
    match es with
    | (s0, c0) :: rest =>
      rw [wfPage_internal_iff] at hw
      obtain ⟨a2, rfl⟩ : ∃ t, j = t + 1 := ⟨j - 1, by omega⟩
      have ha2 : a2 < rest.length := by simpa using hj
      have hg : ((s0, c0) :: rest).get ⟨a2 + 1, hj⟩ = rest.get ⟨a2, ha2⟩ := rfl
      rw [hg]
      refine (hw.2.2.1 _ ?_).2 x hx
      exact List.mem_map_of_mem _ (List.get_mem rest a2 ha2)
  · have hj2 : j + 1 < es.length := by
      by_contra hc
      rw [List.drop_eq_nil_of_le (by omega)] at hd
      exact absurd hd (by simp)
    rw [firstKey_drop_eq hj2] at hx
    injection hx with hx
    subst hx
    exact wf_internal_get_lt hw hj1 (by omega) hj hj2

/-- The leaf `MoveLastToFrontOf` redistribution: the donor drops its last
entry, which becomes the head of the recipient and the new separator between
them. -/
theorem wf_leaf_borrow_last {LO H : Option α} {ses nes : List (α × V)}
    {m : α × V} {t : α}
    (h1 : wfPage LO (some t) (.leaf ses) = true)
    (h2 : wfPage (some t) H (.leaf nes) = true)
    (hlast : ses.getLast? = some m) (hlen : 2 ≤ ses.length)
    (hth : ∀ x, H = some x → t < x) :
    wfPage LO (some m.1) (.leaf ses.dropLast) = true ∧
      wfPage (some m.1) H (.leaf (m :: nes)) = true ∧
      (∀ x, LO = some x → x < m.1) ∧ (∀ x, H = some x → m.1 < x) := by
  rw [wfPage_leaf_iff] at h1 h2
  obtain ⟨hp1, hb1⟩ := h1
  obtain ⟨hp2, hb2⟩ := h2
  have hne : ses ≠ [] := by
    intro hc
    rw [hc] at hlast
    exact absurd hlast (by simp)
  have hgl : ses.getLast hne = m := by
    have h3 := List.getLast?_eq_getLast ses hne
    rw [hlast] at h3
    exact (Option.some_inj.mp h3).symm
  have hsplit : ses.dropLast ++ [m] = ses := by
    have h3 := List.dropLast_append_getLast hne
    rwa [hgl] at h3
  have hmm : m ∈ ses := by
    rw [← hsplit]
    simp
  have hmlt : m.1 < t := (hb1 m.1 (List.mem_map_of_mem _ hmm)).2 t rfl
  have hsubd : List.Sublist (ses.dropLast.map Prod.fst) (ses.map Prod.fst) :=
    (List.dropLast_sublist ses).map _
  have hdrop_lt : ∀ x ∈ ses.dropLast.map Prod.fst, x < m.1 := by
    intro x hx
    have hp1' := hp1
    rw [← hsplit, List.map_append, List.pairwise_append] at hp1'
    exact hp1'.2.2 x hx m.1 (by simp)
  refine ⟨?_, ?_, ?_, ?_⟩
  · rw [wfPage_leaf_iff]
    refine ⟨hp1.sublist hsubd, ?_⟩
    intro k hk
    refine ⟨(hb1 k (hsubd.subset hk)).1, ?_⟩
    intro x hx
    injection hx with hx
    subst hx
    exact hdrop_lt k hk
  · rw [wfPage_leaf_iff]
    constructor
    · rw [List.map_cons, List.pairwise_cons]
      refine ⟨?_, hp2⟩
      intro y hy
      exact lt_of_lt_of_le hmlt ((hb2 y hy).1 t rfl)
    · intro k hk
      rw [List.map_cons, List.mem_cons] at hk
      rcases hk with rfl | hk
      · refine ⟨?_, ?_⟩
        · intro x hx
          injection hx with hx
          subst hx
          exact le_refl _
        · intro x hx
          exact lt_trans hmlt (hth x hx)
      · refine ⟨?_, (hb2 k hk).2⟩
        intro x hx
        injection hx with hx
        subst hx
        exact le_trans (le_of_lt hmlt) ((hb2 k hk).1 t rfl)
  · intro x hx
    rcases hd : ses.dropLast with _ | ⟨y, ytail⟩
    · exfalso
      have := congrArg List.length hd
      rw [List.length_dropLast] at this
      simp at this
      omega
    · have hy1 : y.1 ∈ ses.dropLast.map Prod.fst := by
        rw [hd]
        simp
      have hxy : x ≤ y.1 := (hb1 y.1 (hsubd.subset hy1)).1 x hx
      exact lt_of_le_of_lt hxy (hdrop_lt y.1 hy1)
  · intro x hx
    exact lt_trans hmlt (hth x hx)

/-- The leaf `MoveFirstToEndOf` redistribution: the sibling's head moves to
the end of the recipient and the sibling's new first key becomes the
separator. -/
theorem wf_leaf_borrow_first {LO H : Option α} {nes srest : List (α × V)}
    {m s2 : α × V} {t : α}
    (h1 : wfPage LO (some t) (.leaf nes) = true)
    (h2 : wfPage (some t) H (.leaf (m :: s2 :: srest)) = true)
    (hlt : ∀ x, LO = some x → x < t) :
    wfPage LO (some s2.1) (.leaf (nes ++ [m])) = true ∧
      wfPage (some s2.1) H (.leaf (s2 :: srest)) = true ∧
      (∀ x, LO = some x → x < s2.1) ∧ (∀ x, H = some x → s2.1 < x) := by
  rw [wfPage_leaf_iff] at h1 h2
  obtain ⟨hp1, hb1⟩ := h1
  obtain ⟨hp2, hb2⟩ := h2
  have htm : t ≤ m.1 := (hb2 m.1 (by simp)).1 t rfl
  have hms2 : m.1 < s2.1 := by
    rw [List.map_cons, List.pairwise_cons] at hp2
    exact hp2.1 s2.1 (by simp)
  have hp2' : (s2.1 :: srest.map Prod.fst).Pairwise (· < ·) := by
    rw [List.map_cons, List.map_cons] at hp2
    exact hp2.of_cons
  refine ⟨?_, ?_, ?_, ?_⟩
  · rw [wfPage_leaf_iff]
    constructor
    · rw [List.map_append, List.pairwise_append]
      refine ⟨hp1, by simp, ?_⟩
      intro x hx y hy
      simp only [List.map_cons, List.map_nil, List.mem_singleton] at hy
      subst hy
      exact lt_of_lt_of_le ((hb1 x hx).2 t rfl) htm
    · intro k hk
      rw [List.map_append, List.mem_append] at hk
      rcases hk with hk | hk
      · refine ⟨(hb1 k hk).1, ?_⟩
        intro x hx
        injection hx with hx
        subst hx
        exact lt_of_lt_of_le ((hb1 k hk).2 t rfl) (le_of_lt (lt_of_le_of_lt htm hms2))
      · simp only [List.map_cons, List.map_nil, List.mem_singleton] at hk
        subst hk
        refine ⟨?_, ?_⟩
        · intro x hx
          exact le_trans (le_of_lt (hlt x hx)) htm
        · intro x hx
          injection hx with hx
          subst hx
          exact hms2
  · rw [wfPage_leaf_iff]
    constructor
    · exact hp2'
    · intro k hk
      have hkmem : k ∈ ((m :: s2 :: srest).map Prod.fst) := by
        rw [List.map_cons]
        exact List.mem_cons_of_mem _ hk
      refine ⟨?_, (hb2 k hkmem).2⟩
      intro x hx
      injection hx with hx
      subst hx
      rcases List.mem_cons.1 (show k ∈ s2.1 :: srest.map Prod.fst from hk) with rfl | hk2
      · exact le_refl _
      · exact le_of_lt (List.rel_of_pairwise_cons hp2' hk2)
  · intro x hx
    exact lt_trans (hlt x hx) (lt_of_le_of_lt htm hms2)
  · intro x hx
    exact (hb2 s2.1 (by simp)).2 x hx

/-- The internal `MoveLastToFrontOf` redistribution, derived by splitting the
donor before its last slot and absorbing that slot into the recipient. -/
theorem wf_internal_borrow_last {LO H : Option α} {ses nes : List (α × BPage α V)}
    {m : α × BPage α V} {t : α}
    (h1 : wfPage LO (some t) (.internal ses) = true)
    (h2 : wfPage (some t) H (.internal nes) = true)
    (hlast : ses.getLast? = some m) (hlen : 2 ≤ ses.length)
    (hth : ∀ x, H = some x → t < x) :
    wfPage LO (some m.1) (.internal ses.dropLast) = true ∧
      wfPage (some m.1) H (.internal (m :: nes)) = true ∧
      (∀ x, LO = some x → x < m.1) ∧ (∀ x, H = some x → m.1 < x) := by
  have hne : ses ≠ [] := by
    intro hc
    rw [hc] at hlast
    exact absurd hlast (by simp)
  have hL : ses.length - 1 < ses.length := by omega
  have hgl : ses.get ⟨ses.length - 1, hL⟩ = m := by
    have h3 := List.getLast?_eq_getLast ses hne
    rw [hlast] at h3
    have h4 : ses.getLast hne = m := (Option.some_inj.mp h3).symm
    rw [← h4]
    exact (List.getLast_eq_getElem ses hne).symm
  obtain ⟨hwL, hwR, hbLo, hbHi⟩ :=
    wf_internal_split h1 (show 1 ≤ ses.length - 1 by omega) hL
  rw [hgl] at hwL hwR hbLo hbHi
  have htake : ses.take (ses.length - 1) = ses.dropLast := (List.dropLast_eq_take ses).symm
  have hdrop : ses.drop (ses.length - 1) = [m] := by
    rw [List.drop_eq_getElem_cons hL]
    have h5 : ses.length - 1 + 1 = ses.length := by omega
    have h6 : ses.drop (ses.length - 1 + 1) = [] := by
      rw [h5, List.drop_length]
    rw [h6]
    have h7 : ses[ses.length - 1] = m := hgl
    rw [h7]
  rw [htake] at hwL
  rw [hdrop] at hwR
  have hmt : m.1 < t := hbHi t rfl
  have hmerge := wf_internal_merge hwR h2 (by
    intro x hx
    injection hx with hx
    subst hx
    exact hmt) hth
  refine ⟨hwL, ?_, hbLo, fun x hx => lt_trans hmt (hth x hx)⟩
  rw [List.singleton_append] at hmerge
  exact hmerge

/-- The internal `MoveFirstToEndOf` redistribution, derived by splitting the
sibling after its sentinel slot and absorbing that slot into the
recipient. -/
theorem wf_internal_borrow_first {LO H : Option α} {nes srest : List (α × BPage α V)}
    {m s2 : α × BPage α V} {t : α}
    (h1 : wfPage LO (some t) (.internal nes) = true)
    (h2 : wfPage (some t) H (.internal (m :: s2 :: srest)) = true)
    (hlt : ∀ x, LO = some x → x < t) :
    wfPage LO (some s2.1) (.internal (nes ++ [m])) = true ∧
      wfPage (some s2.1) H (.internal (s2 :: srest)) = true ∧
      (∀ x, LO = some x → x < s2.1) ∧ (∀ x, H = some x → s2.1 < x) := by
  have h1lt : (1 : Nat) < (m :: s2 :: srest).length := by simp
  have hget : (m :: s2 :: srest).get ⟨1, h1lt⟩ = s2 := rfl
  obtain ⟨hwL, hwR, hbLo, hbHi⟩ := wf_internal_split h2 (le_refl 1) h1lt
  rw [hget] at hwL hwR hbLo hbHi
  have hts2 : t < s2.1 := hbLo t rfl
  have hmerge := wf_internal_merge h1 hwL hlt (by
    intro x hx
    injection hx with hx
    subst hx
    exact hts2)
  exact ⟨hmerge, hwR, fun x hx => lt_trans (hlt x hx) hts2, hbHi⟩

/-- Replacing two adjacent slots by a redistributed pair that stores the same
entries preserves well-formedness and the in-order contents. -/
theorem wf_pair_update {lo hi : Option α} {es : List (α × BPage α V)} {j : Nat}
    (hj1 : j + 1 < es.length) (hw : wfPage lo hi (.internal es) = true)
    {P1 P2 : BPage α V} {k2 : α}
    (hw1 : wfPage (if j = 0 then lo else some ((es.get ⟨j, by omega⟩).1))
      (some k2) P1 = true)
    (hw2 : wfPage (some k2) (firstKey (es.drop (j + 2)) hi) P2 = true)
    (hb1 : ∀ x, (if j = 0 then lo else some ((es.get ⟨j, by omega⟩).1)) = some x →
      x < k2)
    (hb2 : ∀ x, firstKey (es.drop (j + 2)) hi = some x → k2 < x)
    (htl : P1.toList ++ P2.toList =
      ((es.get ⟨j, by omega⟩).2).toList ++ ((es.get ⟨j + 1, hj1⟩).2).toList) :
    wfPage lo hi (.internal
      ((es.set j ((es.get ⟨j, by omega⟩).1, P1)).set (j + 1) (k2, P2))) = true ∧
      entsToList ((es.set j ((es.get ⟨j, by omega⟩).1, P1)).set (j + 1) (k2, P2)) =
        entsToList es := by
  constructor
  · rw [set_set_decomp _ _ hj1]
    exact wf_replace_pair hj1 hw hw1 hw2 hb1 hb2
  · rw [set_set_decomp _ _ hj1]
    rw [entsToList_append, entsToList_cons, entsToList_cons]
    rw [entsToList_decomp2 hj1]
    rw [← List.append_assoc P1.toList P2.toList _,
      ← List.append_assoc (((es.get ⟨j, by omega⟩).2).toList) _ _, htl]

/-- Merging two adjacent slots into a single slot that stores the same
entries preserves well-formedness and the in-order contents. -/
theorem wf_pair_merge_update {lo hi : Option α} {es : List (α × BPage α V)} {j : Nat}
    (hj1 : j + 1 < es.length) (hw : wfPage lo hi (.internal es) = true)
    {C : BPage α V}
    (hwc : wfPage (if j = 0 then lo else some ((es.get ⟨j, by omega⟩).1))
      (firstKey (es.drop (j + 2)) hi) C = true)
    (htl : C.toList =
      ((es.get ⟨j, by omega⟩).2).toList ++ ((es.get ⟨j + 1, hj1⟩).2).toList) :
    wfPage lo hi (.internal
      ((es.set j ((es.get ⟨j, by omega⟩).1, C)).eraseIdx (j + 1))) = true ∧
      entsToList ((es.set j ((es.get ⟨j, by omega⟩).1, C)).eraseIdx (j + 1)) =
        entsToList es := by
  constructor
  · rw [set_eraseIdx_decomp _ (by omega)]
    exact wf_merge_pair hj1 hw hwc
  · rw [set_eraseIdx_decomp _ (by omega)]
    rw [entsToList_append, entsToList_cons]
    rw [entsToList_decomp2 hj1]
    rw [htl, List.append_assoc]

/-- `CoalesceOrRedistribute` only moves entries between the two siblings it
touches: the parent keeps exactly the same in-order contents and stays
structurally well-formed, whatever slot it is invoked on. -/
theorem CoalesceOrRedistribute_wf {lMax iMax : Nat} (hl1 : 1 ≤ lMax)
    (hi2 : 2 ≤ iMax) {lo hi : Option α} {es : List (α × BPage α V)} (i : Nat)
    (hw : wfPage lo hi (.internal es) = true) :
    wfPage lo hi (.internal (CoalesceOrRedistribute lMax iMax es i).1) = true ∧
      entsToList (CoalesceOrRedistribute lMax iMax es i).1 = entsToList es := by
  have hminl : 1 ≤ GetMinSize lMax := by
    simp only [GetMinSize]
    omega
  have hmini : 1 ≤ GetMinSize iMax := by
    simp only [GetMinSize]
    omega
  obtain ⟨res, hres⟩ : ∃ x, CoalesceOrRedistribute lMax iMax es i = x := ⟨_, rfl⟩
  rw [hres]
  rw [CoalesceOrRedistribute] at hres
  split at hres
  · subst hres
    exact ⟨hw, rfl⟩
  · rename_i ki node hni
    split at hres
    · rename_i h0i
      obtain ⟨j, rfl⟩ : ∃ j, i = j + 1 := ⟨i - 1, by omega⟩
      simp only [Nat.add_sub_cancel] at hres
      split at hres
      · subst hres
        exact ⟨hw, rfl⟩
      · rename_i ks sib hsib
        split at hres
        · -- leaf recipient, leaf left sibling
          rename_i nes ses
          obtain ⟨hj1, hgetn⟩ := getElem?_some_get hni
          obtain ⟨hjlt, hgets⟩ := getElem?_some_get hsib
          have hks : (es.get ⟨j, hjlt⟩).1 = ks := by rw [hgets]
          have hgets2 : (es.get ⟨j, hjlt⟩).2 = BPage.leaf ses := by rw [hgets]
          have hgetn2 : (es.get ⟨j + 1, hj1⟩).2 = BPage.leaf nes := by rw [hgetn]
          have hwsib : wfPage (if j = 0 then lo else some ((es.get ⟨j, hjlt⟩).1))
              (some ((es.get ⟨j + 1, hj1⟩).1)) (.leaf ses) = true := by
            have h5 := wf_slot hw hjlt
            rwa [firstKey_drop_eq hj1, hgets2] at h5
          have hwnode : wfPage (some ((es.get ⟨j + 1, hj1⟩).1))
              (firstKey (es.drop (j + 1 + 1)) hi) (.leaf nes) = true := by
            have h6 := wf_slot hw hj1
            rwa [if_neg (by omega), hgetn2] at h6
          have hth := wf_slotKey_lt_hi hw hj1 (by omega)
          split at hres
          · split at hres
            · -- borrow from the left sibling
              rename_i hgt m hlast
              subst hres
              have hlen2 : 2 ≤ ses.length := by omega
              obtain ⟨hKL, hKR, hKlo, hKhi⟩ :=
                wf_leaf_borrow_last hwsib hwnode hlast hlen2 hth
              have hne : ses ≠ [] := by
                intro hc
                rw [hc] at hlast
                exact absurd hlast (by simp)
              have hgl : ses.getLast hne = m := by
                have h3 := List.getLast?_eq_getLast ses hne
                rw [hlast] at h3
                exact (Option.some_inj.mp h3).symm
              have hsplit : ses.dropLast ++ [m] = ses := by
                have h3 := List.dropLast_append_getLast hne
                rwa [hgl] at h3
              have htl : (BPage.leaf ses.dropLast : BPage α V).toList ++
                  (BPage.leaf (m :: nes) : BPage α V).toList =
                  ((es.get ⟨j, hjlt⟩).2).toList ++ ((es.get ⟨j + 1, hj1⟩).2).toList := by
                rw [hgets2, hgetn2]
                show ses.dropLast ++ (m :: nes) = ses ++ nes
                conv_rhs => rw [← hsplit]
                rw [List.append_assoc, List.singleton_append]
              have update := wf_pair_update hj1 hw hKL hKR hKlo hKhi htl
              rw [← hks]
              exact update
            · subst hres
              exact ⟨hw, rfl⟩
          · -- merge into the left sibling
            rename_i hle
            subst hres
            have hlt := wf_slotLo_lt_key hw hj1
            have hmerged := wf_leaf_merge hwsib hwnode hlt hth
            have htl : (BPage.leaf (ses ++ nes) : BPage α V).toList =
                ((es.get ⟨j, hjlt⟩).2).toList ++ ((es.get ⟨j + 1, hj1⟩).2).toList := by
              rw [hgets2, hgetn2]
              rfl
            have update := wf_pair_merge_update hj1 hw hmerged htl
            rw [← hks]
            exact update
        · -- internal recipient, internal left sibling
          rename_i nes ses
          obtain ⟨hj1, hgetn⟩ := getElem?_some_get hni
          obtain ⟨hjlt, hgets⟩ := getElem?_some_get hsib
          have hks : (es.get ⟨j, hjlt⟩).1 = ks := by rw [hgets]
          have hgets2 : (es.get ⟨j, hjlt⟩).2 = BPage.internal ses := by rw [hgets]
          have hgetn2 : (es.get ⟨j + 1, hj1⟩).2 = BPage.internal nes := by rw [hgetn]
          have hwsib : wfPage (if j = 0 then lo else some ((es.get ⟨j, hjlt⟩).1))
              (some ((es.get ⟨j + 1, hj1⟩).1)) (.internal ses) = true := by
            have h5 := wf_slot hw hjlt
            rwa [firstKey_drop_eq hj1, hgets2] at h5
          have hwnode : wfPage (some ((es.get ⟨j + 1, hj1⟩).1))
              (firstKey (es.drop (j + 1 + 1)) hi) (.internal nes) = true := by
            have h6 := wf_slot hw hj1
            rwa [if_neg (by omega), hgetn2] at h6
          have hth := wf_slotKey_lt_hi hw hj1 (by omega)
          split at hres
          · split at hres
            · -- borrow from the left sibling
              rename_i hgt m hlast
              subst hres
              have hlen2 : 2 ≤ ses.length := by omega
              obtain ⟨hKL, hKR, hKlo, hKhi⟩ :=
                wf_internal_borrow_last hwsib hwnode hlast hlen2 hth
              have hne : ses ≠ [] := by
                intro hc
                rw [hc] at hlast
                exact absurd hlast (by simp)
              have hgl : ses.getLast hne = m := by
                have h3 := List.getLast?_eq_getLast ses hne
                rw [hlast] at h3
                exact (Option.some_inj.mp h3).symm
              have hsplit : ses.dropLast ++ [m] = ses := by
                have h3 := List.dropLast_append_getLast hne
                rwa [hgl] at h3
              have htl : (BPage.internal ses.dropLast : BPage α V).toList ++
                  (BPage.internal (m :: nes) : BPage α V).toList =
                  ((es.get ⟨j, hjlt⟩).2).toList ++ ((es.get ⟨j + 1, hj1⟩).2).toList := by
                rw [hgets2, hgetn2]
                show entsToList ses.dropLast ++ entsToList (m :: nes) =
                  entsToList ses ++ entsToList nes
                conv_rhs => rw [← hsplit, entsToList_append, List.append_assoc,
                  ← entsToList_append, List.singleton_append]
              have update := wf_pair_update hj1 hw hKL hKR hKlo hKhi htl
              rw [← hks]
              exact update
            · subst hres
              exact ⟨hw, rfl⟩
          · -- merge into the left sibling
            rename_i hle
            subst hres
            have hlt := wf_slotLo_lt_key hw hj1
            have hmerged := wf_internal_merge hwsib hwnode hlt hth
            have htl : (BPage.internal (ses ++ nes) : BPage α V).toList =
                ((es.get ⟨j, hjlt⟩).2).toList ++ ((es.get ⟨j + 1, hj1⟩).2).toList := by
              rw [hgets2, hgetn2]
              exact entsToList_append
            have update := wf_pair_merge_update hj1 hw hmerged htl
            rw [← hks]
            exact update
        · -- the two siblings are pages of different kinds: left untouched
          subst hres
          exact ⟨hw, rfl⟩
    · -- slot 0: use the right sibling
      rename_i h0i
      have hi0 : i = 0 := by omega
      subst hi0
      split at hres
      · subst hres
        exact ⟨hw, rfl⟩
      · rename_i ks1 sib hsib
        split at hres
        · -- leaf recipient, leaf right sibling
          rename_i nes ses
          obtain ⟨hj1, hgets1⟩ := getElem?_some_get hsib
          obtain ⟨h0lt, hget0⟩ := getElem?_some_get hni
          have hks0 : (es.get ⟨0, h0lt⟩).1 = ki := by rw [hget0]
          have hget02 : (es.get ⟨0, h0lt⟩).2 = BPage.leaf nes := by rw [hget0]
          have hgets12 : (es.get ⟨0 + 1, hj1⟩).2 = BPage.leaf ses := by rw [hgets1]
          have hwnode : wfPage lo (some ((es.get ⟨0 + 1, hj1⟩).1)) (.leaf nes) = true := by
            have h5 := wf_slot hw h0lt
            rwa [if_pos rfl, firstKey_drop_eq hj1, hget02] at h5
          have hwsib : wfPage (some ((es.get ⟨0 + 1, hj1⟩).1))
              (firstKey (es.drop (0 + 1 + 1)) hi) (.leaf ses) = true := by
            have h6 := wf_slot hw hj1
            rwa [if_neg (by omega), hgets12] at h6
          have hlt0 : ∀ x, lo = some x → x < (es.get ⟨0 + 1, hj1⟩).1 := by
            have h7 := wf_slotLo_lt_key hw hj1
            intro x hx
            exact h7 x (by simpa using hx)
          split at hres
          · split at hres
            · -- borrow from the right sibling
              rename_i m s2 srest hgt
              subst hres
              obtain ⟨hKL, hKR, hKlo, hKhi⟩ := wf_leaf_borrow_first hwnode hwsib hlt0
              have htl : (BPage.leaf (nes ++ [m]) : BPage α V).toList ++
                  (BPage.leaf (s2 :: srest) : BPage α V).toList =
                  ((es.get ⟨0, h0lt⟩).2).toList ++ ((es.get ⟨0 + 1, hj1⟩).2).toList := by
                rw [hget02, hgets12]
                show (nes ++ [m]) ++ (s2 :: srest) = nes ++ (m :: s2 :: srest)
                rw [List.append_assoc, List.singleton_append]
              have update := wf_pair_update hj1 hw hKL hKR hKlo hKhi htl
              rw [← hks0]
              exact update
            · subst hres
              exact ⟨hw, rfl⟩
          · -- merge the right sibling into this page
            rename_i hle
            subst hres
            have hth0 := wf_slotKey_lt_hi hw hj1 (by omega)
            have hmerged := wf_leaf_merge hwnode hwsib hlt0 hth0
            have htl : (BPage.leaf (nes ++ ses) : BPage α V).toList =
                ((es.get ⟨0, h0lt⟩).2).toList ++ ((es.get ⟨0 + 1, hj1⟩).2).toList := by
              rw [hget02, hgets12]
              rfl
            have update := wf_pair_merge_update hj1 hw hmerged htl
            rw [← hks0]
            exact update
        · -- internal recipient, internal right sibling
          rename_i nes ses
          obtain ⟨hj1, hgets1⟩ := getElem?_some_get hsib
          obtain ⟨h0lt, hget0⟩ := getElem?_some_get hni
          have hks0 : (es.get ⟨0, h0lt⟩).1 = ki := by rw [hget0]
          have hget02 : (es.get ⟨0, h0lt⟩).2 = BPage.internal nes := by rw [hget0]
          have hgets12 : (es.get ⟨0 + 1, hj1⟩).2 = BPage.internal ses := by rw [hgets1]
          have hwnode : wfPage lo (some ((es.get ⟨0 + 1, hj1⟩).1))
              (.internal nes) = true := by
            have h5 := wf_slot hw h0lt
            rwa [if_pos rfl, firstKey_drop_eq hj1, hget02] at h5
          have hwsib : wfPage (some ((es.get ⟨0 + 1, hj1⟩).1))
              (firstKey (es.drop (0 + 1 + 1)) hi) (.internal ses) = true := by
            have h6 := wf_slot hw hj1
            rwa [if_neg (by omega), hgets12] at h6
          have hlt0 : ∀ x, lo = some x → x < (es.get ⟨0 + 1, hj1⟩).1 := by
            have h7 := wf_slotLo_lt_key hw hj1
            intro x hx
            exact h7 x (by simpa using hx)
          split at hres
          · split at hres
            · -- borrow from the right sibling
              rename_i m s2 srest hgt
              subst hres
              obtain ⟨hKL, hKR, hKlo, hKhi⟩ :=
                wf_internal_borrow_first hwnode hwsib hlt0
              have htl : (BPage.internal (nes ++ [m]) : BPage α V).toList ++
                  (BPage.internal (s2 :: srest) : BPage α V).toList =
                  ((es.get ⟨0, h0lt⟩).2).toList ++ ((es.get ⟨0 + 1, hj1⟩).2).toList := by
                rw [hget02, hgets12]
                show entsToList (nes ++ [m]) ++ entsToList (s2 :: srest) =
                  entsToList nes ++ entsToList (m :: s2 :: srest)
                rw [entsToList_append, List.append_assoc, ← entsToList_append,
                  List.singleton_append]
              have update := wf_pair_update hj1 hw hKL hKR hKlo hKhi htl
              rw [← hks0]
              exact update
            · subst hres
              exact ⟨hw, rfl⟩
          · -- merge the right sibling into this page
            rename_i hle
            subst hres
            have hth0 := wf_slotKey_lt_hi hw hj1 (by omega)
            have hmerged := wf_internal_merge hwnode hwsib hlt0 hth0
            have htl : (BPage.internal (nes ++ ses) : BPage α V).toList =
                ((es.get ⟨0, h0lt⟩).2).toList ++ ((es.get ⟨0 + 1, hj1⟩).2).toList := by
              rw [hget02, hgets12]
              exact entsToList_append
            have update := wf_pair_merge_update hj1 hw hmerged htl
            rw [← hks0]
            exact update
        · -- the two siblings are pages of different kinds: left untouched
          subst hres
          exact ⟨hw, rfl⟩

theorem removeAux_leaf_eq {lMax iMax : Nat} {key : α} {es : List (α × V)} :
    removeAux lMax iMax key (BPage.leaf es) =
      match es[LowerBound (es.map Prod.fst) key]? with
      | some (k, _) =>
        if compare k key = Ordering.eq then
          some (.leaf (es.eraseIdx (LowerBound (es.map Prod.fst) key)),
            decide ((es.eraseIdx (LowerBound (es.map Prod.fst) key)).length <
              GetMinSize lMax))
        else none
      | none => none := by
  rw [removeAux]

theorem removeAux_internal_eq {lMax iMax : Nat} {key : α}
    {es : List (α × BPage α V)} :
    removeAux lMax iMax key (BPage.internal es) =
      match removeEntries lMax iMax key es (InternalLookup (es.map Prod.fst) key) with
      | none => none
      | some (es1, cu) =>
        if cu then
          some (.internal (CoalesceOrRedistribute lMax iMax es1
              (InternalLookup (es.map Prod.fst) key)).1,
            (CoalesceOrRedistribute lMax iMax es1
              (InternalLookup (es.map Prod.fst) key)).2 &&
              decide ((CoalesceOrRedistribute lMax iMax es1
                (InternalLookup (es.map Prod.fst) key)).1.length < GetMinSize iMax))
        else some (.internal es1, false) := by
  rw [removeAux]

/-- Correctness of the delete descent on a well-formed page routed with a key
inside its interval: `none` is returned exactly when the key is absent (and
then nothing was touched); otherwise the result holds the old contents minus
the key's entry and stays well-formed — `CoalesceOrRedistribute` only
redistributes entries, so the contents are unaffected by the rebalancing. -/
theorem removeAux_ok {lMax iMax : Nat} (hl1 : 1 ≤ lMax) (hi2 : 2 ≤ iMax)
    {key : α} {p : BPage α V} : ∀ (lo hi : Option α),
    wfPage lo hi p = true →
    (∀ l, lo = some l → l ≤ key) → (∀ h, hi = some h → key < h) →
    match removeAux lMax iMax key p with
    | none => lookupKey p.toList key = none
    | some pr => lookupKey p.toList key ≠ none ∧
        pr.1.toList = eraseKey p.toList key ∧ wfPage lo hi pr.1 = true := by
  induction p using BPage.ind with
  | hleaf es =>
    intro lo hi hw hklo hkhi
    rw [wfPage_leaf_iff] at hw
    obtain ⟨hs, hbnd⟩ := hw
    obtain ⟨hrle, hrlow, hrhigh⟩ := @LowerBound_spec α _ (es.map Prod.fst) key hs
    obtain ⟨r, hr_def⟩ : ∃ n, LowerBound (es.map Prod.fst) key = n := ⟨_, rfl⟩
    rw [hr_def] at hrle hrlow hrhigh
    rw [List.length_map] at hrle
    have hget : ∀ (j : Nat) (hj : j < es.length),
        (es.map Prod.fst).get ⟨j, by simpa using hj⟩ = (es.get ⟨j, hj⟩).1 := by
      intro j hj
      simp
    have htake : ∀ e ∈ es.take r, e.1 < key := by
      refine @mem_take_lt (α × V) es r (fun e => e.1 < key) ?_
      intro j hj hjr
      have := hrlow j (by simpa using hj) hjr
      rwa [hget j hj] at this
    rcases Nat.lt_or_ge r es.length with hr | hr
    · rcases hgete : es.get ⟨r, hr⟩ with ⟨k, w⟩
      have her : es[r]? = some (k, w) := by
        rw [List.getElem?_eq_getElem hr]
        exact congrArg some hgete
      by_cases heq : compare k key = Ordering.eq
      · -- the key is at slot `r`: erase it
        have hkeq : key = k := (compare_eq_iff_eq.1 heq).symm
        subst hkeq
        have hval1 : removeAux lMax iMax key (.leaf es) =
            (if compare key key = Ordering.eq then
              some ((.leaf (es.eraseIdx r) : BPage α V),
                decide ((es.eraseIdx r).length < GetMinSize lMax))
            else none) := by
          rw [removeAux_leaf_eq, hr_def, her]
        have hval : removeAux lMax iMax key (.leaf es) =
            some (.leaf (es.eraseIdx r),
              decide ((es.eraseIdx r).length < GetMinSize lMax)) := by
          rw [hval1, if_pos heq]
        rw [hval]
        have hge2 : es[r] = es.get ⟨r, hr⟩ := rfl
        have hsplit : es = es.take r ++ (key, w) :: es.drop (r + 1) := by
          rw [← hgete, ← hge2, ← List.drop_eq_getElem_cons hr]
          exact (List.take_append_drop r es).symm
        refine ⟨?_, ?_, ?_⟩
        · show lookupKey es key ≠ none
          rw [hsplit, lookupKey_append_left (fun e he => ne_of_lt (htake e he)),
            lookupKey_cons_eq]
          simp
        · show es.eraseIdx r = eraseKey es key
          rw [eraseIdx_decomp]
          conv_rhs => rw [hsplit]
          rw [eraseKey_append_left (fun e he => ne_of_lt (htake e he)),
            eraseKey_cons_eq]
        · rw [wfPage_leaf_iff]
          have hsub : List.Sublist (es.eraseIdx r) es := List.eraseIdx_sublist es r
          refine ⟨hs.sublist (hsub.map _), ?_⟩
          intro k2 hk2
          exact hbnd k2 ((hsub.map _).subset hk2)
      · -- slot `r` holds a different key: silent not-found
        have hval1 : removeAux lMax iMax key (.leaf es) =
            (if compare k key = Ordering.eq then
              some ((.leaf (es.eraseIdx r) : BPage α V),
                decide ((es.eraseIdx r).length < GetMinSize lMax))
            else none) := by
          rw [removeAux_leaf_eq, hr_def, her]
        have hval : removeAux lMax iMax key (.leaf es) = none := by
          rw [hval1, if_neg heq]
        rw [hval]
        show lookupKey es key = none
        rw [← LeafLookup_eq hs]
        simp only [LeafLookup]
        rw [hr_def, her]
        show (if compare k key = Ordering.eq then some w else none) = none
        rw [if_neg heq]
    · -- `LowerBound` ran past the end: silent not-found
      have her : es[r]? = none := List.getElem?_eq_none (by simpa using hr)
      have hval : removeAux lMax iMax key (.leaf es) = none := by
        rw [removeAux_leaf_eq, hr_def, her]
      rw [hval]
      show lookupKey es key = none
      apply lookupKey_eq_none
      intro e he
      have h8 : es.take r = es := List.take_of_length_le (by omega)
      exact ne_of_lt (htake e (by rw [h8]; exact he))
  | hint es hIH =>
    intro lo hi hw hklo hkhi
    obtain ⟨e, hee, hwc, hclo, hchi, hpre, hsuf⟩ := wf_route key hw hklo hkhi
    obtain ⟨i, hi_def⟩ : ∃ n, InternalLookup (es.map Prod.fst) key = n := ⟨_, rfl⟩
    rw [hi_def] at hee hwc hclo hchi hpre hsuf
    have hilt : i < es.length := by
      by_contra hc
      rw [List.getElem?_eq_none (by omega)] at hee
      exact absurd hee (by simp)
    have hegete : es.get ⟨i, hilt⟩ = e := by
      rw [List.getElem?_eq_getElem hilt] at hee
      simpa using hee
    have hlk_eq : lookupKey (entsToList es) key = lookupKey e.2.toList key := by
      rw [entsToList_decomp hilt, lookupKey_append_left (by
        intro e2 he2
        exact ne_of_lt (hpre e2.1 (List.mem_map_of_mem _ he2)))]
      rw [hegete]
      rw [lookupKey_append_right (by
        intro e2 he2
        exact ne_of_gt (hsuf e2.1 (List.mem_map_of_mem _ he2)))]
    have her_eq : eraseKey (entsToList es) key = entsToList (es.take i) ++
        (eraseKey e.2.toList key ++ entsToList (es.drop (i + 1))) := by
      rw [entsToList_decomp hilt, hegete]
      rw [eraseKey_append_left (by
        intro e2 he2
        exact ne_of_lt (hpre e2.1 (List.mem_map_of_mem _ he2)))]
      rw [eraseKey_append_right (by
        intro e2 he2
        exact ne_of_gt (hsuf e2.1 (List.mem_map_of_mem _ he2)))]
    have hchild := hIH e (hegete ▸ List.get_mem es i hilt)
      (if i = 0 then lo else some e.1) (firstKey (es.drop (i + 1)) hi) hwc hclo hchi
    rcases hres : removeAux lMax iMax key e.2 with _ | ⟨c2, cu⟩
    · -- the key is absent below: the whole page reports not-found
      rw [hres] at hchild
      have hval : removeAux lMax iMax key (.internal es) = none := by
        rw [removeAux_internal_eq, hi_def, removeEntries_eq hilt, hegete, hres]
      rw [hval]
      show lookupKey (entsToList es) key = none
      rw [hlk_eq]
      exact hchild
    · rw [hres] at hchild
      obtain ⟨hlkn, htl, hwc2⟩ := hchild
      have hpend : removeEntries lMax iMax key es i = some (es.set i (e.1, c2), cu) := by
        rw [removeEntries_eq hilt, hegete, hres]
      have hwc2g : wfPage (if i = 0 then lo else some ((es.get ⟨i, hilt⟩).1))
          (firstKey (es.drop (i + 1)) hi) c2 = true := by
        rw [hegete]
        exact hwc2
      have hwset : wfPage lo hi (.internal (es.set i (e.1, c2))) = true := by
        have h1 := wf_set_child hilt hw hwc2g
        rwa [hegete] at h1
      have htolset : entsToList (es.set i (e.1, c2)) = eraseKey (entsToList es) key := by
        rw [set_eq_take_cons_drop _ hilt, entsToList_append, entsToList_cons, her_eq,
          htl]
      have hlkne : lookupKey (entsToList es) key ≠ none := by
        rw [hlk_eq]
        exact hlkn
      by_cases hcu : cu = true
      · -- the child underflowed: run `CoalesceOrRedistribute`
        subst hcu
        have hCoR := CoalesceOrRedistribute_wf hl1 hi2 i hwset
        have hval1 : removeAux lMax iMax key (.internal es) =
            (if true = true then
              some ((.internal (CoalesceOrRedistribute lMax iMax
                  (es.set i (e.1, c2)) i).1 : BPage α V),
                (CoalesceOrRedistribute lMax iMax (es.set i (e.1, c2)) i).2 &&
                  decide ((CoalesceOrRedistribute lMax iMax
                    (es.set i (e.1, c2)) i).1.length < GetMinSize iMax))
            else some (.internal (es.set i (e.1, c2)), false)) := by
          rw [removeAux_internal_eq, hi_def, hpend]
        have hval : removeAux lMax iMax key (.internal es) =
            some (.internal (CoalesceOrRedistribute lMax iMax (es.set i (e.1, c2)) i).1,
              (CoalesceOrRedistribute lMax iMax (es.set i (e.1, c2)) i).2 &&
                decide ((CoalesceOrRedistribute lMax iMax
                  (es.set i (e.1, c2)) i).1.length < GetMinSize iMax)) := by
          rw [hval1, if_pos rfl]
        rw [hval]
        refine ⟨hlkne, ?_, hCoR.1⟩
        show entsToList (CoalesceOrRedistribute lMax iMax (es.set i (e.1, c2)) i).1 =
          eraseKey (entsToList es) key
        rw [hCoR.2]
        exact htolset
      · have hcu2 : cu = false := by
          revert hcu
          cases cu <;> simp
        subst hcu2
        have hval1 : removeAux lMax iMax key (.internal es) =
            (if false = true then
              some ((.internal (CoalesceOrRedistribute lMax iMax
                  (es.set i (e.1, c2)) i).1 : BPage α V),
                (CoalesceOrRedistribute lMax iMax (es.set i (e.1, c2)) i).2 &&
                  decide ((CoalesceOrRedistribute lMax iMax
                    (es.set i (e.1, c2)) i).1.length < GetMinSize iMax))
            else some (.internal (es.set i (e.1, c2)), false)) := by
          rw [removeAux_internal_eq, hi_def, hpend]
        have hval : removeAux lMax iMax key (.internal es) =
            some (.internal (es.set i (e.1, c2)), false) := by
          rw [hval1, if_neg (by simp)]
        rw [hval]
        exact ⟨hlkne, htolset, hwset⟩

theorem wf_root {t : BPlusTree α V} (hw : t.wf = true) {r : BPage α V}
    (hr : t.root = some r) : wfPage none none r = true := by
  simp only [BPlusTree.wf, hr, Bool.and_eq_true] at hw
  exact hw.2

theorem wf_leafMax {t : BPlusTree α V} (hw : t.wf = true) : 1 ≤ t.leafMax := by
  simp only [BPlusTree.wf, Bool.and_eq_true, decide_eq_true_eq] at hw
  exact hw.1.1

theorem wf_internalMax {t : BPlusTree α V} (hw : t.wf = true) : 2 ≤ t.internalMax := by
  simp only [BPlusTree.wf, Bool.and_eq_true, decide_eq_true_eq] at hw
  exact hw.1.2

/-- Tree `GetValue` on a well-formed tree is association-list lookup in the
tree's in-order contents. -/
theorem GetValue_eq {t : BPlusTree α V} (hw : t.wf = true) (key : α) :
    t.GetValue key = lookupKey t.toList key := by
  cases hr : t.root with
  | none => simp [BPlusTree.GetValue, BPlusTree.toList, hr, lookupKey]
  | some r =>
    have hwr := wf_root hw hr
    simp only [BPlusTree.GetValue, BPlusTree.toList, hr]
    exact findAux_ok none none hwr (fun l hl => Option.noConfusion hl)
      (fun h hh => Option.noConfusion hh)

theorem eraseKey_insertKey {l : List (α × V)} {key : α} {v : V} :
    eraseKey (insertKey l key v) key = l := by
  induction l with
  | nil => simp [insertKey, eraseKey]
  | cons e rest ih =>
    obtain ⟨k, w⟩ := e
    by_cases hle : key ≤ k
    · rw [insertKey, if_pos hle, eraseKey, if_pos rfl]
    · rw [insertKey, if_neg hle, eraseKey,
        if_neg (fun hc => hle (le_of_eq hc.symm)), ih]

/-- Tree `Insert` on a well-formed tree: the result is well-formed; a `false`
return is the duplicate-key abort and leaves the tree untouched; a `true`
return reports a fresh key and adds exactly its entry at the ordered
position. -/
theorem Insert_ok [Inhabited α] {t : BPlusTree α V} (hw : t.wf = true)
    (key : α) (v : V) :
    (t.Insert key v).1.wf = true ∧
      ((t.Insert key v).2 = false →
        t.Insert key v = (t, false) ∧ lookupKey t.toList key ≠ none) ∧
      ((t.Insert key v).2 = true →
        (t.Insert key v).1.toList = insertKey t.toList key v ∧
          lookupKey t.toList key = none) := by
  cases hr : t.root with
  | none =>
    have hval : t.Insert key v = ({ t with root := some (.leaf [(key, v)]) }, true) := by
      rw [BPlusTree.Insert, hr]
    rw [hval]
    refine ⟨?_, ?_, ?_⟩
    · simp only [BPlusTree.wf]
      have h1 := wf_leafMax hw
      have h2 := wf_internalMax hw
      simp only [decide_eq_true_eq, Bool.and_eq_true]
      refine ⟨⟨h1, h2⟩, ?_⟩
      rw [wfPage_leaf_iff]
      constructor
      · simp
      · simp
    · intro h
      simp at h
    · intro h
      constructor
      · show ([(key, v)] : List (α × V)) = insertKey t.toList key v
        simp [BPlusTree.toList, hr, insertKey]
      · simp [BPlusTree.toList, hr, lookupKey]
  | some r =>
    have hwr := wf_root hw hr
    have hl1 := wf_leafMax hw
    have hi2 := wf_internalMax hw
    have hins := @insertAux_ok α _ V t.leafMax t.internalMax hl1 hi2 key v r none none
      hwr (fun l hl => Option.noConfusion hl) (fun h hh => Option.noConfusion hh)
    have hv1 : t.Insert key v =
        (match insertAux t.leafMax t.internalMax key v r with
         | .dup => (t, false)
         | .one r2 => ({ t with root := some r2 }, true)
         | .split l sep rr =>
           ({ t with root := some (.internal [(default, l), (sep, rr)]) }, true)) := by
      rw [BPlusTree.Insert, hr]
    have htolr : t.toList = r.toList := by
      simp [BPlusTree.toList, hr]
    rcases hres : insertAux t.leafMax t.internalMax key v r with _ | p2 | ⟨pl, sep, pr⟩ <;>
      rw [hres] at hins hv1
    · -- duplicate key
      rw [hv1]
      refine ⟨hw, ?_, ?_⟩
      · intro h
        rw [htolr]
        exact ⟨rfl, hins⟩
      · intro h
        simp at h
    · -- root absorbed the entry
      obtain ⟨hlkn, htl, hwp⟩ := hins
      rw [hv1]
      refine ⟨?_, ?_, ?_⟩
      · simp only [BPlusTree.wf, decide_eq_true_eq, Bool.and_eq_true]
        exact ⟨⟨hl1, hi2⟩, hwp⟩
      · intro h
        simp at h
      · intro h
        rw [htolr]
        refine ⟨?_, hlkn⟩
        simpa [BPlusTree.toList] using htl
    · -- the root split: `CreateNewRoot`
      obtain ⟨hlkn, htl, hwl, hwr2, hslo, hshi⟩ := hins
      rw [hv1]
      refine ⟨?_, ?_, ?_⟩
      · simp only [BPlusTree.wf, decide_eq_true_eq, Bool.and_eq_true]
        refine ⟨⟨hl1, hi2⟩, ?_⟩
        rw [wfPage_internal_iff]
        refine ⟨?_, ?_, ?_, ?_, ?_⟩
        · intro l hl
          exact Option.noConfusion hl
        · simp
        · intro k hk
          simp at hk
          subst hk
          exact ⟨fun l hl => Option.noConfusion hl, fun h hh => Option.noConfusion hh⟩
        · simpa [firstKey] using hwl
        · rw [wfChildren_cons_iff]
          refine ⟨?_, wfChildren_nil⟩
          simpa [firstKey] using hwr2
      · intro h
        simp at h
      · intro h
        rw [htolr]
        refine ⟨?_, hlkn⟩
        show entsToList [(default, pl), (sep, pr)] = insertKey r.toList key v
        rw [entsToList_cons, entsToList_cons]
        show pl.toList ++ (pr.toList ++ entsToList []) = insertKey r.toList key v
        rw [show entsToList ([] : List (α × BPage α V)) = [] from rfl,
          List.append_nil, htl]

/-- Tree `Remove` on a well-formed tree: the result is well-formed, an absent
key leaves the tree untouched, and in every case the contents lose exactly
the key's entry (losing nothing when it is absent). -/
theorem Remove_ok {t : BPlusTree α V} (hw : t.wf = true) (key : α) :
    (t.Remove key).wf = true ∧
      (lookupKey t.toList key = none → t.Remove key = t) ∧
      (t.Remove key).toList = eraseKey t.toList key := by
  cases hr : t.root with
  | none =>
    have hval : t.Remove key = t := by
      rw [BPlusTree.Remove, hr]
    rw [hval]
    refine ⟨hw, fun _ => rfl, ?_⟩
    simp [BPlusTree.toList, hr, eraseKey]
  | some r =>
    have hwr := wf_root hw hr
    have hl1 := wf_leafMax hw
    have hi2 := wf_internalMax hw
    have hrem := @removeAux_ok α _ V t.leafMax t.internalMax hl1 hi2 key r none none
      hwr (fun l hl => Option.noConfusion hl) (fun h hh => Option.noConfusion hh)
    have htolr : t.toList = r.toList := by
      simp [BPlusTree.toList, hr]
    have hv1 : t.Remove key =
        (match removeAux t.leafMax t.internalMax key r with
         | none => t
         | some (p, ru) =>
           if ru then
             match p with
             | .leaf es =>
               if es.length = 0 then { t with root := none } else { t with root := some p }
             | .internal [(_, c)] => { t with root := some c }
             | .internal _ => { t with root := some p }
           else { t with root := some p }) := by
      rw [BPlusTree.Remove, hr]
    rcases hres : removeAux t.leafMax t.internalMax key r with _ | ⟨p2, flag⟩ <;>
      rw [hres] at hrem hv1
    · -- silent not-found
      rw [hv1]
      refine ⟨hw, fun _ => rfl, ?_⟩
      rw [htolr, eraseKey_of_not_mem (lookupKey_none_iff.1 hrem)]
    · obtain ⟨hlkne, htl, hwp⟩ := hrem
      have hcontra : ¬ lookupKey t.toList key = none := by
        rw [htolr]
        exact hlkne
      cases flag with
      | false =>
        have hval : t.Remove key = { t with root := some p2 } := hv1
        rw [hval]
        refine ⟨?_, fun h => absurd h hcontra, ?_⟩
        · simp only [BPlusTree.wf, decide_eq_true_eq, Bool.and_eq_true]
          exact ⟨⟨hl1, hi2⟩, hwp⟩
        · rw [htolr]
          simpa [BPlusTree.toList] using htl
      | true =>
        rcases p2 with es | es2
        · -- leaf root: `AdjustRoot` empties the tree when it has no entries
          by_cases hlen : es.length = 0
          · have hv2 : t.Remove key =
                (if es.length = 0 then { t with root := none }
                 else { t with root := some (BPage.leaf es) }) := hv1
            have hval : t.Remove key = { t with root := none } := by
              rw [hv2, if_pos hlen]
            rw [hval]
            refine ⟨?_, fun h => absurd h hcontra, ?_⟩
            · simp only [BPlusTree.wf, decide_eq_true_eq, Bool.and_eq_true]
              exact ⟨⟨hl1, hi2⟩, trivial⟩
            · have hes : es = [] := List.length_eq_zero.1 hlen
              subst hes
              rw [htolr]
              show ([] : List (α × V)) = eraseKey r.toList key
              simpa [BPage.toList] using htl
          · have hv2 : t.Remove key =
                (if es.length = 0 then { t with root := none }
                 else { t with root := some (BPage.leaf es) }) := hv1
            have hval : t.Remove key = { t with root := some (.leaf es) } := by
              rw [hv2, if_neg hlen]
            rw [hval]
            refine ⟨?_, fun h => absurd h hcontra, ?_⟩
            · simp only [BPlusTree.wf, decide_eq_true_eq, Bool.and_eq_true]
              exact ⟨⟨hl1, hi2⟩, hwp⟩
            · rw [htolr]
              simpa [BPlusTree.toList] using htl
        · rcases es2 with _ | ⟨⟨k1, c⟩, rest2⟩
          · -- an empty internal page is never well-formed
            rw [wfPage_internal_nil] at hwp
            exact absurd hwp (by simp)
          · rcases rest2 with _ | ⟨e2, rest3⟩
            · -- single-child internal root: `RemoveAndReturnOnlyChild`
              have hval : t.Remove key = { t with root := some c } := hv1
              rw [hval]
              rw [wfPage_internal_iff] at hwp
              refine ⟨?_, fun h => absurd h hcontra, ?_⟩
              · simp only [BPlusTree.wf, decide_eq_true_eq, Bool.and_eq_true]
                refine ⟨⟨hl1, hi2⟩, ?_⟩
                simpa [firstKey] using hwp.2.2.2.1
              · rw [htolr]
                have h2 : c.toList ++ ([] : List (α × V)) =
                    eraseKey r.toList key := htl
                simpa [BPlusTree.toList] using h2
            · have hval : t.Remove key =
                  { t with root := some (.internal ((k1, c) :: e2 :: rest3)) } := hv1
              rw [hval]
              refine ⟨?_, fun h => absurd h hcontra, ?_⟩
              · simp only [BPlusTree.wf, decide_eq_true_eq, Bool.and_eq_true]
                exact ⟨⟨hl1, hi2⟩, hwp⟩
              · rw [htolr]
                simpa [BPlusTree.toList] using htl

/-- Every tree reachable by `Insert`/`Remove` operations from an empty tree
with sane capacities is well-formed. -/
theorem Reachable_wf [Inhabited α] {t : BPlusTree α V} (h : Reachable t) :
    t.wf = true := by
  induction h with
  | empty lMax iMax h1 h2 =>
    simp only [BPlusTree.empty, BPlusTree.wf, decide_eq_true_eq, Bool.and_eq_true]
    exact ⟨⟨h1, h2⟩, trivial⟩
  | insert key v h ih => exact (Insert_ok ih key v).1
  | remove key h ih => exact (Remove_ok ih key).1

/-- C1.  For every tree reachable from the empty tree by inserts and deletes,
the full in-order iteration along the leaf chain yields strictly increasing —
hence pairwise distinct — keys. -/
theorem C1_inorder_keys_sorted [Inhabited α] {t : BPlusTree α V}
    (h : Reachable t) :
    t.keys.Pairwise (· < ·) ∧ t.keys.Nodup := by
  have hw := Reachable_wf h
  have hs : t.keys.Pairwise (· < ·) := by
    cases hr : t.root with
    | none => simp [BPlusTree.keys, hr]
    | some r =>
      have hwr := wf_root hw hr
      have h1 := (wf_toList none none hwr).1
      simpa [BPlusTree.keys, hr, BPage.keys] using h1
  exact ⟨hs, hs.imp ne_of_lt⟩

theorem C1_witness :
    ((((BPlusTree.empty Nat Nat 2 4).Insert 5 50).1.Insert 3 30).1.Remove 5).keys.Pairwise
        (· < ·) ∧
      ((((BPlusTree.empty Nat Nat 2 4).Insert 5 50).1.Insert 3 30).1.Remove 5).keys.Nodup :=
  C1_inorder_keys_sorted
    (Reachable.remove 5 (Reachable.insert 3 30 (Reachable.insert 5 50
      (Reachable.empty 2 4 (by decide) (by decide)))))

/-- C3.  On a well-formed tree, inserting a fresh key `k` with value `v` and
searching `k` finds `v`; inserting, deleting and then searching `k` reports
not-found. -/
theorem C3_round_trip [Inhabited α] {t : BPlusTree α V} (hw : t.wf = true)
    {key : α} (v : V) (habs : t.GetValue key = none) :
    (t.Insert key v).1.GetValue key = some v ∧
      ((t.Insert key v).1.Remove key).GetValue key = none := by
  have hlk : lookupKey t.toList key = none := by
    rw [← GetValue_eq hw]
    exact habs
  have hins := Insert_ok hw key v
  have h2 : (t.Insert key v).2 = true := by
    by_contra hc
    have hf : (t.Insert key v).2 = false := by
      revert hc
      cases (t.Insert key v).2 <;> simp
    exact absurd hlk (hins.2.1 hf).2
  have hw1 : (t.Insert key v).1.wf = true := hins.1
  have htol1 : (t.Insert key v).1.toList = insertKey t.toList key v :=
    (hins.2.2 h2).1
  constructor
  · rw [GetValue_eq hw1, htol1]
    exact lookupKey_insertKey
  · have hrem := Remove_ok hw1 key
    rw [GetValue_eq hrem.1, hrem.2.2, htol1, eraseKey_insertKey]
    exact hlk

theorem C3_witness :
    (((BPlusTree.empty Nat Nat 2 4).Insert 7 70).1.Insert 4 40).1.GetValue 4 = some 40 ∧
      ((((BPlusTree.empty Nat Nat 2 4).Insert 7 70).1.Insert 4 40).1.Remove 4).GetValue 4 =
        none :=
  @C3_round_trip Nat _ Nat _ ((BPlusTree.empty Nat Nat 2 4).Insert 7 70).1
    (by decide) 4 40 (by decide)

/-- C7.  Deleting an absent key from a well-formed tree (the empty tree
included) is a silent no-op that leaves the tree unchanged, and repeating the
same absent-key delete gives the same no-op result. -/
theorem C7_absent_delete_noop {t : BPlusTree α V} (hw : t.wf = true) {key : α}
    (habs : t.GetValue key = none) :
    t.Remove key = t ∧ (t.Remove key).Remove key = t.Remove key := by
  have hlk : lookupKey t.toList key = none := by
    rw [← GetValue_eq hw]
    exact habs
  have h1 : t.Remove key = t := (Remove_ok hw key).2.1 hlk
  constructor
  · exact h1
  · rw [h1]
    exact h1

theorem C7_witness :
    ((BPlusTree.empty Nat Nat 2 4).Insert 7 70).1.Remove 4 =
        ((BPlusTree.empty Nat Nat 2 4).Insert 7 70).1 ∧
      ((((BPlusTree.empty Nat Nat 2 4).Insert 7 70).1.Remove 4).Remove 4) =
        ((BPlusTree.empty Nat Nat 2 4).Insert 7 70).1.Remove 4 :=
  @C7_absent_delete_noop Nat _ Nat ((BPlusTree.empty Nat Nat 2 4).Insert 7 70).1
    (by decide) 4 (by decide)

theorem length_insertIdx_ub {β : Type} (x : β) :
    ∀ (l : List β) (n : Nat), (List.insertIdx n x l).length ≤ l.length + 1 := by
  intro l
  induction l with
  | nil => intro n; cases n <;> simp [List.insertIdx]
  | cons a t ih =>
    intro n
    cases n with
    | zero => simp
    | succ n => simpa [List.insertIdx_succ_cons] using ih n

theorem length_insertIdx_lb {β : Type} (x : β) :
    ∀ (l : List β) (n : Nat), l.length ≤ (List.insertIdx n x l).length := by
  intro l
  induction l with
  | nil => intro n; cases n <;> simp [List.insertIdx]
  | cons a t ih =>
    intro n
    cases n with
    | zero => simp
    | succ n => simpa [List.insertIdx_succ_cons] using ih n

/-- When the orchestrator's duplicate guard reports the key absent, the leaf
insert routine shifts and inserts at the `LowerBound` position. -/
theorem LeafInsert_of_lookup_none {es : List (α × V)} {key : α} {v : V}
    (h : LeafLookup es key = none) :
    LeafInsert es key v =
      List.insertIdx (LowerBound (es.map Prod.fst) key) (key, v) es := by
  simp only [LeafLookup] at h
  simp only [LeafInsert]
  cases hg : es[LowerBound (es.map Prod.fst) key]? with
  | none => rfl
  | some e =>
    obtain ⟨k, w⟩ := e
    rw [hg] at h
    have h2 : (if compare k key = Ordering.eq then some w else none) = none := h
    have hne : ¬ compare k key = Ordering.eq := by
      intro hc
      rw [if_pos hc] at h2
      exact Option.noConfusion h2
    show (if compare k key = Ordering.eq then es
          else List.insertIdx (LowerBound (es.map Prod.fst) key) (key, v) es) =
        List.insertIdx (LowerBound (es.map Prod.fst) key) (key, v) es
    rw [if_neg hne]

/-- Strict ascent of the routing keys, read off at arbitrary indices. -/
theorem pairwise_drop_one_get {ks : List α} (hs : (ks.drop 1).Pairwise (· < ·))
    {i j : Nat} (hi : 1 ≤ i) (hij : i < j) (hj : j < ks.length)
    (hi2 : i < ks.length) :
    ks.get ⟨i, hi2⟩ < ks.get ⟨j, hj⟩ := by
  rw [List.pairwise_iff_get] at hs
  have hlen : (ks.drop 1).length = ks.length - 1 := by simp
  have hi' : i - 1 < (ks.drop 1).length := by omega
  have hj' : j - 1 < (ks.drop 1).length := by omega
  have hmain := hs ⟨i - 1, hi'⟩ ⟨j - 1, hj'⟩ (Fin.mk_lt_mk.mpr (by omega))
  have h1 : 1 + (i - 1) < ks.length := by omega
  have h2 : 1 + (j - 1) < ks.length := by omega
  have e1 := @List.get_drop α ks 1 (i - 1) h1
  have e2 := @List.get_drop α ks 1 (j - 1) h2
  have f1 : (⟨1 + (i - 1), h1⟩ : Fin ks.length) = ⟨i, hi2⟩ :=
    Fin.mk_eq_mk.mpr (by omega)
  have f2 : (⟨1 + (j - 1), h2⟩ : Fin ks.length) = ⟨j, hj⟩ :=
    Fin.mk_eq_mk.mpr (by omega)
  rw [f1] at e1
  rw [f2] at e2
  rw [← e1, ← e2] at hmain
  exact hmain

/-- C4.  Inserting a key that is already present returns the non-fatal
`false` result of the tree orchestrator and leaves the whole tree state
unchanged (on an abort, `Insert` returns the tree it was given and all guards
of the descent are dropped with the returned context); the duplicate is
detected by the orchestrator's leaf `Lookup` guard before the leaf page's
insert routine is ever reached, irrespective of the page capacities. -/
theorem C4_duplicate_insert_rejected [Inhabited α] {t : BPlusTree α V}
    (hw : t.wf = true) (key : α) (v : V) (hdup : t.GetValue key ≠ none) :
    t.Insert key v = (t, false) ∧
      (∀ (lMax iMax : Nat) (es : List (α × V)), LeafLookup es key ≠ none →
        insertAux lMax iMax key v (BPage.leaf es) = InsRes.dup) := by
  constructor
  · have hlk : lookupKey t.toList key ≠ none := by
      rw [← GetValue_eq hw]
      exact hdup
    cases hb : (t.Insert key v).2 with
    | false => exact ((Insert_ok hw key v).2.1 hb).1
    | true => exact absurd ((Insert_ok hw key v).2.2 hb).2 hlk
  · intro lMax iMax es hll
    rw [insertAux_leaf_eq]
    cases hg : LeafLookup es key with
    | none => exact absurd hg hll
    | some w => rfl

theorem C4_witness :
    ((BPlusTree.empty Nat Nat 2 4).Insert 4 40).1.Insert 4 99 =
        (((BPlusTree.empty Nat Nat 2 4).Insert 4 40).1, false) ∧
      (∀ (lMax iMax : Nat) (es : List (Nat × Nat)), LeafLookup es 4 ≠ none →
        insertAux lMax iMax 4 99 (BPage.leaf es) = InsRes.dup) :=
  C4_duplicate_insert_rejected (by decide) 4 99 (by decide)

/-- C5.  Split timing.  A leaf with the key absent and within capacity splits
exactly when the over-insertion has brought it to `max_size + 1` entries, and
the two halves partition the over-inserted entry list — the split happens
after the insertion.  An internal page that must receive a propagated
`(separator, child)` pair splits pre-emptively exactly when it is full
*before* the pair goes in (`size == max_size`); otherwise the pair is placed
immediately, so an internal split is never deferred past capacity. -/
theorem C5_split_timing {lMax iMax : Nat} (key : α) (v : V) (hi1 : 1 ≤ iMax) :
    (∀ es : List (α × V), LeafLookup es key = none → es.length ≤ lMax →
      ((∃ l sep rr, insertAux lMax iMax key v (BPage.leaf es) = InsRes.split l sep rr) ↔
        (LeafInsert es key v).length = lMax + 1) ∧
      (∀ l sep rr, insertAux lMax iMax key v (BPage.leaf es) = InsRes.split l sep rr →
        l = BPage.leaf ((LeafInsert es key v).take ((lMax + 1) / 2)) ∧
        rr = BPage.leaf ((LeafInsert es key v).drop ((lMax + 1) / 2))) ∧
      ((LeafInsert es key v).length ≤ lMax →
        insertAux lMax iMax key v (BPage.leaf es) =
          InsRes.one (BPage.leaf (LeafInsert es key v)))) ∧
    (∀ (es es1 : List (α × BPage α V)) (sep : α) (r : BPage α V),
      insertEntries lMax iMax key v es (InternalLookup (es.map Prod.fst) key) =
        WalkRes.pending es1 sep r →
      (es1.length = iMax →
        ∃ l m rr, insertAux lMax iMax key v (BPage.internal es) = InsRes.split l m rr) ∧
      (es1.length ≠ iMax →
        insertAux lMax iMax key v (BPage.internal es) =
          InsRes.one (BPage.internal
            (es1.insertIdx (InternalLookup (es.map Prod.fst) key + 1) (sep, r))))) := by
  constructor
  · intro es hnone hcap
    have hins := @LeafInsert_of_lookup_none α _ V es key v hnone
    have hub : (LeafInsert es key v).length ≤ es.length + 1 := by
      rw [hins]
      exact length_insertIdx_ub _ es _
    have heq : insertAux lMax iMax key v (BPage.leaf es) =
        (if lMax < (LeafInsert es key v).length then
          match ((LeafInsert es key v).drop ((LeafInsert es key v).length / 2)).head? with
          | some e =>
            InsRes.split
              (.leaf ((LeafInsert es key v).take ((LeafInsert es key v).length / 2)))
              e.1 (.leaf ((LeafInsert es key v).drop ((LeafInsert es key v).length / 2)))
          | none => InsRes.one (.leaf (LeafInsert es key v))
        else InsRes.one (.leaf (LeafInsert es key v))) := by
      rw [insertAux_leaf_eq, hnone]
    by_cases hsplit : lMax < (LeafInsert es key v).length
    · have hLen : (LeafInsert es key v).length = lMax + 1 := by omega
      have hdropne :
          (LeafInsert es key v).drop ((LeafInsert es key v).length / 2) ≠ [] := by
        intro hc
        have := congrArg List.length hc
        simp only [List.length_drop, List.length_nil] at this
        omega
      obtain ⟨e0, he0⟩ : ∃ e0,
          ((LeafInsert es key v).drop ((LeafInsert es key v).length / 2)).head? =
            some e0 := by
        cases hh : ((LeafInsert es key v).drop
            ((LeafInsert es key v).length / 2)).head? with
        | none => exact absurd (List.head?_eq_none_iff.1 hh) hdropne
        | some e => exact ⟨e, rfl⟩
      have hval : insertAux lMax iMax key v (BPage.leaf es) =
          InsRes.split
            (.leaf ((LeafInsert es key v).take ((LeafInsert es key v).length / 2)))
            e0.1
            (.leaf ((LeafInsert es key v).drop ((LeafInsert es key v).length / 2))) := by
        rw [heq, if_pos hsplit, he0]
      refine ⟨⟨fun _ => hLen, fun _ => ⟨_, _, _, hval⟩⟩, ?_, ?_⟩
      · intro l sep rr h
        have hcomb := hval.symm.trans h
        injection hcomb with h1 h2 h3
        constructor
        · rw [← h1, hLen]
        · rw [← h3, hLen]
      · intro hle
        exact absurd hle (not_le.2 hsplit)
    · have hval : insertAux lMax iMax key v (BPage.leaf es) =
          InsRes.one (BPage.leaf (LeafInsert es key v)) := by
        rw [heq, if_neg hsplit]
      refine ⟨⟨?_, ?_⟩, ?_, fun _ => hval⟩
      · rintro ⟨l, sep, rr, h⟩
        rw [hval] at h
        exact InsRes.noConfusion h
      · intro hLen
        exact (hsplit (by omega)).elim
      · intro l sep rr h
        rw [hval] at h
        exact InsRes.noConfusion h
  · intro es es1 sep r hpend
    have heq : insertAux lMax iMax key v (BPage.internal es) =
        (if es1.length = iMax then
          match es1[es1.length / 2]? with
          | some m =>
            if compare sep m.1 = Ordering.lt then
              InsRes.split
                (.internal ((es1.take (es1.length / 2)).insertIdx
                  (InternalLookup (es.map Prod.fst) key + 1) (sep, r)))
                m.1 (.internal (es1.drop (es1.length / 2)))
            else
              InsRes.split (.internal (es1.take (es1.length / 2))) m.1
                (.internal ((es1.drop (es1.length / 2)).insertIdx
                  (InternalLookup (es.map Prod.fst) key - es1.length / 2 + 1) (sep, r)))
          | none => InsRes.one (.internal es1)
        else
          InsRes.one (.internal (es1.insertIdx
            (InternalLookup (es.map Prod.fst) key + 1) (sep, r)))) := by
      rw [insertAux_internal_eq, hpend]
    constructor
    · intro hfull
      have hmid : es1.length / 2 < es1.length := by omega
      obtain ⟨m, hm⟩ : ∃ m, es1[es1.length / 2]? = some m :=
        ⟨_, List.getElem?_eq_getElem hmid⟩
      have hv2 : insertAux lMax iMax key v (BPage.internal es) =
          (if compare sep m.1 = Ordering.lt then
            InsRes.split
              (.internal ((es1.take (es1.length / 2)).insertIdx
                (InternalLookup (es.map Prod.fst) key + 1) (sep, r)))
              m.1 (.internal (es1.drop (es1.length / 2)))
          else
            InsRes.split (.internal (es1.take (es1.length / 2))) m.1
              (.internal ((es1.drop (es1.length / 2)).insertIdx
                (InternalLookup (es.map Prod.fst) key - es1.length / 2 + 1) (sep, r)))) := by
        rw [heq, if_pos hfull, hm]
      by_cases hcmp : compare sep m.1 = Ordering.lt
      · exact ⟨_, _, _, by rw [hv2, if_pos hcmp]⟩
      · exact ⟨_, _, _, by rw [hv2, if_neg hcmp]⟩
    · intro hne
      rw [heq, if_neg hne]

theorem C5_witness :
    insertAux 2 2 (5 : Nat) (50 : Nat) (BPage.leaf [(1, 10)]) =
      InsRes.one (BPage.leaf (LeafInsert [(1, 10)] 5 50)) :=
  ((@C5_split_timing Nat _ Nat 2 2 5 50 (by decide)).1 [(1, 10)]
    (by decide) (by decide)).2.2 (by decide)

/-- C6.  Internal `Lookup` on a page whose routing keys (slots `1 …`) are
strictly increasing and whose count is at least 2 selects the slot of the
largest index `i ≥ 1` whose key is at most the search key — so a search key
equal to a separator routes to the slot starting at that separator — and
slot 0 whenever the search key is below `key[1]`; a page of count 1
short-circuits to its sole slot before the search loop, with no key
comparison at all (any two comparators give the same slot 0). -/
theorem C6_internal_lookup_routing {ks : List α} (key : α)
    (hs : (ks.drop 1).Pairwise (· < ·)) (h2 : 2 ≤ ks.length) :
    InternalLookup ks key < ks.length ∧
      (∀ hr : InternalLookup ks key < ks.length, 1 ≤ InternalLookup ks key →
        ks.get ⟨InternalLookup ks key, hr⟩ ≤ key) ∧
      (∀ j (h : j < ks.length), InternalLookup ks key < j →
        key < ks.get ⟨j, h⟩) ∧
      (∀ h1 : 1 < ks.length, key < ks.get ⟨1, h1⟩ → InternalLookup ks key = 0) ∧
      (∀ j (h : j < ks.length), 1 ≤ j → ks.get ⟨j, h⟩ = key →
        InternalLookup ks key = j) ∧
      (∀ (cmp cmp' : α → α → Ordering) (ks2 : List α), ks2.length = 1 →
        InternalLookupC cmp ks2 key = 0 ∧ InternalLookupC cmp' ks2 key = 0) := by
  have hne : ks ≠ [] := by
    intro h
    subst h
    simp at h2
  obtain ⟨hlt, hle, hgt⟩ := InternalLookup_spec hne hs
  refine ⟨hlt, ?_, hgt, ?_, ?_, ?_⟩
  · intro hr h1
    exact hle _ hr h1 (le_refl _)
  · intro h1 hk1
    by_contra h0
    have h1le : 1 ≤ InternalLookup ks key := Nat.one_le_iff_ne_zero.mpr h0
    have := hle 1 h1 (le_refl _) h1le
    exact absurd hk1 (not_lt.mpr this)
  · intro j h hj1 hjk
    have hge : j ≤ InternalLookup ks key := by
      by_contra hc
      have hx := hgt j h (not_le.1 hc)
      rw [hjk] at hx
      exact lt_irrefl _ hx
    have hlee : InternalLookup ks key ≤ j := by
      by_contra hc
      push_neg at hc
      have hr1 : 1 ≤ InternalLookup ks key := le_trans hj1 (le_of_lt hc)
      have hkr := hle _ hlt hr1 (le_refl _)
      have hsort : ks.get ⟨j, h⟩ < ks.get ⟨InternalLookup ks key, hlt⟩ :=
        pairwise_drop_one_get hs hj1 hc hlt h
      rw [hjk] at hsort
      exact absurd hkr (not_le.2 hsort)
    omega
  · intro cmp cmp' ks2 hlen
    constructor <;> simp [InternalLookupC, hlen]

theorem C6_witness :
    InternalLookup [0, 3, 7] 7 < [0, 3, 7].length ∧
      (∀ hr : InternalLookup [0, 3, 7] 7 < [0, 3, 7].length,
        1 ≤ InternalLookup [0, 3, 7] 7 →
        [0, 3, 7].get ⟨InternalLookup [0, 3, 7] 7, hr⟩ ≤ 7) ∧
      (∀ j (h : j < [0, 3, 7].length), InternalLookup [0, 3, 7] 7 < j →
        7 < [0, 3, 7].get ⟨j, h⟩) ∧
      (∀ h1 : 1 < [0, 3, 7].length, 7 < [0, 3, 7].get ⟨1, h1⟩ →
        InternalLookup [0, 3, 7] 7 = 0) ∧
      (∀ j (h : j < [0, 3, 7].length), 1 ≤ j → [0, 3, 7].get ⟨j, h⟩ = 7 →
        InternalLookup [0, 3, 7] 7 = j) ∧
      (∀ (cmp cmp' : Nat → Nat → Ordering) (ks2 : List Nat), ks2.length = 1 →
        InternalLookupC cmp ks2 7 = 0 ∧ InternalLookupC cmp' ks2 7 = 0) :=
  C6_internal_lookup_routing 7 (by decide) (by decide)

theorem release_zero_not_mem_crabSteps (op : OpKind) :
    ∀ (path : List (Nat × Nat)) (lvl : Nat) (held : List Nat), 1 ≤ lvl →
      (∀ x ∈ held, 1 ≤ x) → LatchEvent.release 0 ∉ crabSteps op path lvl held := by
  intro path
  induction path with
  | nil =>
    intro lvl held _ _ hmem
    simp [crabSteps] at hmem
  | cons nd rest ih =>
    intro lvl held hlvl hheld hmem
    obtain ⟨sz, mx⟩ := nd
    rw [crabSteps] at hmem
    rcases List.mem_cons.1 hmem with h | h
    · exact LatchEvent.noConfusion h
    · by_cases hsafe : IsSafeNode sz mx op = true
      · rw [if_pos hsafe] at h
        rcases List.mem_append.1 h with h2 | h2
        · obtain ⟨x, hx, hx2⟩ := List.mem_map.1 h2
          have : (0 : Nat) = x := by
            injection hx2.symm
          have := hheld x hx
          omega
        · exact ih (lvl + 1) [lvl] (by omega)
            (by intro x hx; rw [List.mem_singleton] at hx; omega) h2
      · rw [if_neg hsafe] at h
        exact ih (lvl + 1) (held ++ [lvl]) (by omega)
          (by
            intro x hx
            rcases List.mem_append.1 hx with h1 | h1
            · exact hheld x h1
            · rw [List.mem_singleton] at h1; omega) h

/-- C8 (amended: per the `FindLeaf` pseudocode the header guard is dropped
exactly when the root is safe for the operation, not unconditionally).  The
safe-node predicate holds for an insert exactly when the size is strictly
below capacity and for a delete exactly when it is strictly above the
minimum, and the write descent releases the header guard if and only if the
root passes that very check. -/
theorem C8_safe_node_header (size maxSize : Nat) :
    (IsSafeNode size maxSize OpKind.insert = true ↔ size < maxSize) ∧
      (IsSafeNode size maxSize OpKind.delete = true ↔ GetMinSize maxSize < size) ∧
      (∀ (op : OpKind) (rsz rmx : Nat) (rest : List (Nat × Nat)),
        LatchEvent.release 0 ∈ FindLeafWrite op ((rsz, rmx) :: rest) ↔
          IsSafeNode rsz rmx op = true) := by
  refine ⟨by simp [IsSafeNode], by simp [IsSafeNode], ?_⟩
  intro op rsz rmx rest
  have hnot : LatchEvent.release 0 ∉ crabSteps op rest 2 [1] :=
    release_zero_not_mem_crabSteps op rest 2 [1] (by omega)
      (by intro x hx; rw [List.mem_singleton] at hx; omega)
  constructor
  · intro hmem
    by_cases hsafe : IsSafeNode rsz rmx op = true
    · exact hsafe
    · exfalso
      rw [FindLeafWrite, if_neg hsafe, List.nil_append] at hmem
      rcases List.mem_cons.1 hmem with h | h
      · exact LatchEvent.noConfusion h
      rcases List.mem_cons.1 h with h2 | h2
      · exact LatchEvent.noConfusion h2
      · exact hnot h2
  · intro hsafe
    rw [FindLeafWrite, if_pos hsafe, List.singleton_append]
    exact List.mem_cons_of_mem _ (List.mem_cons_of_mem _ (List.mem_cons_self _ _))

theorem C8_counterexample :
    FindLeafWrite OpKind.insert [(4, 4), (2, 4)] =
        [LatchEvent.acquire 0, LatchEvent.acquire 1, LatchEvent.acquire 2,
          LatchEvent.release 1] ∧
      LatchEvent.release 0 ∉ FindLeafWrite OpKind.insert [(4, 4), (2, 4)] := by
  decide

theorem acquires_append (t1 t2 : List LatchEvent) :
    acquires (t1 ++ t2) = acquires t1 ++ acquires t2 := by
  induction t1 with
  | nil => rfl
  | cons e r ih => cases e <;> simp [acquires, ih]

theorem acquires_map_release (held : List Nat) :
    acquires (held.map LatchEvent.release) = [] := by
  induction held with
  | nil => rfl
  | cons h r ih => simpa [acquires] using ih

theorem acquires_crabSteps_sorted (op : OpKind) :
    ∀ (path : List (Nat × Nat)) (lvl : Nat) (held : List Nat),
      (acquires (crabSteps op path lvl held)).Pairwise (· < ·) ∧
        ∀ x ∈ acquires (crabSteps op path lvl held), lvl ≤ x := by
  intro path
  induction path with
  | nil =>
    intro lvl held
    exact ⟨List.Pairwise.nil, by intro x hx; simp [crabSteps, acquires] at hx⟩
  | cons nd rest ih =>
    intro lvl held
    obtain ⟨sz, mx⟩ := nd
    have hacq : acquires (crabSteps op ((sz, mx) :: rest) lvl held) =
        lvl :: acquires (crabSteps op rest (lvl + 1)
          (if IsSafeNode sz mx op then [lvl] else held ++ [lvl])) := by
      rw [crabSteps]
      by_cases hsafe : IsSafeNode sz mx op = true
      · rw [if_pos hsafe, if_pos hsafe]
        simp only [acquires, acquires_append, acquires_map_release, List.nil_append]
      · rw [if_neg hsafe, if_neg hsafe]
        simp only [acquires]
    rw [hacq]
    obtain ⟨hp, hlb⟩ :=
      ih (lvl + 1) (if IsSafeNode sz mx op then [lvl] else held ++ [lvl])
    constructor
    · exact List.Pairwise.cons (fun x hx => by have := hlb x hx; omega) hp
    · intro x hx
      rcases List.mem_cons.1 hx with h | h
      · omega
      · have := hlb x h; omega

theorem acquires_FindLeafWrite_sorted (op : OpKind) (path : List (Nat × Nat)) :
    (acquires (FindLeafWrite op path)).Pairwise (· < ·) := by
  cases path with
  | nil => exact List.Pairwise.nil
  | cons nd rest =>
    obtain ⟨rsz, rmx⟩ := nd
    have hacq : acquires (FindLeafWrite op ((rsz, rmx) :: rest)) =
        0 :: 1 :: acquires (crabSteps op rest 2 [1]) := by
      rw [FindLeafWrite]
      by_cases hsafe : IsSafeNode rsz rmx op = true
      · rw [if_pos hsafe, List.singleton_append]
        simp only [acquires]
      · rw [if_neg hsafe, List.nil_append]
        simp only [acquires]
    rw [hacq]
    obtain ⟨hp, hlb⟩ := acquires_crabSteps_sorted op rest 2 [1]
    refine List.Pairwise.cons ?_ (List.Pairwise.cons ?_ hp)
    · intro x hx
      rcases List.mem_cons.1 hx with h | h
      · omega
      · have := hlb x h; omega
    · intro x hx
      have := hlb x hx; omega

theorem releasesCovered_releases (tail : List LatchEvent) :
    ∀ (held acq : List Nat), (∀ h ∈ held, ∃ x ∈ acq, h < x) →
      releasesCovered acq (held.map LatchEvent.release ++ tail) =
        releasesCovered acq tail := by
  intro held
  induction held with
  | nil => intro acq _; rfl
  | cons h0 hr ih =>
    intro acq hcov
    simp only [List.map_cons, List.cons_append, releasesCovered]
    have hany : (acq.any fun x => decide (h0 < x)) = true := by
      obtain ⟨x, hx, hlt⟩ := hcov h0 (List.mem_cons_self h0 hr)
      exact List.any_eq_true.mpr ⟨x, hx, by simpa using hlt⟩
    rw [hany, Bool.true_and]
    exact ih acq (fun h hh => hcov h (List.mem_cons_of_mem _ hh))

theorem releasesCovered_crabSteps (op : OpKind) :
    ∀ (path : List (Nat × Nat)) (lvl : Nat) (held acq : List Nat),
      (∀ h ∈ held, h < lvl) →
      releasesCovered acq (crabSteps op path lvl held) = true := by
  intro path
  induction path with
  | nil => intro lvl held acq _; rfl
  | cons nd rest ih =>
    intro lvl held acq hh
    obtain ⟨sz, mx⟩ := nd
    rw [crabSteps]
    simp only [releasesCovered]
    by_cases hsafe : IsSafeNode sz mx op = true
    · rw [if_pos hsafe]
      have hcov : ∀ h ∈ held, ∃ x ∈ lvl :: acq, h < x := by
        intro h hmem
        exact ⟨lvl, List.mem_cons_self _ _, hh h hmem⟩
      rw [releasesCovered_releases _ held (lvl :: acq) hcov]
      exact ih (lvl + 1) [lvl] (lvl :: acq)
        (by intro h hh2; rw [List.mem_singleton] at hh2; omega)
    · rw [if_neg hsafe]
      exact ih (lvl + 1) (held ++ [lvl]) (lvl :: acq) (by
        intro h hh2
        rcases List.mem_append.1 hh2 with h1 | h1
        · have := hh h h1; omega
        · rw [List.mem_singleton] at h1; omega)

theorem releasesCovered_FindLeafWrite (op : OpKind) (path : List (Nat × Nat)) :
    releasesCovered [] (FindLeafWrite op path) = true := by
  cases path with
  | nil => rfl
  | cons nd rest =>
    obtain ⟨rsz, rmx⟩ := nd
    rw [FindLeafWrite]
    simp only [releasesCovered]
    by_cases hsafe : IsSafeNode rsz rmx op = true
    · rw [if_pos hsafe, List.singleton_append]
      simp only [releasesCovered]
      have hany : (([1, 0] : List Nat).any fun x => decide (0 < x)) = true := by decide
      rw [hany, Bool.true_and]
      exact releasesCovered_crabSteps op rest 2 [1] [1, 0]
        (by intro h hh; rw [List.mem_singleton] at hh; omega)
    · rw [if_neg hsafe, List.nil_append]
      exact releasesCovered_crabSteps op rest 2 [1] [1, 0]
        (by intro h hh; rw [List.mem_singleton] at hh; omega)

theorem readSteps_sorted :
    ∀ (k lvl : Nat), (acquires (readSteps lvl k)).Pairwise (· < ·) ∧
      ∀ x ∈ acquires (readSteps lvl k), lvl ≤ x := by
  intro k
  induction k with
  | zero =>
    intro lvl
    exact ⟨List.Pairwise.nil, by intro x hx; simp [readSteps, acquires] at hx⟩
  | succ n ih =>
    intro lvl
    have hacq : acquires (readSteps lvl (n + 1)) =
        lvl :: acquires (readSteps (lvl + 1) n) := by
      simp only [readSteps, acquires]
    rw [hacq]
    obtain ⟨hp, hlb⟩ := ih (lvl + 1)
    constructor
    · exact List.Pairwise.cons (fun x hx => by have := hlb x hx; omega) hp
    · intro x hx
      rcases List.mem_cons.1 hx with h | h
      · omega
      · have := hlb x h; omega

theorem releasesCovered_readSteps :
    ∀ (k lvl : Nat) (acq : List Nat), 1 ≤ lvl →
      releasesCovered acq (readSteps lvl k) = true := by
  intro k
  induction k with
  | zero => intro lvl acq _; rfl
  | succ n ih =>
    intro lvl acq h1
    simp only [readSteps, releasesCovered]
    have hany : ((lvl :: acq).any fun x => decide (lvl - 1 < x)) = true :=
      List.any_eq_true.mpr ⟨lvl, List.mem_cons_self _ _, by simp; omega⟩
    rw [hany, Bool.true_and]
    exact ih (lvl + 1) (lvl :: acq) (by omega)

/-- C9.  Along every write descent and every read descent, guard
acquisitions happen at strictly increasing depths (header → root → internal
levels → leaf), and a guard is only ever released after a strictly deeper
guard — the child's — has been acquired; and any waits-for relation that
respects such a fixed acquisition order admits no cycle, so the protocol is
deadlock-free. -/
theorem C9_latch_order (op : OpKind) (path : List (Nat × Nat)) (depth : Nat) :
    (acquires (FindLeafWrite op path)).Pairwise (· < ·) ∧
      releasesCovered [] (FindLeafWrite op path) = true ∧
      (acquires (FindLeafRead depth)).Pairwise (· < ·) ∧
      releasesCovered [] (FindLeafRead depth) = true ∧
      (∀ waits : Nat → Nat → Prop, (∀ a b, waits a b → a < b) →
        ∀ a, ¬ Relation.TransGen waits a a) := by
  refine ⟨acquires_FindLeafWrite_sorted op path,
    releasesCovered_FindLeafWrite op path, ?_, ?_, ?_⟩
  · have hacq : acquires (FindLeafRead depth) =
        1 :: acquires (readSteps 2 depth) := by
      simp only [FindLeafRead, acquires]
    rw [hacq]
    obtain ⟨hp, hlb⟩ := readSteps_sorted depth 2
    exact List.Pairwise.cons (fun x hx => by have := hlb x hx; omega) hp
  · show releasesCovered [] (LatchEvent.acquire 1 :: readSteps 2 depth) = true
    simp only [releasesCovered]
    exact releasesCovered_readSteps depth 2 [1] (by omega)
  · intro waits hw a hcyc
    have htrans : Transitive (fun a b : Nat => a < b) := fun x y z hx hy =>
      Nat.lt_trans hx hy
    have hmono : Relation.TransGen (fun a b : Nat => a < b) a a :=
      Relation.TransGen.mono hw hcyc
    rw [Relation.transGen_eq_self htrans] at hmono
    exact lt_irrefl a hmono

theorem le_empty_string {s : String} (h : s ≤ "") : s = "" := by
  rcases lt_or_eq_of_le h with h1 | h1
  · exfalso
    rw [String.lt_iff_toList_lt] at h1
    have he : ("" : String).toList = [] := rfl
    rw [he] at h1
    cases hs : s.toList with
    | nil => rw [hs] at h1; exact absurd h1 (lt_irrefl _)
    | cons a t => rw [hs] at h1; cases h1
  · exact h1

/-- C10.  The work-index generator and the Home page compute one and the
same ordering: both run the identical stable descending sort on
`x.date ?? ''`, so the order stored in `index.json` equals the order the
Home page would display; the result is a permutation of the input with
descending date keys, and — whenever no entry carries a literal empty-string
date — every undated entry sits after every dated one. -/
theorem C10_work_order_agrees (items : List WorkItem) :
    generateWorkIndexSort items = homeSortedWork items ∧
      List.Perm (generateWorkIndexSort items) items ∧
      (generateWorkIndexSort items).Pairwise (fun a b => dateKey b ≤ dateKey a) ∧
      ((∀ i ∈ items, i.date ≠ some "") →
        (generateWorkIndexSort items).Pairwise
          (fun a b => a.date = none → b.date = none)) := by
  have htrans : ∀ a b c : WorkItem,
      (fun a b : WorkItem => decide (dateKey b ≤ dateKey a)) a b = true →
      (fun a b : WorkItem => decide (dateKey b ≤ dateKey a)) b c = true →
      (fun a b : WorkItem => decide (dateKey b ≤ dateKey a)) a c = true := by
    intro a b c hab hbc
    simp only [decide_eq_true_eq] at hab hbc ⊢
    exact le_trans hbc hab
  have htotal : ∀ a b : WorkItem,
      ((fun a b : WorkItem => decide (dateKey b ≤ dateKey a)) a b ||
        (fun a b : WorkItem => decide (dateKey b ≤ dateKey a)) b a) = true := by
    intro a b
    simp only [Bool.or_eq_true, decide_eq_true_eq]
    exact le_total (dateKey b) (dateKey a)
  have hsorted := List.sorted_mergeSort htrans htotal items
  have hperm : List.Perm (generateWorkIndexSort items) items :=
    List.mergeSort_perm items _
  refine ⟨rfl, hperm, ?_, ?_⟩
  · exact hsorted.imp (by intro a b h; simpa using h)
  · intro hnone
    refine List.Pairwise.imp_of_mem ?_ hsorted
    intro a b _ hb hle hadate
    have hbmem : b ∈ items := hperm.subset hb
    have hbn := hnone b hbmem
    simp only [decide_eq_true_eq] at hle
    have ha0 : dateKey a = "" := by simp [dateKey, hadate]
    rw [ha0] at hle
    have hb0 : dateKey b = "" := le_empty_string hle
    cases hbd : b.date with
    | none => rfl
    | some d =>
      exfalso
      rw [dateKey, hbd] at hb0
      simp only [Option.getD_some] at hb0
      rw [hb0] at hbd
      exact hbn hbd

theorem fillPage_leaf {lMax iMax : Nat} {isRoot : Bool} {es : List (α × V)} :
    fillPage lMax iMax isRoot (BPage.leaf es) = true ↔
      (if isRoot then 1 else GetMinSize lMax) ≤ es.length ∧ es.length ≤ lMax := by
  simp [fillPage]

theorem fillPage_internal {lMax iMax : Nat} {isRoot : Bool}
    {es : List (α × BPage α V)} :
    fillPage lMax iMax isRoot (BPage.internal es) = true ↔
      (if isRoot then 1 else GetMinSize iMax) ≤ es.length ∧ es.length ≤ iMax ∧
        fillChildren lMax iMax es = true := by
  simp [fillPage, and_assoc]

theorem fillChildren_iff {lMax iMax : Nat} {es : List (α × BPage α V)} :
    fillChildren lMax iMax es = true ↔
      ∀ e ∈ es, fillPage lMax iMax false e.2 = true := by
  induction es with
  | nil => simp [fillChildren]
  | cons e rest ih =>
    obtain ⟨k, c⟩ := e
    rw [fillChildren, Bool.and_eq_true, ih]
    constructor
    · rintro ⟨h1, h2⟩ f hf
      rcases List.mem_cons.1 hf with h | h
      · rw [h]; exact h1
      · exact h2 f h
    · intro h
      exact ⟨h _ (List.mem_cons_self _ _), fun f hf => h f (List.mem_cons_of_mem _ hf)⟩

theorem balancedPage_leaf {es : List (α × V)} :
    balancedPage (BPage.leaf es) = true := rfl

theorem balancedPage_internal {es : List (α × BPage α V)} :
    balancedPage (BPage.internal es) = balancedChildren es := by
  rw [balancedPage]

theorem height_leaf {es : List (α × V)} : (BPage.leaf es : BPage α V).height = 0 := by
  rw [BPage.height]

theorem height_internal {es : List (α × BPage α V)} :
    (BPage.internal es).height = entsHeight es + 1 := by
  rw [BPage.height]

theorem entsHeight_nil : entsHeight ([] : List (α × BPage α V)) = 0 := by
  rw [entsHeight]

theorem entsHeight_cons {e : α × BPage α V} {rest : List (α × BPage α V)} :
    entsHeight (e :: rest) = max e.2.height (entsHeight rest) := by
  obtain ⟨k, c⟩ := e
  rw [entsHeight]

theorem balancedChildren_iff {es : List (α × BPage α V)} :
    balancedChildren es = true ↔
      (∀ e ∈ es, balancedPage e.2 = true) ∧
        ∀ e ∈ es, ∀ f ∈ es, e.2.height = f.2.height := by
  induction es with
  | nil => simp [balancedChildren]
  | cons e rest ih =>
    obtain ⟨k, c⟩ := e
    rw [balancedChildren, Bool.and_eq_true, Bool.and_eq_true, ih, List.all_eq_true]
    constructor
    · rintro ⟨⟨hc, hall⟩, hrestb, hresth⟩
      have hh : ∀ x ∈ rest, x.2.height = c.height := by
        intro x hx
        simpa using hall x hx
      constructor
      · intro f hf
        rcases List.mem_cons.1 hf with h | h
        · rw [h]; exact hc
        · exact hrestb f h
      · intro f hf g hg
        rcases List.mem_cons.1 hf with h | h <;> rcases List.mem_cons.1 hg with h2 | h2
        · rw [h, h2]
        · rw [h]; exact (hh g h2).symm
        · rw [h2]; exact hh f h
        · exact hresth f h g h2
    · rintro ⟨hb, hh⟩
      refine ⟨⟨hb _ (List.mem_cons_self _ _), ?_⟩, ?_, ?_⟩
      · intro x hx
        have := hh x (List.mem_cons_of_mem _ hx) (k, c) (List.mem_cons_self _ _)
        simpa using this
      · intro f hf
        exact hb f (List.mem_cons_of_mem _ hf)
      · intro f hf g hg
        exact hh f (List.mem_cons_of_mem _ hf) g (List.mem_cons_of_mem _ hg)

theorem entsHeight_eq_of_all {h : Nat} :
    ∀ {es : List (α × BPage α V)}, es ≠ [] → (∀ e ∈ es, e.2.height = h) →
      entsHeight es = h := by
  intro es
  induction es with
  | nil => intro hne _; exact absurd rfl hne
  | cons e rest ih =>
    intro _ hall
    rw [entsHeight_cons, hall e (List.mem_cons_self _ _)]
    cases rest with
    | nil => rw [entsHeight_nil]; exact Nat.max_eq_left (Nat.zero_le h)
    | cons f rest2 =>
      rw [ih (by simp) (fun x hx => hall x (List.mem_cons_of_mem _ hx))]
      exact Nat.max_self h

theorem balancedChildren_of_all {es : List (α × BPage α V)} {h : Nat}
    (hb : ∀ e ∈ es, balancedPage e.2 = true) (hh : ∀ e ∈ es, e.2.height = h) :
    balancedChildren es = true := by
  rw [balancedChildren_iff]
  exact ⟨hb, fun e he f hf => by rw [hh e he, hh f hf]⟩

theorem fillChildren_set {lMax iMax : Nat} {es : List (α × BPage α V)} {i : Nat}
    {k : α} {c' : BPage α V} (hf : fillChildren lMax iMax es = true)
    (hc : fillPage lMax iMax false c' = true) :
    fillChildren lMax iMax (es.set i (k, c')) = true := by
  rw [fillChildren_iff] at hf ⊢
  intro e he
  rcases List.mem_or_eq_of_mem_set he with h | h
  · exact hf e h
  · rw [h]; exact hc

theorem fillChildren_insertIdx {lMax iMax : Nat} {es : List (α × BPage α V)}
    {n : Nat} {x : α × BPage α V} (hf : fillChildren lMax iMax es = true)
    (hx : fillPage lMax iMax false x.2 = true) :
    fillChildren lMax iMax (es.insertIdx n x) = true := by
  by_cases hn : n ≤ es.length
  · rw [fillChildren_iff] at hf ⊢
    intro e he
    rcases (List.mem_insertIdx hn).1 he with h | h
    · rw [h]; exact hx
    · exact hf e h
  · rw [List.insertIdx_of_length_lt _ _ _ (by omega)]
    exact hf

theorem fillChildren_take {lMax iMax : Nat} {es : List (α × BPage α V)} {n : Nat}
    (hf : fillChildren lMax iMax es = true) :
    fillChildren lMax iMax (es.take n) = true := by
  rw [fillChildren_iff] at hf ⊢
  intro e he
  exact hf e (List.mem_of_mem_take he)

theorem fillChildren_drop {lMax iMax : Nat} {es : List (α × BPage α V)} {n : Nat}
    (hf : fillChildren lMax iMax es = true) :
    fillChildren lMax iMax (es.drop n) = true := by
  rw [fillChildren_iff] at hf ⊢
  intro e he
  exact hf e (List.mem_of_mem_drop he)

theorem fillChildren_eraseIdx {lMax iMax : Nat} {es : List (α × BPage α V)} {n : Nat}
    (hf : fillChildren lMax iMax es = true) :
    fillChildren lMax iMax (es.eraseIdx n) = true := by
  rw [fillChildren_iff] at hf ⊢
  intro e he
  exact hf e ((List.eraseIdx_sublist es n).subset he)

theorem fillChildren_append2 {lMax iMax : Nat} {xs ys : List (α × BPage α V)}
    (hx : fillChildren lMax iMax xs = true) (hy : fillChildren lMax iMax ys = true) :
    fillChildren lMax iMax (xs ++ ys) = true := by
  rw [fillChildren_iff] at hx hy ⊢
  intro e he
  rcases List.mem_append.1 he with h | h
  · exact hx e h
  · exact hy e h

theorem insertEntries_high {lMax iMax : Nat} {key : α} {v : V} :
    ∀ (es : List (α × BPage α V)) {i : Nat}, es.length ≤ i →
      insertEntries lMax iMax key v es i = WalkRes.noSplit es := by
  intro es
  induction es with
  | nil => intro i _; rw [insertEntries]
  | cons e rest ih =>
    intro i hle
    obtain ⟨k, c⟩ := e
    cases i with
    | zero => simp at hle
    | succ n => rw [insertEntries, ih (by simpa using hle)]

theorem removeEntries_high {lMax iMax : Nat} {key : α} :
    ∀ (es : List (α × BPage α V)) {i : Nat}, es.length ≤ i →
      removeEntries lMax iMax key es i = none := by
  intro es
  induction es with
  | nil => intro i _; rw [removeEntries]
  | cons e rest ih =>
    intro i hle
    obtain ⟨k, c⟩ := e
    cases i with
    | zero => simp at hle
    | succ n => rw [removeEntries, ih (by simpa using hle)]

theorem entsHeight_set {es : List (α × BPage α V)} :
    ∀ {i : Nat} (h : i < es.length) {k : α} {c' : BPage α V},
      c'.height = (es.get ⟨i, h⟩).2.height →
      entsHeight (es.set i (k, c')) = entsHeight es := by
  induction es with
  | nil => intro i h; simp at h
  | cons e rest ih =>
    intro i h k c' hh
    obtain ⟨k0, c0⟩ := e
    cases i with
    | zero =>
      rw [List.set_cons_zero, entsHeight_cons, entsHeight_cons]
      have : c'.height = c0.height := hh
      rw [this]
    | succ n =>
      rw [List.set_cons_succ, entsHeight_cons, entsHeight_cons,
        ih (by simpa using h) hh]

theorem insertAux_internal_pending {lMax iMax : Nat} {key : α} {v : V}
    {es es1 : List (α × BPage α V)} {sep : α} {r : BPage α V}
    (hpend : insertEntries lMax iMax key v es (InternalLookup (es.map Prod.fst) key) =
      WalkRes.pending es1 sep r) :
    insertAux lMax iMax key v (BPage.internal es) =
      (if es1.length = iMax then
        match es1[es1.length / 2]? with
        | some m =>
          if compare sep m.1 = Ordering.lt then
            InsRes.split
              (.internal ((es1.take (es1.length / 2)).insertIdx
                (InternalLookup (es.map Prod.fst) key + 1) (sep, r)))
              m.1 (.internal (es1.drop (es1.length / 2)))
          else
            InsRes.split (.internal (es1.take (es1.length / 2))) m.1
              (.internal ((es1.drop (es1.length / 2)).insertIdx
                (InternalLookup (es.map Prod.fst) key - es1.length / 2 + 1) (sep, r)))
        | none => InsRes.one (.internal es1)
      else
        InsRes.one (.internal (es1.insertIdx
          (InternalLookup (es.map Prod.fst) key + 1) (sep, r)))) := by
  rw [insertAux_internal_eq, hpend]

/-- Receiving a propagated `(separator, child)` pair preserves fill and
balance: with `internalMax` even and at least 4, the pre-emptive split at
`mid = size / 2` leaves both halves — the pair included — between
`GetMinSize` and capacity, and a non-full page absorbs the pair within
capacity. -/
theorem insertAux_fb_pending {lMax iMax : Nat} (he : iMax % 2 = 0) (h4 : 4 ≤ iMax)
    {key : α} {v : V} {es es1 : List (α × BPage α V)} {sep : α} {r0 : BPage α V}
    {H : Nat} (isRoot : Bool)
    (hpend : insertEntries lMax iMax key v es (InternalLookup (es.map Prod.fst) key) =
      WalkRes.pending es1 sep r0)
    (hlen1 : es1.length = es.length)
    (hflow : (if isRoot then 1 else GetMinSize iMax) ≤ es.length)
    (heshi : es.length ≤ iMax) (hesne : es ≠ [])
    (hall1 : ∀ e ∈ es1, fillPage lMax iMax false e.2 = true ∧
      balancedPage e.2 = true ∧ e.2.height = H)
    (hr0 : fillPage lMax iMax false r0 = true ∧ balancedPage r0 = true ∧
      r0.height = H)
    (hesH : ∀ e ∈ es, e.2.height = H) :
    match insertAux lMax iMax key v (BPage.internal es) with
    | .dup => True
    | .one p' => fillPage lMax iMax isRoot p' = true ∧ balancedPage p' = true ∧
        p'.height = (BPage.internal es).height ∧
        (BPage.internal es).size ≤ p'.size ∧
        p'.isLeafPage = (BPage.internal es).isLeafPage
    | .split l sep2 r2 =>
        fillPage lMax iMax false l = true ∧ fillPage lMax iMax false r2 = true ∧
        balancedPage l = true ∧ balancedPage r2 = true ∧
        l.height = (BPage.internal es).height ∧
        r2.height = (BPage.internal es).height := by
  have heq2 := insertAux_internal_pending hpend
  have hesin : 1 ≤ es.length := by
    cases hi2 : isRoot with
    | true => rw [hi2] at hflow; simpa using hflow
    | false =>
      rw [hi2] at hflow
      have : 1 ≤ GetMinSize iMax := by simp only [GetMinSize]; omega
      exact le_trans this hflow
  have hmineq : GetMinSize iMax = iMax / 2 := by simp only [GetMinSize]; omega
  have hesheight : (BPage.internal es).height = H + 1 := by
    rw [height_internal, entsHeight_eq_of_all hesne hesH]
  have hmk : ∀ xs : List (α × BPage α V),
      (∀ e ∈ xs, fillPage lMax iMax false e.2 = true ∧
        balancedPage e.2 = true ∧ e.2.height = H) →
      xs ≠ [] → GetMinSize iMax ≤ xs.length → xs.length ≤ iMax →
      fillPage lMax iMax false (BPage.internal xs) = true ∧
        balancedPage (BPage.internal xs) = true ∧
        (BPage.internal xs).height = (BPage.internal es).height := by
    intro xs hxs hxne hxlo hxhi
    refine ⟨?_, ?_, ?_⟩
    · rw [fillPage_internal]
      refine ⟨hxlo, hxhi, ?_⟩
      rw [fillChildren_iff]
      intro e hex
      exact (hxs e hex).1
    · rw [balancedPage_internal]
      exact @balancedChildren_of_all α _ V xs H
        (fun e hex => (hxs e hex).2.1) (fun e hex => (hxs e hex).2.2)
    · rw [height_internal, entsHeight_eq_of_all hxne (fun e hex => (hxs e hex).2.2),
        hesheight]
  by_cases hfull : es1.length = iMax
  · have hmid : es1.length / 2 < es1.length := by omega
    obtain ⟨m, hm⟩ : ∃ m, es1[es1.length / 2]? = some m :=
      ⟨_, List.getElem?_eq_getElem hmid⟩
    have hv2 : insertAux lMax iMax key v (BPage.internal es) =
        (if compare sep m.1 = Ordering.lt then
          InsRes.split
            (.internal ((es1.take (es1.length / 2)).insertIdx
              (InternalLookup (es.map Prod.fst) key + 1) (sep, r0)))
            m.1 (.internal (es1.drop (es1.length / 2)))
        else
          InsRes.split (.internal (es1.take (es1.length / 2))) m.1
            (.internal ((es1.drop (es1.length / 2)).insertIdx
              (InternalLookup (es.map Prod.fst) key - es1.length / 2 + 1) (sep, r0)))) := by
      rw [heq2, if_pos hfull, hm]
    have htklen : (es1.take (es1.length / 2)).length = es1.length / 2 := by
      rw [List.length_take]
      omega
    have hdplen : (es1.drop (es1.length / 2)).length = es1.length - es1.length / 2 := by
      rw [List.length_drop]
    have htkmem : ∀ e ∈ es1.take (es1.length / 2), fillPage lMax iMax false e.2 = true ∧
        balancedPage e.2 = true ∧ e.2.height = H :=
      fun e hex => hall1 e (List.mem_of_mem_take hex)
    have hdpmem : ∀ e ∈ es1.drop (es1.length / 2), fillPage lMax iMax false e.2 = true ∧
        balancedPage e.2 = true ∧ e.2.height = H :=
      fun e hex => hall1 e (List.mem_of_mem_drop hex)
    have htkins : ∀ (n : Nat),
        ∀ e ∈ (es1.take (es1.length / 2)).insertIdx n (sep, r0),
          fillPage lMax iMax false e.2 = true ∧ balancedPage e.2 = true ∧
            e.2.height = H := by
      intro n e hex
      by_cases hin : n ≤ (es1.take (es1.length / 2)).length
      · rcases (List.mem_insertIdx hin).1 hex with h1 | h1
        · rw [h1]; exact hr0
        · exact htkmem e h1
      · rw [List.insertIdx_of_length_lt _ _ _ (by omega)] at hex
        exact htkmem e hex
    have hdpins : ∀ (n : Nat),
        ∀ e ∈ (es1.drop (es1.length / 2)).insertIdx n (sep, r0),
          fillPage lMax iMax false e.2 = true ∧ balancedPage e.2 = true ∧
            e.2.height = H := by
      intro n e hex
      by_cases hin : n ≤ (es1.drop (es1.length / 2)).length
      · rcases (List.mem_insertIdx hin).1 hex with h1 | h1
        · rw [h1]; exact hr0
        · exact hdpmem e h1
      · rw [List.insertIdx_of_length_lt _ _ _ (by omega)] at hex
        exact hdpmem e hex
    by_cases hcmp : compare sep m.1 = Ordering.lt
    · have hval : insertAux lMax iMax key v (BPage.internal es) =
          InsRes.split
            (.internal ((es1.take (es1.length / 2)).insertIdx
              (InternalLookup (es.map Prod.fst) key + 1) (sep, r0)))
            m.1 (.internal (es1.drop (es1.length / 2))) := by
        rw [hv2, if_pos hcmp]
      rw [hval]
      have hLlb := length_insertIdx_lb (sep, r0) (es1.take (es1.length / 2))
        (InternalLookup (es.map Prod.fst) key + 1)
      have hLub := length_insertIdx_ub (sep, r0) (es1.take (es1.length / 2))
        (InternalLookup (es.map Prod.fst) key + 1)
      obtain ⟨hLf, hLb, hLh⟩ := hmk
        ((es1.take (es1.length / 2)).insertIdx
          (InternalLookup (es.map Prod.fst) key + 1) (sep, r0))
        (htkins (InternalLookup (es.map Prod.fst) key + 1))
        (by
          intro hc
          have := congrArg List.length hc
          rw [List.length_nil] at this
          omega)
        (by omega) (by omega)
      obtain ⟨hRf, hRb, hRh⟩ := hmk (es1.drop (es1.length / 2)) hdpmem
        (by
          intro hc
          have := congrArg List.length hc
          rw [List.length_nil] at this
          omega)
        (by omega) (by omega)
      exact ⟨hLf, hRf, hLb, hRb, hLh, hRh⟩
    · have hval : insertAux lMax iMax key v (BPage.internal es) =
          InsRes.split (.internal (es1.take (es1.length / 2))) m.1
            (.internal ((es1.drop (es1.length / 2)).insertIdx
              (InternalLookup (es.map Prod.fst) key - es1.length / 2 + 1) (sep, r0))) := by
        rw [hv2, if_neg hcmp]
      rw [hval]
      have hRlb := length_insertIdx_lb (sep, r0) (es1.drop (es1.length / 2))
        (InternalLookup (es.map Prod.fst) key - es1.length / 2 + 1)
      have hRub := length_insertIdx_ub (sep, r0) (es1.drop (es1.length / 2))
        (InternalLookup (es.map Prod.fst) key - es1.length / 2 + 1)
      obtain ⟨hLf, hLb, hLh⟩ := hmk (es1.take (es1.length / 2)) htkmem
        (by
          intro hc
          have := congrArg List.length hc
          rw [List.length_nil] at this
          omega)
        (by omega) (by omega)
      obtain ⟨hRf, hRb, hRh⟩ := hmk
        ((es1.drop (es1.length / 2)).insertIdx
          (InternalLookup (es.map Prod.fst) key - es1.length / 2 + 1) (sep, r0))
        (hdpins (InternalLookup (es.map Prod.fst) key - es1.length / 2 + 1))
        (by
          intro hc
          have := congrArg List.length hc
          rw [List.length_nil] at this
          omega)
        (by omega) (by omega)
      exact ⟨hLf, hRf, hLb, hRb, hLh, hRh⟩
  · have hval : insertAux lMax iMax key v (BPage.internal es) =
        InsRes.one (.internal (es1.insertIdx
          (InternalLookup (es.map Prod.fst) key + 1) (sep, r0))) := by
      rw [heq2, if_neg hfull]
    rw [hval]
    have hIlb := length_insertIdx_lb (sep, r0) es1
      (InternalLookup (es.map Prod.fst) key + 1)
    have hIub := length_insertIdx_ub (sep, r0) es1
      (InternalLookup (es.map Prod.fst) key + 1)
    have hImem : ∀ e ∈ es1.insertIdx (InternalLookup (es.map Prod.fst) key + 1) (sep, r0),
        fillPage lMax iMax false e.2 = true ∧ balancedPage e.2 = true ∧
          e.2.height = H := by
      intro e hex
      by_cases hin : InternalLookup (es.map Prod.fst) key + 1 ≤ es1.length
      · rcases (List.mem_insertIdx hin).1 hex with h1 | h1
        · rw [h1]; exact hr0
        · exact hall1 e h1
      · rw [List.insertIdx_of_length_lt _ _ _ (by omega)] at hex
        exact hall1 e hex
    refine ⟨?_, ?_, ?_, ?_, rfl⟩
    · rw [fillPage_internal]
      refine ⟨le_trans hflow (by omega), by omega, ?_⟩
      rw [fillChildren_iff]
      intro e hex
      exact (hImem e hex).1
    · rw [balancedPage_internal]
      exact @balancedChildren_of_all α _ V _ H
        (fun e hex => (hImem e hex).2.1) (fun e hex => (hImem e hex).2.2)
    · rw [height_internal,
        entsHeight_eq_of_all (by
          intro hc
          have := congrArg List.length hc
          rw [List.length_nil] at this
          omega) (fun e hex => (hImem e hex).2.2), hesheight]
    · simp only [BPage.size]
      omega

/-- Insert preserves the fill and balance invariants: a duplicate abort
touches nothing, a non-split result keeps the page's bounds (growing by at
most the one new entry), kind and height, and the two halves of a split are
filled as proper non-root pages of the original's height.  `internalMax`
even and at least 4 is exactly what keeps both halves of the pre-emptive
internal split at or above `GetMinSize`. -/
theorem insertAux_fb {lMax iMax : Nat} (hl : 1 ≤ lMax) (he : iMax % 2 = 0)
    (h4 : 4 ≤ iMax) (key : α) (v : V) :
    ∀ (p : BPage α V) (isRoot : Bool),
      fillPage lMax iMax isRoot p = true → balancedPage p = true →
      match insertAux lMax iMax key v p with
      | .dup => True
      | .one p' => fillPage lMax iMax isRoot p' = true ∧ balancedPage p' = true ∧
          p'.height = p.height ∧ p.size ≤ p'.size ∧ p'.isLeafPage = p.isLeafPage
      | .split l sep r =>
          fillPage lMax iMax false l = true ∧ fillPage lMax iMax false r = true ∧
          balancedPage l = true ∧ balancedPage r = true ∧
          l.height = p.height ∧ r.height = p.height := by
  intro p
  induction p using BPage.ind with
  | hleaf es =>
    intro isRoot hf hb
    rw [fillPage_leaf] at hf
    cases hlk : LeafLookup es key with
    | some w =>
      have hval : insertAux lMax iMax key v (BPage.leaf es) = InsRes.dup := by
        rw [insertAux_leaf_eq, hlk]
      rw [hval]
      trivial
    | none =>
      have hins := @LeafInsert_of_lookup_none α _ V es key v hlk
      have hub : (LeafInsert es key v).length ≤ es.length + 1 := by
        rw [hins]
        exact length_insertIdx_ub _ es _
      have hlb2 : es.length ≤ (LeafInsert es key v).length := by
        rw [hins]
        exact length_insertIdx_lb _ es _
      have heq : insertAux lMax iMax key v (BPage.leaf es) =
          (if lMax < (LeafInsert es key v).length then
            match ((LeafInsert es key v).drop
                ((LeafInsert es key v).length / 2)).head? with
            | some e =>
              InsRes.split
                (.leaf ((LeafInsert es key v).take ((LeafInsert es key v).length / 2)))
                e.1
                (.leaf ((LeafInsert es key v).drop ((LeafInsert es key v).length / 2)))
            | none => InsRes.one (.leaf (LeafInsert es key v))
          else InsRes.one (.leaf (LeafInsert es key v))) := by
        rw [insertAux_leaf_eq, hlk]
      by_cases hsp : lMax < (LeafInsert es key v).length
      · have hLen : (LeafInsert es key v).length = lMax + 1 := by omega
        have hdropne :
            (LeafInsert es key v).drop ((LeafInsert es key v).length / 2) ≠ [] := by
          intro hc
          have := congrArg List.length hc
          simp only [List.length_drop, List.length_nil] at this
          omega
        obtain ⟨e0, he0⟩ : ∃ e0,
            ((LeafInsert es key v).drop
              ((LeafInsert es key v).length / 2)).head? = some e0 := by
          cases hh : ((LeafInsert es key v).drop
              ((LeafInsert es key v).length / 2)).head? with
          | none => exact absurd (List.head?_eq_none_iff.1 hh) hdropne
          | some e => exact ⟨e, rfl⟩
        have hval : insertAux lMax iMax key v (BPage.leaf es) =
            InsRes.split
              (.leaf ((LeafInsert es key v).take ((LeafInsert es key v).length / 2)))
              e0.1
              (.leaf ((LeafInsert es key v).drop
                ((LeafInsert es key v).length / 2))) := by
          rw [heq, if_pos hsp, he0]
        rw [hval]
        refine ⟨?_, ?_, balancedPage_leaf, balancedPage_leaf,
          by rw [height_leaf, height_leaf], by rw [height_leaf, height_leaf]⟩
        · rw [fillPage_leaf, List.length_take, hLen]
          simp only [GetMinSize]
          constructor
          · show (lMax + 1) / 2 ≤ min ((lMax + 1) / 2) (lMax + 1)
            omega
          · show min ((lMax + 1) / 2) (lMax + 1) ≤ lMax
            omega
        · rw [fillPage_leaf, List.length_drop, hLen]
          simp only [GetMinSize]
          constructor
          · show (lMax + 1) / 2 ≤ lMax + 1 - (lMax + 1) / 2
            omega
          · show lMax + 1 - (lMax + 1) / 2 ≤ lMax
            omega
      · have hval : insertAux lMax iMax key v (BPage.leaf es) =
            InsRes.one (BPage.leaf (LeafInsert es key v)) := by
          rw [heq, if_neg hsp]
        rw [hval]
        refine ⟨?_, balancedPage_leaf, by rw [height_leaf, height_leaf], ?_, rfl⟩
        · rw [fillPage_leaf]
          exact ⟨le_trans hf.1 hlb2, by omega⟩
        · simp only [BPage.size]
          exact hlb2
  | hint es ihmem =>
    intro isRoot hf hb
    rw [fillPage_internal] at hf
    obtain ⟨hflow, hfup, hfch⟩ := hf
    have hbc : balancedChildren es = true := hb
    obtain ⟨hballs, hhts⟩ := balancedChildren_iff.1 hbc
    have hlow1 : 1 ≤ (if isRoot then (1 : Nat) else GetMinSize iMax) := by
      cases isRoot with
      | false =>
        show (1 : Nat) ≤ GetMinSize iMax
        simp only [GetMinSize]
        omega
      | true => exact le_refl 1
    have hne : es ≠ [] := by
      intro hc
      subst hc
      have := le_trans hlow1 hflow
      simp at this
    rcases Nat.lt_or_ge (InternalLookup (es.map Prod.fst) key) es.length with hir | hir
    · have hcmem : es.get ⟨InternalLookup (es.map Prod.fst) key, hir⟩ ∈ es :=
        List.get_mem es _ _
      have hcfill := fillChildren_iff.1 hfch _ hcmem
      have hcbal := hballs _ hcmem
      have hih := ihmem _ hcmem false hcfill hcbal
      rcases hres : insertAux lMax iMax key v
          ((es.get ⟨InternalLookup (es.map Prod.fst) key, hir⟩).2)
        with _ | c' | ⟨l0, sep, r0⟩
      · have hval : insertAux lMax iMax key v (BPage.internal es) = InsRes.dup := by
          rw [insertAux_internal_eq, insertEntries_eq hir, hres]
        rw [hval]
        trivial
      · rw [hres] at hih
        obtain ⟨hc'f, hc'b, hc'h, hc's, hc'k⟩ := hih
        have hval : insertAux lMax iMax key v (BPage.internal es) =
            InsRes.one (BPage.internal
              (es.set (InternalLookup (es.map Prod.fst) key)
                ((es.get ⟨InternalLookup (es.map Prod.fst) key, hir⟩).1, c'))) := by
          rw [insertAux_internal_eq, insertEntries_eq hir, hres]
        rw [hval]
        refine ⟨?_, ?_, ?_, ?_, rfl⟩
        · rw [fillPage_internal, List.length_set]
          exact ⟨hflow, hfup, fillChildren_set hfch hc'f⟩
        · rw [balancedPage_internal]
          refine @balancedChildren_of_all α _ V _
            ((es.get ⟨InternalLookup (es.map Prod.fst) key, hir⟩).2.height) ?_ ?_
          · intro e hex
            rcases List.mem_or_eq_of_mem_set hex with h1 | h1
            · exact hballs e h1
            · rw [h1]; exact hc'b
          · intro e hex
            rcases List.mem_or_eq_of_mem_set hex with h1 | h1
            · exact hhts e h1 _ hcmem
            · rw [h1]; exact hc'h
        · rw [height_internal, height_internal, entsHeight_set hir hc'h]
        · simp only [BPage.size, List.length_set]
          exact Nat.le_refl _
      · rw [hres] at hih
        obtain ⟨hl0f, hr0f, hl0b, hr0b, hl0h, hr0h⟩ := hih
        have hpend : insertEntries lMax iMax key v es
            (InternalLookup (es.map Prod.fst) key) =
            WalkRes.pending
              (es.set (InternalLookup (es.map Prod.fst) key)
                ((es.get ⟨InternalLookup (es.map Prod.fst) key, hir⟩).1, l0))
              sep r0 := by
          rw [insertEntries_eq hir, hres]
        exact insertAux_fb_pending he h4 isRoot hpend (List.length_set es _ _)
          hflow hfup hne
          (by
            intro e hex
            rcases List.mem_or_eq_of_mem_set hex with h1 | h1
            · exact ⟨fillChildren_iff.1 hfch e h1, hballs e h1, hhts e h1 _ hcmem⟩
            · rw [h1]; exact ⟨hl0f, hl0b, hl0h⟩)
          ⟨hr0f, hr0b, hr0h⟩
          (fun e hex => hhts e hex _ hcmem)
    · have hval : insertAux lMax iMax key v (BPage.internal es) =
          InsRes.one (BPage.internal es) := by
        rw [insertAux_internal_eq, insertEntries_high es hir]
      rw [hval]
      refine ⟨?_, hb, rfl, Nat.le_refl _, rfl⟩
      rw [fillPage_internal]
      exact ⟨hflow, hfup, hfch⟩

theorem isLeaf_eq_of_height_eq {p q : BPage α V} (h : p.height = q.height) :
    p.isLeafPage = q.isLeafPage := by
  cases p with
  | leaf es =>
    cases q with
    | leaf es2 => rfl
    | internal es2 =>
      rw [height_leaf, height_internal] at h
      exact absurd h.symm (by omega)
  | internal es =>
    cases q with
    | leaf es2 =>
      rw [height_internal, height_leaf] at h
      exact absurd h (by omega)
    | internal es2 => rfl

theorem balancedChildren_heights {es : List (α × BPage α V)}
    (hb : balancedChildren es = true) {e : α × BPage α V} (he : e ∈ es) :
    e.2.height = entsHeight es := by
  obtain ⟨_, hh⟩ := balancedChildren_iff.1 hb
  have hne : es ≠ [] := by
    intro hc
    subst hc
    exact absurd he (List.not_mem_nil e)
  exact (entsHeight_eq_of_all hne (fun f hf => hh f hf e he)).symm

theorem set_set_adjacent {β : Type} :
    ∀ (l : List β) (n : Nat) (x y : β), n + 1 < l.length →
      (l.set n x).set (n + 1) y = l.take n ++ x :: y :: l.drop (n + 2) := by
  intro l
  induction l with
  | nil => intro n x y h; simp at h
  | cons a t ih =>
    intro n x y h
    cases n with
    | zero =>
      cases t with
      | nil => simp at h
      | cons b t2 =>
        simp [List.set_cons_zero, List.set_cons_succ]
    | succ n =>
      simp only [List.set_cons_succ, List.take_succ_cons, List.cons_append,
        List.drop_succ_cons]
      rw [ih n x y (by simpa using h)]

theorem set_eraseIdx_adjacent {β : Type} :
    ∀ (l : List β) (n : Nat) (x : β), n + 1 < l.length →
      (l.set n x).eraseIdx (n + 1) = l.take n ++ x :: l.drop (n + 2) := by
  intro l
  induction l with
  | nil => intro n x h; simp at h
  | cons a t ih =>
    intro n x h
    cases n with
    | zero =>
      cases t with
      | nil => simp at h
      | cons b t2 =>
        simp [List.set_cons_zero, List.eraseIdx]
    | succ n =>
      simp only [List.set_cons_succ, List.take_succ_cons, List.cons_append,
        List.drop_succ_cons, List.eraseIdx_cons_succ]
      rw [ih n x (by simpa using h)]

/-- `CoalesceOrRedistribute` fixes an underflowing child: when every other
child is properly filled, the underflowing one sits exactly one entry below
its minimum with properly filled children of its own, and all children are
balanced at one common height, then the rebalanced slot list is properly
filled and balanced at that same height throughout, and it shrinks by
exactly one slot when (and only when) a merge happened. -/
theorem CoalesceOrRedistribute_fb {lMax iMax : Nat} (hl : 1 ≤ lMax)
    (he : iMax % 2 = 0) (h4 : 4 ≤ iMax) {es : List (α × BPage α V)} {i : Nat}
    {H : Nat} (hi : i < es.length) (h2 : 2 ≤ es.length)
    (hoth : ∀ j (hj : j < es.length), j ≠ i →
      fillPage lMax iMax false ((es.get ⟨j, hj⟩).2) = true)
    (hballs : ∀ e ∈ es, balancedPage e.2 = true)
    (hH : ∀ e ∈ es, e.2.height = H)
    (hszl : ∀ nes, (es.get ⟨i, hi⟩).2 = BPage.leaf nes →
      nes.length + 1 = GetMinSize lMax)
    (hszi : ∀ nes, (es.get ⟨i, hi⟩).2 = BPage.internal nes →
      nes.length + 1 = GetMinSize iMax)
    (hunch : ∀ nes, (es.get ⟨i, hi⟩).2 = BPage.internal nes →
      fillChildren lMax iMax nes = true) :
    (∀ e ∈ (CoalesceOrRedistribute lMax iMax es i).1,
      fillPage lMax iMax false e.2 = true ∧ balancedPage e.2 = true ∧
        e.2.height = H) ∧
      (CoalesceOrRedistribute lMax iMax es i).1.length =
        (if (CoalesceOrRedistribute lMax iMax es i).2 then es.length - 1
         else es.length) := by
  have hglx : GetMinSize lMax = (lMax + 1) / 2 := rfl
  have hgix : GetMinSize iMax = (iMax + 1) / 2 := rfl
  have hfill_take : ∀ (n : Nat), n ≤ i → ∀ e ∈ es.take n,
      fillPage lMax iMax false e.2 = true := by
    intro n hn e hex
    obtain ⟨⟨p, hp⟩, rfl⟩ := List.mem_iff_get.1 hex
    have hp2 : p < es.length := by
      rw [List.length_take] at hp
      omega
    have hgl : (es.take n).get ⟨p, hp⟩ = es.get ⟨p, hp2⟩ := by
      simp [List.getElem_take]
    rw [hgl]
    have hpn : p < n := by
      have := hp
      rw [List.length_take] at this
      omega
    exact hoth p hp2 (by omega)
  have hfill_dropN : ∀ (n : Nat), i < n → ∀ e ∈ es.drop n,
      fillPage lMax iMax false e.2 = true := by
    intro n hn e hex
    obtain ⟨⟨p, hp⟩, rfl⟩ := List.mem_iff_get.1 hex
    have hp2 : n + p < es.length := by
      rw [List.length_drop] at hp
      omega
    have h3 := hoth (n + p) hp2 (by omega)
    rw [@List.get_drop (α × BPage α V) es n p hp2] at h3
    exact h3
  obtain ⟨res, hres⟩ : ∃ x, CoalesceOrRedistribute lMax iMax es i = x := ⟨_, rfl⟩
  rw [hres]
  rw [CoalesceOrRedistribute] at hres
  split at hres
  · rename_i hni
    rw [List.getElem?_eq_getElem hi] at hni
    exact Option.noConfusion hni
  · rename_i ki node hni
    split at hres
    · rename_i h0i
      obtain ⟨j, rfl⟩ : ∃ j, i = j + 1 := ⟨i - 1, by omega⟩
      simp only [Nat.add_sub_cancel] at hres
      split at hres
      · rename_i hsib
        rw [List.getElem?_eq_getElem (by omega : j < es.length)] at hsib
        exact Option.noConfusion hsib
      · rename_i ks sib hsib
        split at hres
        · -- leaf recipient, leaf left sibling
          rename_i nes ses
          obtain ⟨hj1, hgetn⟩ := getElem?_some_get hni
          obtain ⟨hjlt, hgets⟩ := getElem?_some_get hsib
          have hgetn2 : (es.get ⟨j + 1, hj1⟩).2 = BPage.leaf nes := by rw [hgetn]
          have hgets2 : (es.get ⟨j, hjlt⟩).2 = BPage.leaf ses := by rw [hgets]
          have hH0 : H = 0 := by
            have h9 := hH _ (List.get_mem es (j + 1) hj1)
            rw [hgetn2, height_leaf] at h9
            exact h9.symm
          have hfs : GetMinSize lMax ≤ ses.length ∧ ses.length ≤ lMax := by
            have h8 := hoth j hjlt (by omega)
            rw [hgets2, fillPage_leaf] at h8
            exact h8
          have hnn := hszl nes hgetn2
          split at hres
          · split at hres
            · -- borrow the last entry of the left sibling
              rename_i hgt m hlast
              subst hres
              have hdec := set_set_adjacent es j (ks, BPage.leaf ses.dropLast)
                (m.1, BPage.leaf (m :: nes)) hj1
              constructor
              · intro e hex
                rw [hdec] at hex
                rcases List.mem_append.1 hex with hex1 | hex2
                · exact ⟨hfill_take j (by omega) e hex1,
                    hballs e (List.mem_of_mem_take hex1),
                    hH e (List.mem_of_mem_take hex1)⟩
                · rcases List.mem_cons.1 hex2 with rfl | hex3
                  · refine ⟨?_, balancedPage_leaf, ?_⟩
                    · show fillPage lMax iMax false (BPage.leaf ses.dropLast) = true
                      rw [fillPage_leaf, List.length_dropLast]
                      constructor
                      · show GetMinSize lMax ≤ ses.length - 1
                        omega
                      · omega
                    · show (BPage.leaf ses.dropLast : BPage α V).height = H
                      rw [height_leaf, hH0]
                  · rcases List.mem_cons.1 hex3 with rfl | hex4
                    · refine ⟨?_, balancedPage_leaf, ?_⟩
                      · show fillPage lMax iMax false (BPage.leaf (m :: nes)) = true
                        rw [fillPage_leaf, List.length_cons]
                        constructor
                        · show GetMinSize lMax ≤ nes.length + 1
                          omega
                        · omega
                      · show (BPage.leaf (m :: nes) : BPage α V).height = H
                        rw [height_leaf, hH0]
                    · exact ⟨hfill_dropN (j + 2) (by omega) e hex4,
                        hballs e (List.mem_of_mem_drop hex4),
                        hH e (List.mem_of_mem_drop hex4)⟩
              · show ((es.set j (ks, BPage.leaf ses.dropLast)).set (j + 1)
                    (m.1, BPage.leaf (m :: nes))).length = es.length
                rw [List.length_set, List.length_set]
            · -- an empty donor cannot happen: it holds more than the minimum
              rename_i hlast
              exfalso
              have hne : ses ≠ [] := by
                intro hc
                have h5 := congrArg List.length hc
                rw [List.length_nil] at h5
                omega
              rw [List.getLast?_eq_getLast ses hne] at hlast
              exact Option.noConfusion hlast
          · -- merge this page into the left sibling
            rename_i hle
            subst hres
            have hsesmin : ses.length = GetMinSize lMax := by omega
            have hdec := set_eraseIdx_adjacent es j (ks, BPage.leaf (ses ++ nes)) hj1
            constructor
            · intro e hex
              rw [hdec] at hex
              rcases List.mem_append.1 hex with hex1 | hex2
              · exact ⟨hfill_take j (by omega) e hex1,
                  hballs e (List.mem_of_mem_take hex1),
                  hH e (List.mem_of_mem_take hex1)⟩
              · rcases List.mem_cons.1 hex2 with rfl | hex3
                · refine ⟨?_, balancedPage_leaf, ?_⟩
                  · show fillPage lMax iMax false (BPage.leaf (ses ++ nes)) = true
                    rw [fillPage_leaf, List.length_append]
                    constructor
                    · show GetMinSize lMax ≤ ses.length + nes.length
                      omega
                    · omega
                  · show (BPage.leaf (ses ++ nes) : BPage α V).height = H
                    rw [height_leaf, hH0]
                · exact ⟨hfill_dropN (j + 2) (by omega) e hex3,
                    hballs e (List.mem_of_mem_drop hex3),
                    hH e (List.mem_of_mem_drop hex3)⟩
            · show ((es.set j (ks, BPage.leaf (ses ++ nes))).eraseIdx (j + 1)).length =
                  es.length - 1
              rw [hdec, List.length_append, List.length_take, List.length_cons,
                List.length_drop]
              omega
        · -- internal recipient, internal left sibling
          rename_i nes ses
          obtain ⟨hj1, hgetn⟩ := getElem?_some_get hni
          obtain ⟨hjlt, hgets⟩ := getElem?_some_get hsib
          have hgetn2 : (es.get ⟨j + 1, hj1⟩).2 = BPage.internal nes := by rw [hgetn]
          have hgets2 : (es.get ⟨j, hjlt⟩).2 = BPage.internal ses := by rw [hgets]
          have hfsi : GetMinSize iMax ≤ ses.length ∧ ses.length ≤ iMax ∧
              fillChildren lMax iMax ses = true := by
            have h8 := hoth j hjlt (by omega)
            rw [hgets2, fillPage_internal] at h8
            exact h8
          have hnn := hszi nes hgetn2
          have hnch := hunch nes hgetn2
          have hsb := hballs _ (List.get_mem es j hjlt)
          rw [hgets2] at hsb
          have hnb := hballs _ (List.get_mem es (j + 1) hj1)
          rw [hgetn2] at hnb
          have hsbc : balancedChildren ses = true := hsb
          have hnbc : balancedChildren nes = true := hnb
          have hsH := hH _ (List.get_mem es j hjlt)
          rw [hgets2, height_internal] at hsH
          have hnH := hH _ (List.get_mem es (j + 1) hj1)
          rw [hgetn2, height_internal] at hnH
          have hhh : entsHeight nes = entsHeight ses := by omega
          have hsmem : ∀ e ∈ ses, fillPage lMax iMax false e.2 = true ∧
              balancedPage e.2 = true ∧ e.2.height = entsHeight ses := by
            intro e hex
            exact ⟨fillChildren_iff.1 hfsi.2.2 e hex,
              (balancedChildren_iff.1 hsbc).1 e hex,
              balancedChildren_heights hsbc hex⟩
          have hnmem : ∀ e ∈ nes, fillPage lMax iMax false e.2 = true ∧
              balancedPage e.2 = true ∧ e.2.height = entsHeight ses := by
            intro e hex
            refine ⟨fillChildren_iff.1 hnch e hex,
              (balancedChildren_iff.1 hnbc).1 e hex, ?_⟩
            rw [balancedChildren_heights hnbc hex, hhh]
          split at hres
          · split at hres
            · -- borrow the last slot of the left sibling
              rename_i hgt m hlast
              subst hres
              have hne : ses ≠ [] := by
                intro hc
                have h5 := congrArg List.length hc
                rw [List.length_nil] at h5
                omega
              have hgl : ses.getLast hne = m := by
                have h3 := List.getLast?_eq_getLast ses hne
                rw [hlast] at h3
                exact (Option.some_inj.mp h3).symm
              have hmmem : m ∈ ses := hgl ▸ List.getLast_mem hne
              have hdec := set_set_adjacent es j (ks, BPage.internal ses.dropLast)
                (m.1, BPage.internal (m :: nes)) hj1
              have hdlne : ses.dropLast ≠ [] := by
                intro hc
                have := congrArg List.length hc
                rw [List.length_dropLast, List.length_nil] at this
                omega
              constructor
              · intro e hex
                rw [hdec] at hex
                rcases List.mem_append.1 hex with hex1 | hex2
                · exact ⟨hfill_take j (by omega) e hex1,
                    hballs e (List.mem_of_mem_take hex1),
                    hH e (List.mem_of_mem_take hex1)⟩
                · rcases List.mem_cons.1 hex2 with rfl | hex3
                  · refine ⟨?_, ?_, ?_⟩
                    · show fillPage lMax iMax false
                        (BPage.internal ses.dropLast) = true
                      rw [fillPage_internal, List.length_dropLast]
                      refine ⟨?_, by omega, ?_⟩
                      · show GetMinSize iMax ≤ ses.length - 1
                        omega
                      · rw [fillChildren_iff]
                        intro f hf
                        exact (hsmem f ((List.dropLast_sublist ses).subset hf)).1
                    · show balancedPage (BPage.internal ses.dropLast) = true
                      rw [balancedPage_internal]
                      exact @balancedChildren_of_all α _ V _ (entsHeight ses)
                        (fun f hf => (hsmem f ((List.dropLast_sublist ses).subset hf)).2.1)
                        (fun f hf => (hsmem f ((List.dropLast_sublist ses).subset hf)).2.2)
                    · show (BPage.internal ses.dropLast : BPage α V).height = H
                      rw [height_internal, entsHeight_eq_of_all hdlne
                        (fun f hf => (hsmem f ((List.dropLast_sublist ses).subset hf)).2.2)]
                      omega
                  · rcases List.mem_cons.1 hex3 with rfl | hex4
                    · have hcmem2 : ∀ f ∈ m :: nes,
                          fillPage lMax iMax false f.2 = true ∧
                            balancedPage f.2 = true ∧ f.2.height = entsHeight ses := by
                        intro f hf
                        rcases List.mem_cons.1 hf with rfl | hf2
                        · exact hsmem f hmmem
                        · exact hnmem f hf2
                      refine ⟨?_, ?_, ?_⟩
                      · show fillPage lMax iMax false
                          (BPage.internal (m :: nes)) = true
                        rw [fillPage_internal, List.length_cons]
                        refine ⟨?_, by omega, ?_⟩
                        · show GetMinSize iMax ≤ nes.length + 1
                          omega
                        · rw [fillChildren_iff]
                          intro f hf
                          exact (hcmem2 f hf).1
                      · show balancedPage (BPage.internal (m :: nes)) = true
                        rw [balancedPage_internal]
                        exact @balancedChildren_of_all α _ V _ (entsHeight ses)
                          (fun f hf => (hcmem2 f hf).2.1)
                          (fun f hf => (hcmem2 f hf).2.2)
                      · show (BPage.internal (m :: nes) : BPage α V).height = H
                        rw [height_internal, entsHeight_eq_of_all (by simp)
                          (fun f hf => (hcmem2 f hf).2.2)]
                        omega
                    · exact ⟨hfill_dropN (j + 2) (by omega) e hex4,
                        hballs e (List.mem_of_mem_drop hex4),
                        hH e (List.mem_of_mem_drop hex4)⟩
              · show ((es.set j (ks, BPage.internal ses.dropLast)).set (j + 1)
                    (m.1, BPage.internal (m :: nes))).length = es.length
                rw [List.length_set, List.length_set]
            · rename_i hlast
              exfalso
              have hne : ses ≠ [] := by
                intro hc
                have h5 := congrArg List.length hc
                rw [List.length_nil] at h5
                omega
              rw [List.getLast?_eq_getLast ses hne] at hlast
              exact Option.noConfusion hlast
          · -- merge this page into the left sibling
            rename_i hle
            subst hres
            have hsesmin : ses.length = GetMinSize iMax := by omega
            have hsne : ses ≠ [] := by
              intro hc
              have := congrArg List.length hc
              rw [List.length_nil] at this
              omega
            have hmmem2 : ∀ f ∈ ses ++ nes,
                fillPage lMax iMax false f.2 = true ∧
                  balancedPage f.2 = true ∧ f.2.height = entsHeight ses := by
              intro f hf
              rcases List.mem_append.1 hf with hf1 | hf1
              · exact hsmem f hf1
              · exact hnmem f hf1
            have hdec := set_eraseIdx_adjacent es j
              (ks, BPage.internal (ses ++ nes)) hj1
            constructor
            · intro e hex
              rw [hdec] at hex
              rcases List.mem_append.1 hex with hex1 | hex2
              · exact ⟨hfill_take j (by omega) e hex1,
                  hballs e (List.mem_of_mem_take hex1),
                  hH e (List.mem_of_mem_take hex1)⟩
              · rcases List.mem_cons.1 hex2 with rfl | hex3
                · refine ⟨?_, ?_, ?_⟩
                  · show fillPage lMax iMax false
                      (BPage.internal (ses ++ nes)) = true
                    rw [fillPage_internal, List.length_append]
                    refine ⟨?_, by omega, ?_⟩
                    · show GetMinSize iMax ≤ ses.length + nes.length
                      omega
                    · rw [fillChildren_iff]
                      intro f hf
                      exact (hmmem2 f hf).1
                  · show balancedPage (BPage.internal (ses ++ nes)) = true
                    rw [balancedPage_internal]
                    exact @balancedChildren_of_all α _ V _ (entsHeight ses)
                      (fun f hf => (hmmem2 f hf).2.1)
                      (fun f hf => (hmmem2 f hf).2.2)
                  · show (BPage.internal (ses ++ nes) : BPage α V).height = H
                    rw [height_internal, entsHeight_eq_of_all
                      (by simp [hsne])
                      (fun f hf => (hmmem2 f hf).2.2)]
                    omega
                · exact ⟨hfill_dropN (j + 2) (by omega) e hex3,
                    hballs e (List.mem_of_mem_drop hex3),
                    hH e (List.mem_of_mem_drop hex3)⟩
            · show ((es.set j (ks, BPage.internal (ses ++ nes))).eraseIdx
                  (j + 1)).length = es.length - 1
              rw [hdec, List.length_append, List.length_take, List.length_cons,
                List.length_drop]
              omega
        · -- siblings of different kinds are impossible at one height
          rename_i hx1 hx2
          exfalso
          obtain ⟨hj1, hgetn⟩ := getElem?_some_get hni
          obtain ⟨hjlt, hgets⟩ := getElem?_some_get hsib
          have h9 := hH _ (List.get_mem es (j + 1) hj1)
          rw [hgetn] at h9
          have h10 := hH _ (List.get_mem es j hjlt)
          rw [hgets] at h10
          have h9' : node.height = H := h9
          have h10' : sib.height = H := h10
          have hkind := isLeaf_eq_of_height_eq (h9'.trans h10'.symm)
          cases node with
          | leaf nes =>
            cases sib with
            | leaf ses => exact hx1 nes ses rfl rfl
            | internal ses => simp [BPage.isLeafPage] at hkind
          | internal nes =>
            cases sib with
            | leaf ses => simp [BPage.isLeafPage] at hkind
            | internal ses => exact hx2 nes ses rfl rfl
    · -- slot 0: use the right sibling
      rename_i h0i
      have hi0 : i = 0 := by omega
      subst hi0
      split at hres
      · rename_i hsib
        rw [List.getElem?_eq_getElem (by omega : 0 + 1 < es.length)] at hsib
        exact Option.noConfusion hsib
      · rename_i ks sib hsib
        split at hres
        · -- leaf recipient, leaf right sibling
          rename_i nes ses
          obtain ⟨h0lt, hget0⟩ := getElem?_some_get hni
          obtain ⟨hj1, hgets1⟩ := getElem?_some_get hsib
          have hget02 : (es.get ⟨0, h0lt⟩).2 = BPage.leaf nes := by rw [hget0]
          have hgets12 : (es.get ⟨0 + 1, hj1⟩).2 = BPage.leaf ses := by rw [hgets1]
          have hH0 : H = 0 := by
            have h9 := hH _ (List.get_mem es 0 h0lt)
            rw [hget02, height_leaf] at h9
            exact h9.symm
          have hfs : GetMinSize lMax ≤ ses.length ∧ ses.length ≤ lMax := by
            have h8 := hoth (0 + 1) hj1 (by omega)
            rw [hgets12, fillPage_leaf] at h8
            exact h8
          have hnn := hszl nes hget02
          split at hres
          · split at hres
            · -- move the sibling's first entry to this page's end
              rename_i m s2 srest hgt
              subst hres
              have hdec := set_set_adjacent es 0 (ki, BPage.leaf (nes ++ [m]))
                (s2.1, BPage.leaf (s2 :: srest)) hj1
              have hlen3 : (m :: s2 :: srest).length = srest.length + 2 := by
                rw [List.length_cons, List.length_cons]
              constructor
              · intro e hex
                rw [hdec] at hex
                rw [List.take_zero, List.nil_append] at hex
                rcases List.mem_cons.1 hex with rfl | hex2
                · refine ⟨?_, balancedPage_leaf, ?_⟩
                  · show fillPage lMax iMax false
                      (BPage.leaf (nes ++ [m])) = true
                    rw [fillPage_leaf, List.length_append, List.length_cons,
                      List.length_nil]
                    constructor
                    · show GetMinSize lMax ≤ nes.length + (0 + 1)
                      omega
                    · omega
                  · show (BPage.leaf (nes ++ [m]) : BPage α V).height = H
                    rw [height_leaf, hH0]
                · rcases List.mem_cons.1 hex2 with rfl | hex3
                  · refine ⟨?_, balancedPage_leaf, ?_⟩
                    · show fillPage lMax iMax false
                        (BPage.leaf (s2 :: srest)) = true
                      rw [fillPage_leaf, List.length_cons]
                      constructor
                      · show GetMinSize lMax ≤ srest.length + 1
                        omega
                      · omega
                    · show (BPage.leaf (s2 :: srest) : BPage α V).height = H
                      rw [height_leaf, hH0]
                  · exact ⟨hfill_dropN 2 (by omega) e hex3,
                      hballs e (List.mem_of_mem_drop hex3),
                      hH e (List.mem_of_mem_drop hex3)⟩
              · show ((es.set 0 (ki, BPage.leaf (nes ++ [m]))).set (0 + 1)
                    (s2.1, BPage.leaf (s2 :: srest))).length = es.length
                rw [List.length_set, List.length_set]
            · -- a donor above the minimum holds at least two entries
              rename_i hgt hx hshape
              exfalso
              cases ses with
              | nil =>
                simp only [List.length_nil] at hgt
                omega
              | cons a t =>
                cases t with
                | nil =>
                  simp only [List.length_cons, List.length_nil] at hgt
                  omega
                | cons b t2 => exact hshape a b t2 rfl
          · -- merge the right sibling into this page
            rename_i hle
            subst hres
            have hsesmin : ses.length = GetMinSize lMax := by omega
            have hdec := set_eraseIdx_adjacent es 0
              (ki, BPage.leaf (nes ++ ses)) hj1
            constructor
            · intro e hex
              rw [hdec] at hex
              rw [List.take_zero, List.nil_append] at hex
              rcases List.mem_cons.1 hex with rfl | hex2
              · refine ⟨?_, balancedPage_leaf, ?_⟩
                · show fillPage lMax iMax false (BPage.leaf (nes ++ ses)) = true
                  rw [fillPage_leaf, List.length_append]
                  constructor
                  · show GetMinSize lMax ≤ nes.length + ses.length
                    omega
                  · omega
                · show (BPage.leaf (nes ++ ses) : BPage α V).height = H
                  rw [height_leaf, hH0]
              · exact ⟨hfill_dropN 2 (by omega) e hex2,
                  hballs e (List.mem_of_mem_drop hex2),
                  hH e (List.mem_of_mem_drop hex2)⟩
            · show ((es.set 0 (ki, BPage.leaf (nes ++ ses))).eraseIdx
                  (0 + 1)).length = es.length - 1
              rw [hdec, List.length_append, List.length_take, List.length_cons,
                List.length_drop]
              omega
        · -- internal recipient, internal right sibling
          rename_i nes ses
          obtain ⟨h0lt, hget0⟩ := getElem?_some_get hni
          obtain ⟨hj1, hgets1⟩ := getElem?_some_get hsib
          have hget02 : (es.get ⟨0, h0lt⟩).2 = BPage.internal nes := by rw [hget0]
          have hgets12 : (es.get ⟨0 + 1, hj1⟩).2 = BPage.internal ses := by
            rw [hgets1]
          have hfsi : GetMinSize iMax ≤ ses.length ∧ ses.length ≤ iMax ∧
              fillChildren lMax iMax ses = true := by
            have h8 := hoth (0 + 1) hj1 (by omega)
            rw [hgets12, fillPage_internal] at h8
            exact h8
          have hnn := hszi nes hget02
          have hnch := hunch nes hget02
          have hsb := hballs _ (List.get_mem es (0 + 1) hj1)
          rw [hgets12] at hsb
          have hnb := hballs _ (List.get_mem es 0 h0lt)
          rw [hget02] at hnb
          have hsbc : balancedChildren ses = true := hsb
          have hnbc : balancedChildren nes = true := hnb
          have hsH := hH _ (List.get_mem es (0 + 1) hj1)
          rw [hgets12, height_internal] at hsH
          have hnH := hH _ (List.get_mem es 0 h0lt)
          rw [hget02, height_internal] at hnH
          have hhh : entsHeight nes = entsHeight ses := by omega
          have hsmem : ∀ e ∈ ses, fillPage lMax iMax false e.2 = true ∧
              balancedPage e.2 = true ∧ e.2.height = entsHeight ses := by
            intro e hex
            exact ⟨fillChildren_iff.1 hfsi.2.2 e hex,
              (balancedChildren_iff.1 hsbc).1 e hex,
              balancedChildren_heights hsbc hex⟩
          have hnmem : ∀ e ∈ nes, fillPage lMax iMax false e.2 = true ∧
              balancedPage e.2 = true ∧ e.2.height = entsHeight ses := by
            intro e hex
            refine ⟨fillChildren_iff.1 hnch e hex,
              (balancedChildren_iff.1 hnbc).1 e hex, ?_⟩
            rw [balancedChildren_heights hnbc hex, hhh]
          split at hres
          · split at hres
            · -- move the sibling's first slot to this page's end
              rename_i m s2 srest hgt
              subst hres
              have hmmem : m ∈ m :: s2 :: srest := List.mem_cons_self m (s2 :: srest)
              have hcmem2 : ∀ f ∈ nes ++ [m],
                  fillPage lMax iMax false f.2 = true ∧
                    balancedPage f.2 = true ∧
                      f.2.height = entsHeight (m :: s2 :: srest) := by
                intro f hf
                rcases List.mem_append.1 hf with hf1 | hf1
                · exact hnmem f hf1
                · rw [List.mem_singleton] at hf1
                  subst hf1
                  exact hsmem f hmmem
              have hcmem3 : ∀ f ∈ s2 :: srest,
                  fillPage lMax iMax false f.2 = true ∧
                    balancedPage f.2 = true ∧
                      f.2.height = entsHeight (m :: s2 :: srest) := by
                intro f hf
                exact hsmem f (List.mem_cons_of_mem m hf)
              have hdec := set_set_adjacent es 0 (ki, BPage.internal (nes ++ [m]))
                (s2.1, BPage.internal (s2 :: srest)) hj1
              have hlen3 : (m :: s2 :: srest).length = srest.length + 2 := by
                rw [List.length_cons, List.length_cons]
              constructor
              · intro e hex
                rw [hdec] at hex
                rw [List.take_zero, List.nil_append] at hex
                rcases List.mem_cons.1 hex with rfl | hex2
                · refine ⟨?_, ?_, ?_⟩
                  · show fillPage lMax iMax false
                      (BPage.internal (nes ++ [m])) = true
                    rw [fillPage_internal, List.length_append, List.length_cons,
                      List.length_nil]
                    refine ⟨?_, by omega, ?_⟩
                    · show GetMinSize iMax ≤ nes.length + (0 + 1)
                      omega
                    · rw [fillChildren_iff]
                      intro f hf
                      exact (hcmem2 f hf).1
                  · show balancedPage (BPage.internal (nes ++ [m])) = true
                    rw [balancedPage_internal]
                    exact @balancedChildren_of_all α _ V _
                      (entsHeight (m :: s2 :: srest))
                      (fun f hf => (hcmem2 f hf).2.1)
                      (fun f hf => (hcmem2 f hf).2.2)
                  · show (BPage.internal (nes ++ [m]) : BPage α V).height = H
                    rw [height_internal, entsHeight_eq_of_all (by simp)
                      (fun f hf => (hcmem2 f hf).2.2)]
                    omega
                · rcases List.mem_cons.1 hex2 with rfl | hex3
                  · refine ⟨?_, ?_, ?_⟩
                    · show fillPage lMax iMax false
                        (BPage.internal (s2 :: srest)) = true
                      rw [fillPage_internal, List.length_cons]
                      refine ⟨?_, by omega, ?_⟩
                      · show GetMinSize iMax ≤ srest.length + 1
                        omega
                      · rw [fillChildren_iff]
                        intro f hf
                        exact (hcmem3 f hf).1
                    · show balancedPage (BPage.internal (s2 :: srest)) = true
                      rw [balancedPage_internal]
                      exact @balancedChildren_of_all α _ V _
                        (entsHeight (m :: s2 :: srest))
                        (fun f hf => (hcmem3 f hf).2.1)
                        (fun f hf => (hcmem3 f hf).2.2)
                    · show (BPage.internal (s2 :: srest) : BPage α V).height = H
                      rw [height_internal, entsHeight_eq_of_all (by simp)
                        (fun f hf => (hcmem3 f hf).2.2)]
                      omega
                  · exact ⟨hfill_dropN 2 (by omega) e hex3,
                      hballs e (List.mem_of_mem_drop hex3),
                      hH e (List.mem_of_mem_drop hex3)⟩
              · show ((es.set 0 (ki, BPage.internal (nes ++ [m]))).set (0 + 1)
                    (s2.1, BPage.internal (s2 :: srest))).length = es.length
                rw [List.length_set, List.length_set]
            · rename_i hgt hx hshape
              exfalso
              cases ses with
              | nil =>
                simp only [List.length_nil] at hgt
                omega
              | cons a t =>
                cases t with
                | nil =>
                  simp only [List.length_cons, List.length_nil] at hgt
                  omega
                | cons b t2 => exact hshape a b t2 rfl
          · -- merge the right sibling into this page
            rename_i hle
            subst hres
            have hsesmin : ses.length = GetMinSize iMax := by omega
            have hnesne : nes ≠ [] := by
              intro hc
              have := congrArg List.length hc
              rw [List.length_nil] at this
              omega
            have hmmem2 : ∀ f ∈ nes ++ ses,
                fillPage lMax iMax false f.2 = true ∧
                  balancedPage f.2 = true ∧ f.2.height = entsHeight ses := by
              intro f hf
              rcases List.mem_append.1 hf with hf1 | hf1
              · exact hnmem f hf1
              · exact hsmem f hf1
            have hdec := set_eraseIdx_adjacent es 0
              (ki, BPage.internal (nes ++ ses)) hj1
            constructor
            · intro e hex
              rw [hdec] at hex
              rw [List.take_zero, List.nil_append] at hex
              rcases List.mem_cons.1 hex with rfl | hex2
              · refine ⟨?_, ?_, ?_⟩
                · show fillPage lMax iMax false
                    (BPage.internal (nes ++ ses)) = true
                  rw [fillPage_internal, List.length_append]
                  refine ⟨?_, by omega, ?_⟩
                  · show GetMinSize iMax ≤ nes.length + ses.length
                    omega
                  · rw [fillChildren_iff]
                    intro f hf
                    exact (hmmem2 f hf).1
                · show balancedPage (BPage.internal (nes ++ ses)) = true
                  rw [balancedPage_internal]
                  exact @balancedChildren_of_all α _ V _ (entsHeight ses)
                    (fun f hf => (hmmem2 f hf).2.1)
                    (fun f hf => (hmmem2 f hf).2.2)
                · show (BPage.internal (nes ++ ses) : BPage α V).height = H
                  rw [height_internal, entsHeight_eq_of_all
                    (by simp [hnesne])
                    (fun f hf => (hmmem2 f hf).2.2)]
                  omega
              · exact ⟨hfill_dropN 2 (by omega) e hex2,
                  hballs e (List.mem_of_mem_drop hex2),
                  hH e (List.mem_of_mem_drop hex2)⟩
            · show ((es.set 0 (ki, BPage.internal (nes ++ ses))).eraseIdx
                  (0 + 1)).length = es.length - 1
              rw [hdec, List.length_append, List.length_take, List.length_cons,
                List.length_drop]
              omega
        · -- siblings of different kinds are impossible at one height
          rename_i hx1 hx2
          exfalso
          obtain ⟨h0lt, hget0⟩ := getElem?_some_get hni
          obtain ⟨hj1, hgets1⟩ := getElem?_some_get hsib
          have h9 := hH _ (List.get_mem es 0 h0lt)
          rw [hget0] at h9
          have h10 := hH _ (List.get_mem es (0 + 1) hj1)
          rw [hgets1] at h10
          have h9' : node.height = H := h9
          have h10' : sib.height = H := h10
          have hkind := isLeaf_eq_of_height_eq (h9'.trans h10'.symm)
          cases node with
          | leaf nes =>
            cases sib with
            | leaf ses => exact hx1 nes ses rfl rfl
            | internal ses => simp [BPage.isLeafPage] at hkind
          | internal nes =>
            cases sib with
            | leaf ses => simp [BPage.isLeafPage] at hkind
            | internal ses => exact hx2 nes ses rfl rfl

/-- Delete preserves fill and balance below the root: kind and height are
kept, a non-underflow result is properly filled, and an underflow result is
exactly one entry short of its minimum with everything beneath it still
properly filled — `CoalesceOrRedistribute` fully repairs an underflowing
child on the way. -/
theorem removeAux_fb {lMax iMax : Nat} (hl : 1 ≤ lMax) (he : iMax % 2 = 0)
    (h4 : 4 ≤ iMax) (key : α) :
    ∀ (p : BPage α V),
      fillPage lMax iMax false p = true → balancedPage p = true →
      match removeAux lMax iMax key p with
      | none => True
      | some pr =>
          balancedPage pr.1 = true ∧ pr.1.height = p.height ∧
          pr.1.isLeafPage = p.isLeafPage ∧
          (pr.2 = false → fillPage lMax iMax false pr.1 = true) ∧
          (pr.2 = true →
            (∀ nes, pr.1 = BPage.leaf nes → nes.length + 1 = GetMinSize lMax) ∧
            (∀ nes, pr.1 = BPage.internal nes →
              nes.length + 1 = GetMinSize iMax ∧
                fillChildren lMax iMax nes = true)) := by
  intro p
  induction p using BPage.ind with
  | hleaf es =>
    intro hf hb
    rw [fillPage_leaf] at hf
    have hflo : GetMinSize lMax ≤ es.length := hf.1
    cases hg : es[LowerBound (es.map Prod.fst) key]? with
    | none =>
      have hval : removeAux lMax iMax key (BPage.leaf es) = none := by
        rw [removeAux_leaf_eq, hg]
      rw [hval]
      trivial
    | some e =>
      obtain ⟨k, w⟩ := e
      have hidx : LowerBound (es.map Prod.fst) key < es.length := by
        by_contra hc
        rw [List.getElem?_eq_none (by omega)] at hg
        exact Option.noConfusion hg
      have herl : (es.eraseIdx (LowerBound (es.map Prod.fst) key)).length =
          es.length - 1 := by
        rw [List.length_eraseIdx, if_pos hidx]
      by_cases heq : compare k key = Ordering.eq
      · have hval1 : removeAux lMax iMax key (BPage.leaf es) =
            (if compare k key = Ordering.eq then
              some ((.leaf (es.eraseIdx (LowerBound (es.map Prod.fst) key)) :
                  BPage α V),
                decide ((es.eraseIdx (LowerBound (es.map Prod.fst) key)).length <
                  GetMinSize lMax))
            else none) := by
          rw [removeAux_leaf_eq, hg]
        have hval : removeAux lMax iMax key (BPage.leaf es) =
            some (.leaf (es.eraseIdx (LowerBound (es.map Prod.fst) key)),
              decide ((es.eraseIdx (LowerBound (es.map Prod.fst) key)).length <
                GetMinSize lMax)) := by
          rw [hval1, if_pos heq]
        rw [hval]
        refine ⟨balancedPage_leaf, by rw [height_leaf, height_leaf], rfl, ?_, ?_⟩
        · intro hfl
          simp only [decide_eq_false_iff_not, not_lt] at hfl
          rw [fillPage_leaf]
          exact ⟨hfl, by omega⟩
        · intro hfl
          simp only [decide_eq_true_eq] at hfl
          constructor
          · intro nes hn
            injection hn with hn2
            rw [← hn2]
            omega
          · intro nes hn
            exact BPage.noConfusion hn
      · have hval1 : removeAux lMax iMax key (BPage.leaf es) =
            (if compare k key = Ordering.eq then
              some ((.leaf (es.eraseIdx (LowerBound (es.map Prod.fst) key)) :
                  BPage α V),
                decide ((es.eraseIdx (LowerBound (es.map Prod.fst) key)).length <
                  GetMinSize lMax))
            else none) := by
          rw [removeAux_leaf_eq, hg]
        have hval : removeAux lMax iMax key (BPage.leaf es) = none := by
          rw [hval1, if_neg heq]
        rw [hval]
        trivial
  | hint es ihmem =>
    intro hf hb
    rw [fillPage_internal] at hf
    obtain ⟨hflow, hfup, hfch⟩ := hf
    have hflow2 : GetMinSize iMax ≤ es.length := hflow
    have hbc : balancedChildren es = true := hb
    obtain ⟨hballs, hhts⟩ := balancedChildren_iff.1 hbc
    have hgix : GetMinSize iMax = (iMax + 1) / 2 := rfl
    have hne : es ≠ [] := by
      intro hc
      have h5 := congrArg List.length hc
      rw [List.length_nil] at h5
      omega
    rcases Nat.lt_or_ge (InternalLookup (es.map Prod.fst) key) es.length with hir | hir
    · have hcmem : es.get ⟨InternalLookup (es.map Prod.fst) key, hir⟩ ∈ es :=
        List.get_mem es _ _
      have hcfill := fillChildren_iff.1 hfch _ hcmem
      have hcbal := hballs _ hcmem
      have hih := ihmem _ hcmem hcfill hcbal
      rcases hres : removeAux lMax iMax key
          ((es.get ⟨InternalLookup (es.map Prod.fst) key, hir⟩).2)
        with _ | ⟨c', cflag⟩
      · have hval : removeAux lMax iMax key (BPage.internal es) = none := by
          rw [removeAux_internal_eq, removeEntries_eq hir, hres]
        rw [hval]
        trivial
      · rw [hres] at hih
        obtain ⟨hc'b, hc'h, hc'k, hc'ff, hc'ft⟩ := hih
        have hrem : removeEntries lMax iMax key es
            (InternalLookup (es.map Prod.fst) key) =
            some (es.set (InternalLookup (es.map Prod.fst) key)
              ((es.get ⟨InternalLookup (es.map Prod.fst) key, hir⟩).1, c'), cflag) := by
          rw [removeEntries_eq hir, hres]
        cases cflag with
        | false =>
          have hval : removeAux lMax iMax key (BPage.internal es) =
              some (.internal (es.set (InternalLookup (es.map Prod.fst) key)
                ((es.get ⟨InternalLookup (es.map Prod.fst) key, hir⟩).1, c')),
                false) := by
            have h1 := @removeAux_internal_eq α _ V lMax iMax key es
            rw [hrem] at h1
            exact h1
          rw [hval]
          refine ⟨?_, ?_, rfl, ?_, ?_⟩
          · rw [balancedPage_internal]
            refine @balancedChildren_of_all α _ V _
              ((es.get ⟨InternalLookup (es.map Prod.fst) key, hir⟩).2.height) ?_ ?_
            · intro e hex
              rcases List.mem_or_eq_of_mem_set hex with h1 | h1
              · exact hballs e h1
              · rw [h1]; exact hc'b
            · intro e hex
              rcases List.mem_or_eq_of_mem_set hex with h1 | h1
              · exact hhts e h1 _ hcmem
              · rw [h1]; exact hc'h
          · rw [height_internal, height_internal, entsHeight_set hir hc'h]
          · intro _
            rw [fillPage_internal, List.length_set]
            exact ⟨hflow, hfup, fillChildren_set hfch (hc'ff rfl)⟩
          · intro hcontra
            exact absurd hcontra (by simp)
        | true =>
          obtain ⟨hlm, hlint⟩ := hc'ft rfl
          have hval : removeAux lMax iMax key (BPage.internal es) =
              some (.internal (CoalesceOrRedistribute lMax iMax
                  (es.set (InternalLookup (es.map Prod.fst) key)
                    ((es.get ⟨InternalLookup (es.map Prod.fst) key, hir⟩).1, c'))
                  (InternalLookup (es.map Prod.fst) key)).1,
                (CoalesceOrRedistribute lMax iMax
                  (es.set (InternalLookup (es.map Prod.fst) key)
                    ((es.get ⟨InternalLookup (es.map Prod.fst) key, hir⟩).1, c'))
                  (InternalLookup (es.map Prod.fst) key)).2 &&
                  decide ((CoalesceOrRedistribute lMax iMax
                    (es.set (InternalLookup (es.map Prod.fst) key)
                      ((es.get ⟨InternalLookup (es.map Prod.fst) key, hir⟩).1, c'))
                    (InternalLookup (es.map Prod.fst) key)).1.length <
                    GetMinSize iMax)) := by
            have h1 := @removeAux_internal_eq α _ V lMax iMax key es
            rw [hrem] at h1
            exact h1
          rw [hval]
          have hsetlen : (es.set (InternalLookup (es.map Prod.fst) key)
              ((es.get ⟨InternalLookup (es.map Prod.fst) key, hir⟩).1, c')).length =
              es.length := List.length_set es _ _
          have hir2 : InternalLookup (es.map Prod.fst) key <
              (es.set (InternalLookup (es.map Prod.fst) key)
                ((es.get ⟨InternalLookup (es.map Prod.fst) key, hir⟩).1, c')).length := by
            rw [hsetlen]
            exact hir
          have hslot : ((es.set (InternalLookup (es.map Prod.fst) key)
              ((es.get ⟨InternalLookup (es.map Prod.fst) key, hir⟩).1, c')).get
                ⟨InternalLookup (es.map Prod.fst) key, hir2⟩).2 = c' := by
            have h6 := @List.getElem_set (α × BPage α V) es
              (InternalLookup (es.map Prod.fst) key)
              (InternalLookup (es.map Prod.fst) key)
              ((es.get ⟨InternalLookup (es.map Prod.fst) key, hir⟩).1, c') hir2
            rw [if_pos rfl] at h6
            have h7 : (es.set (InternalLookup (es.map Prod.fst) key)
                ((es.get ⟨InternalLookup (es.map Prod.fst) key, hir⟩).1, c')).get
                  ⟨InternalLookup (es.map Prod.fst) key, hir2⟩ =
                ((es.get ⟨InternalLookup (es.map Prod.fst) key, hir⟩).1, c') := h6
            rw [h7]
          have hCo := CoalesceOrRedistribute_fb hl he h4 hir2
            (by rw [hsetlen]; omega)
            (by
              intro j hj hji
              have hj2 : j < es.length := by
                rw [hsetlen] at hj
                exact hj
              have hgne : ((es.set (InternalLookup (es.map Prod.fst) key)
                  ((es.get ⟨InternalLookup (es.map Prod.fst) key, hir⟩).1, c')).get
                    ⟨j, hj⟩) = es.get ⟨j, hj2⟩ := by
                have := @List.getElem_set_ne (α × BPage α V) es
                  (InternalLookup (es.map Prod.fst) key) j (fun hc => hji hc.symm)
                  ((es.get ⟨InternalLookup (es.map Prod.fst) key, hir⟩).1, c') hj
                simpa using this
              rw [hgne]
              exact fillChildren_iff.1 hfch _ (List.get_mem es j hj2))
            (by
              intro e hex
              rcases List.mem_or_eq_of_mem_set hex with h1 | h1
              · exact hballs e h1
              · rw [h1]; exact hc'b)
            (by
              intro e hex
              rcases List.mem_or_eq_of_mem_set hex with h1 | h1
              · exact hhts e h1 _ hcmem
              · rw [h1]; exact hc'h)
            (by
              intro nes hn
              rw [hslot] at hn
              exact hlm nes hn)
            (by
              intro nes hn
              rw [hslot] at hn
              exact (hlint nes hn).1)
            (by
              intro nes hn
              rw [hslot] at hn
              exact (hlint nes hn).2)
          obtain ⟨hCom, hColen⟩ := hCo
          rw [hsetlen] at hColen
          have hCne : (CoalesceOrRedistribute lMax iMax
              (es.set (InternalLookup (es.map Prod.fst) key)
                ((es.get ⟨InternalLookup (es.map Prod.fst) key, hir⟩).1, c'))
              (InternalLookup (es.map Prod.fst) key)).1 ≠ [] := by
            intro hc
            have h5 := congrArg List.length hc
            rw [List.length_nil, hColen] at h5
            by_cases hflag : (CoalesceOrRedistribute lMax iMax
                (es.set (InternalLookup (es.map Prod.fst) key)
                  ((es.get ⟨InternalLookup (es.map Prod.fst) key, hir⟩).1, c'))
                (InternalLookup (es.map Prod.fst) key)).2 = true
            · rw [if_pos hflag] at h5
              omega
            · rw [if_neg hflag] at h5
              omega
          refine ⟨?_, ?_, rfl, ?_, ?_⟩
          · rw [balancedPage_internal]
            exact @balancedChildren_of_all α _ V _
              ((es.get ⟨InternalLookup (es.map Prod.fst) key, hir⟩).2.height)
              (fun e hex => (hCom e hex).2.1) (fun e hex => (hCom e hex).2.2)
          · rw [height_internal, height_internal,
              entsHeight_eq_of_all hCne (fun e hex => (hCom e hex).2.2),
              entsHeight_eq_of_all hne
                (fun e hex => hhts e hex _ hcmem)]
          · intro hfl
            rw [Bool.and_eq_false_iff] at hfl
            rw [fillPage_internal]
            refine ⟨?_, ?_, ?_⟩
            · rcases hfl with hfl | hfl
              · rw [hColen, hfl]
                show GetMinSize iMax ≤ es.length
                exact hflow2
              · simp only [decide_eq_false_iff_not, not_lt] at hfl
                exact hfl
            · by_cases hflag : (CoalesceOrRedistribute lMax iMax
                  (es.set (InternalLookup (es.map Prod.fst) key)
                    ((es.get ⟨InternalLookup (es.map Prod.fst) key, hir⟩).1, c'))
                  (InternalLookup (es.map Prod.fst) key)).2 = true
              · rw [hColen, if_pos hflag]
                omega
              · rw [hColen, if_neg hflag]
                exact hfup
            · rw [fillChildren_iff]
              exact fun e hex => (hCom e hex).1
          · intro hfl
            rw [Bool.and_eq_true] at hfl
            obtain ⟨hfl1, hfl2⟩ := hfl
            rw [decide_eq_true_eq] at hfl2
            constructor
            · intro nes hn
              exact BPage.noConfusion hn
            · intro nes hn
              injection hn with hn2
              have hlen3 : nes.length = es.length - 1 := by
                rw [← hn2, hColen, if_pos hfl1]
              have hfl3 : nes.length < GetMinSize iMax := by
                rw [← hn2]
                exact hfl2
              constructor
              · omega
              · rw [← hn2, fillChildren_iff]
                exact fun e hex => (hCom e hex).1
    · have hval : removeAux lMax iMax key (BPage.internal es) = none := by
        rw [removeAux_internal_eq, removeEntries_high es hir]
      rw [hval]
      trivial

theorem fillPage_root_of_nonroot {lMax iMax : Nat} (hl : 1 ≤ lMax)
    (hi : 1 ≤ iMax) {p : BPage α V}
    (hf : fillPage lMax iMax false p = true) : fillPage lMax iMax true p = true := by
  cases p with
  | leaf es =>
    rw [fillPage_leaf] at hf ⊢
    have h2 : GetMinSize lMax ≤ es.length := hf.1
    have h1 : 1 ≤ GetMinSize lMax := by
      simp only [GetMinSize]
      omega
    constructor
    · show 1 ≤ es.length
      omega
    · exact hf.2
  | internal es =>
    rw [fillPage_internal] at hf ⊢
    have h2 : GetMinSize iMax ≤ es.length := hf.1
    have h1 : 1 ≤ GetMinSize iMax := by
      simp only [GetMinSize]
      omega
    refine ⟨?_, hf.2.1, hf.2.2⟩
    show 1 ≤ es.length
    omega

/-- Tree `Insert` preserves the fill and balance invariants and the
two-slot lower bound of an internal root, for an even `internalMax ≥ 4`. -/
theorem Insert_fb [Inhabited α] {t : BPlusTree α V} (hw : t.wf = true)
    (he : t.internalMax % 2 = 0) (h4 : 4 ≤ t.internalMax)
    (hf : t.fill = true) (hb : t.balanced = true) (hr : rootOk t = true)
    (key : α) (v : V) :
    (t.Insert key v).1.fill = true ∧ (t.Insert key v).1.balanced = true ∧
      rootOk (t.Insert key v).1 = true := by
  have hl := wf_leafMax hw
  cases hroot : t.root with
  | none =>
    have hval : t.Insert key v =
        ({ t with root := some (.leaf [(key, v)]) }, true) := by
      rw [BPlusTree.Insert, hroot]
    rw [hval]
    refine ⟨?_, ?_, ?_⟩
    · show fillPage t.leafMax t.internalMax true (BPage.leaf [(key, v)]) = true
      rw [fillPage_leaf]
      constructor
      · show 1 ≤ [(key, v)].length
        rw [List.length_cons, List.length_nil]
      · show [(key, v)].length ≤ t.leafMax
        rw [List.length_cons, List.length_nil]
        omega
    · show balancedPage (BPage.leaf [(key, v)]) = true
      exact balancedPage_leaf
    · rfl
  | some r =>
    have hf2 : fillPage t.leafMax t.internalMax true r = true := by
      rw [BPlusTree.fill, hroot] at hf
      exact hf
    have hb2 : balancedPage r = true := by
      rw [BPlusTree.balanced, hroot] at hb
      exact hb
    have h1 : t.Insert key v =
        (match insertAux t.leafMax t.internalMax key v r with
         | .dup => (t, false)
         | .one r' => ({ t with root := some r' }, true)
         | .split l sep rr =>
           ({ t with root := some (.internal [(default, l), (sep, rr)]) }, true)) := by
      rw [BPlusTree.Insert, hroot]
    have hins := insertAux_fb hl he h4 key v r true hf2 hb2
    rcases hres : insertAux t.leafMax t.internalMax key v r with _ | r' | ⟨l0, sep, r0⟩
    · rw [hres] at h1
      have hval : t.Insert key v = (t, false) := h1
      rw [hval]
      exact ⟨hf, hb, hr⟩
    · rw [hres] at h1 hins
      obtain ⟨hr'f, hr'b, hr'h, hr's, hr'k⟩ := hins
      have hval : t.Insert key v = ({ t with root := some r' }, true) := h1
      rw [hval]
      refine ⟨?_, ?_, ?_⟩
      · show fillPage t.leafMax t.internalMax true r' = true
        exact hr'f
      · show balancedPage r' = true
        exact hr'b
      · cases hr' : r' with
        | leaf es2 => rfl
        | internal es2 =>
          show decide (2 ≤ es2.length) = true
          rw [decide_eq_true_eq]
          rw [hr'] at hr'k hr's
          cases hrr : r with
          | leaf es3 =>
            rw [hrr] at hr'k
            exact absurd hr'k (by simp [BPage.isLeafPage])
          | internal es3 =>
            have hr3 : decide (2 ≤ es3.length) = true := by
              have h9 : rootOk t = true := hr
              rw [rootOk, hroot, hrr] at h9
              exact h9
            rw [decide_eq_true_eq] at hr3
            rw [hrr] at hr's
            have hs2 : es3.length ≤ es2.length := hr's
            omega
    · rw [hres] at h1 hins
      obtain ⟨hlf, hrf, hlb, hrb, hlh, hrh⟩ := hins
      have hval : t.Insert key v =
          ({ t with root := some (.internal [(default, l0), (sep, r0)]) }, true) := h1
      rw [hval]
      refine ⟨?_, ?_, ?_⟩
      · show fillPage t.leafMax t.internalMax true
          (BPage.internal [(default, l0), (sep, r0)]) = true
        rw [fillPage_internal]
        refine ⟨?_, ?_, ?_⟩
        · show 1 ≤ [(default, l0), (sep, r0)].length
          rw [List.length_cons, List.length_cons, List.length_nil]
          omega
        · show [(default, l0), (sep, r0)].length ≤ t.internalMax
          rw [List.length_cons, List.length_cons, List.length_nil]
          omega
        · rw [fillChildren_iff]
          intro e hex
          rcases List.mem_cons.1 hex with rfl | hex2
          · exact hlf
          · rcases List.mem_cons.1 hex2 with rfl | hex3
            · exact hrf
            · exact absurd hex3 (List.not_mem_nil e)
      · show balancedPage (BPage.internal [(default, l0), (sep, r0)]) = true
        rw [balancedPage_internal]
        refine @balancedChildren_of_all α _ V _ r.height ?_ ?_
        · intro e hex
          rcases List.mem_cons.1 hex with rfl | hex2
          · exact hlb
          · rcases List.mem_cons.1 hex2 with rfl | hex3
            · exact hrb
            · exact absurd hex3 (List.not_mem_nil e)
        · intro e hex
          rcases List.mem_cons.1 hex with rfl | hex2
          · exact hlh
          · rcases List.mem_cons.1 hex2 with rfl | hex3
            · exact hrh
            · exact absurd hex3 (List.not_mem_nil e)
      · rfl

/-- Tree `Remove` preserves the fill and balance invariants and the
two-slot lower bound of an internal root, for an even `internalMax ≥ 4`:
`AdjustRoot` empties a drained leaf root and collapses a single-child
internal root into that child. -/
theorem Remove_fb {t : BPlusTree α V} (hw : t.wf = true)
    (he : t.internalMax % 2 = 0) (h4 : 4 ≤ t.internalMax)
    (hf : t.fill = true) (hb : t.balanced = true) (hr : rootOk t = true)
    (key : α) :
    (t.Remove key).fill = true ∧ (t.Remove key).balanced = true ∧
      rootOk (t.Remove key) = true := by
  have hl := wf_leafMax hw
  cases hroot : t.root with
  | none =>
    have hval : t.Remove key = t := by
      rw [BPlusTree.Remove, hroot]
    rw [hval]
    exact ⟨hf, hb, hr⟩
  | some r =>
    have hf2 : fillPage t.leafMax t.internalMax true r = true := by
      rw [BPlusTree.fill, hroot] at hf
      exact hf
    have hb2 : balancedPage r = true := by
      rw [BPlusTree.balanced, hroot] at hb
      exact hb
    have h1 : t.Remove key =
        (match removeAux t.leafMax t.internalMax key r with
         | none => t
         | some (p, ru) =>
           if ru then
             match p with
             | .leaf es2 =>
               if es2.length = 0 then { t with root := none }
               else { t with root := some p }
             | .internal [(_, c)] => { t with root := some c }
             | .internal _ => { t with root := some p }
           else { t with root := some p }) := by
      rw [BPlusTree.Remove, hroot]
    cases r with
    | leaf es =>
      have hfle : 1 ≤ es.length ∧ es.length ≤ t.leafMax := by
        rw [fillPage_leaf] at hf2
        exact hf2
      cases hg : es[LowerBound (es.map Prod.fst) key]? with
      | none =>
        have hrem : removeAux t.leafMax t.internalMax key (BPage.leaf es) = none := by
          rw [removeAux_leaf_eq, hg]
        rw [hrem] at h1
        have hval : t.Remove key = t := h1
        rw [hval]
        exact ⟨hf, hb, hr⟩
      | some e =>
        obtain ⟨k, w⟩ := e
        have hidx : LowerBound (es.map Prod.fst) key < es.length := by
          by_contra hc
          rw [List.getElem?_eq_none (by omega)] at hg
          exact Option.noConfusion hg
        have herl : (es.eraseIdx (LowerBound (es.map Prod.fst) key)).length =
            es.length - 1 := by
          rw [List.length_eraseIdx, if_pos hidx]
        by_cases heq : compare k key = Ordering.eq
        · have hv1 : removeAux t.leafMax t.internalMax key (BPage.leaf es) =
              (if compare k key = Ordering.eq then
                some ((.leaf (es.eraseIdx (LowerBound (es.map Prod.fst) key)) :
                    BPage α V),
                  decide ((es.eraseIdx (LowerBound (es.map Prod.fst) key)).length <
                    GetMinSize t.leafMax))
              else none) := by
            rw [removeAux_leaf_eq, hg]
          have hrem : removeAux t.leafMax t.internalMax key (BPage.leaf es) =
              some (.leaf (es.eraseIdx (LowerBound (es.map Prod.fst) key)),
                decide ((es.eraseIdx (LowerBound (es.map Prod.fst) key)).length <
                  GetMinSize t.leafMax)) := by
            rw [hv1, if_pos heq]
          rw [hrem] at h1
          by_cases hlen0 : (es.eraseIdx (LowerBound (es.map Prod.fst) key)).length = 0
          · have hflag : decide
                ((es.eraseIdx (LowerBound (es.map Prod.fst) key)).length <
                  GetMinSize t.leafMax) = true := by
              rw [decide_eq_true_eq, hlen0]
              simp only [GetMinSize]
              omega
            rw [hflag] at h1
            have hv2 : t.Remove key =
                (if (es.eraseIdx (LowerBound (es.map Prod.fst) key)).length = 0
                 then { t with root := none }
                 else
                   { t with
                       root := some
                         (.leaf (es.eraseIdx (LowerBound (es.map Prod.fst) key))) }) :=
              h1
            have hval : t.Remove key = { t with root := none } := by
              rw [hv2, if_pos hlen0]
            rw [hval]
            exact ⟨rfl, rfl, rfl⟩
          · have hval : t.Remove key =
                { t with
                    root := some
                      (.leaf (es.eraseIdx (LowerBound (es.map Prod.fst) key))) } := by
              by_cases hflag : decide
                  ((es.eraseIdx (LowerBound (es.map Prod.fst) key)).length <
                    GetMinSize t.leafMax) = true
              · rw [hflag] at h1
                have hv2 : t.Remove key =
                    (if (es.eraseIdx (LowerBound (es.map Prod.fst) key)).length = 0
                     then { t with root := none }
                     else
                       { t with
                           root := some
                             (.leaf (es.eraseIdx
                               (LowerBound (es.map Prod.fst) key))) }) := h1
                rw [hv2, if_neg hlen0]
              · rw [Bool.not_eq_true] at hflag
                rw [hflag] at h1
                exact h1
            rw [hval]
            refine ⟨?_, ?_, rfl⟩
            · show fillPage t.leafMax t.internalMax true
                (BPage.leaf (es.eraseIdx (LowerBound (es.map Prod.fst) key))) = true
              rw [fillPage_leaf]
              constructor
              · show 1 ≤ (es.eraseIdx (LowerBound (es.map Prod.fst) key)).length
                omega
              · omega
            · show balancedPage
                (BPage.leaf (es.eraseIdx (LowerBound (es.map Prod.fst) key))) = true
              exact balancedPage_leaf
        · have hv1 : removeAux t.leafMax t.internalMax key (BPage.leaf es) =
              (if compare k key = Ordering.eq then
                some ((.leaf (es.eraseIdx (LowerBound (es.map Prod.fst) key)) :
                    BPage α V),
                  decide ((es.eraseIdx (LowerBound (es.map Prod.fst) key)).length <
                    GetMinSize t.leafMax))
              else none) := by
            rw [removeAux_leaf_eq, hg]
          have hrem : removeAux t.leafMax t.internalMax key (BPage.leaf es) = none := by
            rw [hv1, if_neg heq]
          rw [hrem] at h1
          have hval : t.Remove key = t := h1
          rw [hval]
          exact ⟨hf, hb, hr⟩
    | internal es =>
      have hfr : 1 ≤ es.length ∧ es.length ≤ t.internalMax ∧
          fillChildren t.leafMax t.internalMax es = true := by
        rw [fillPage_internal] at hf2
        exact hf2
      obtain ⟨hfr1, hfr2, hfch⟩ := hfr
      have hr2 : 2 ≤ es.length := by
        have h9 : decide (2 ≤ es.length) = true := by
          rw [rootOk, hroot] at hr
          exact hr
        rwa [decide_eq_true_eq] at h9
      have hbc : balancedChildren es = true := hb2
      obtain ⟨hballs, hhts⟩ := balancedChildren_iff.1 hbc
      have hgix : GetMinSize t.internalMax = (t.internalMax + 1) / 2 := rfl
      have hne : es ≠ [] := by
        intro hc
        have h5 := congrArg List.length hc
        rw [List.length_nil] at h5
        omega
      rcases Nat.lt_or_ge (InternalLookup (es.map Prod.fst) key) es.length with hir | hir
      · have hcmem : es.get ⟨InternalLookup (es.map Prod.fst) key, hir⟩ ∈ es :=
          List.get_mem es _ _
        have hcfill := fillChildren_iff.1 hfch _ hcmem
        have hcbal := hballs _ hcmem
        have hih := removeAux_fb hl he h4 key _ hcfill hcbal
        rcases hres : removeAux t.leafMax t.internalMax key
            ((es.get ⟨InternalLookup (es.map Prod.fst) key, hir⟩).2)
          with _ | ⟨c', cflag⟩
        · have hrem : removeAux t.leafMax t.internalMax key (BPage.internal es) =
              none := by
            rw [removeAux_internal_eq, removeEntries_eq hir, hres]
          rw [hrem] at h1
          have hval : t.Remove key = t := h1
          rw [hval]
          exact ⟨hf, hb, hr⟩
        · rw [hres] at hih
          obtain ⟨hc'b, hc'h, hc'k, hc'ff, hc'ft⟩ := hih
          have hrem : removeEntries t.leafMax t.internalMax key es
              (InternalLookup (es.map Prod.fst) key) =
              some (es.set (InternalLookup (es.map Prod.fst) key)
                ((es.get ⟨InternalLookup (es.map Prod.fst) key, hir⟩).1, c'),
                cflag) := by
            rw [removeEntries_eq hir, hres]
          cases cflag with
          | false =>
            have hrem2 : removeAux t.leafMax t.internalMax key (BPage.internal es) =
                some (.internal (es.set (InternalLookup (es.map Prod.fst) key)
                  ((es.get ⟨InternalLookup (es.map Prod.fst) key, hir⟩).1, c')),
                  false) := by
              have h6 := @removeAux_internal_eq α _ V t.leafMax t.internalMax key es
              rw [hrem] at h6
              exact h6
            rw [hrem2] at h1
            have hval : t.Remove key =
                { t with
                    root := some
                      (.internal (es.set (InternalLookup (es.map Prod.fst) key)
                        ((es.get ⟨InternalLookup (es.map Prod.fst) key,
                          hir⟩).1, c'))) } :=
              h1
            rw [hval]
            refine ⟨?_, ?_, ?_⟩
            · show fillPage t.leafMax t.internalMax true
                (BPage.internal (es.set (InternalLookup (es.map Prod.fst) key)
                  ((es.get ⟨InternalLookup (es.map Prod.fst) key, hir⟩).1, c'))) = true
              rw [fillPage_internal, List.length_set]
              exact ⟨hfr1, hfr2, fillChildren_set hfch (hc'ff rfl)⟩
            · show balancedPage
                (BPage.internal (es.set (InternalLookup (es.map Prod.fst) key)
                  ((es.get ⟨InternalLookup (es.map Prod.fst) key, hir⟩).1, c'))) = true
              rw [balancedPage_internal]
              refine @balancedChildren_of_all α _ V _
                ((es.get ⟨InternalLookup (es.map Prod.fst) key, hir⟩).2.height) ?_ ?_
              · intro e hex
                rcases List.mem_or_eq_of_mem_set hex with h5 | h5
                · exact hballs e h5
                · rw [h5]; exact hc'b
              · intro e hex
                rcases List.mem_or_eq_of_mem_set hex with h5 | h5
                · exact hhts e h5 _ hcmem
                · rw [h5]; exact hc'h
            · show decide (2 ≤ (es.set (InternalLookup (es.map Prod.fst) key)
                ((es.get ⟨InternalLookup (es.map Prod.fst) key, hir⟩).1, c')).length) =
                  true
              rw [decide_eq_true_eq, List.length_set]
              exact hr2
          | true =>
            obtain ⟨hlm, hlint⟩ := hc'ft rfl
            have hsetlen : (es.set (InternalLookup (es.map Prod.fst) key)
                ((es.get ⟨InternalLookup (es.map Prod.fst) key, hir⟩).1, c')).length =
                es.length := List.length_set es _ _
            have hir2 : InternalLookup (es.map Prod.fst) key <
                (es.set (InternalLookup (es.map Prod.fst) key)
                  ((es.get ⟨InternalLookup (es.map Prod.fst) key, hir⟩).1,
                    c')).length := by
              rw [hsetlen]
              exact hir
            have hslot : ((es.set (InternalLookup (es.map Prod.fst) key)
                ((es.get ⟨InternalLookup (es.map Prod.fst) key, hir⟩).1, c')).get
                  ⟨InternalLookup (es.map Prod.fst) key, hir2⟩).2 = c' := by
              have h6 := @List.getElem_set (α × BPage α V) es
                (InternalLookup (es.map Prod.fst) key)
                (InternalLookup (es.map Prod.fst) key)
                ((es.get ⟨InternalLookup (es.map Prod.fst) key, hir⟩).1, c') hir2
              rw [if_pos rfl] at h6
              have h7 : (es.set (InternalLookup (es.map Prod.fst) key)
                  ((es.get ⟨InternalLookup (es.map Prod.fst) key, hir⟩).1, c')).get
                    ⟨InternalLookup (es.map Prod.fst) key, hir2⟩ =
                  ((es.get ⟨InternalLookup (es.map Prod.fst) key, hir⟩).1, c') := h6
              rw [h7]
            have hCo := CoalesceOrRedistribute_fb hl he h4 hir2
              (by rw [hsetlen]; omega)
              (by
                intro j hj hji
                have hj2 : j < es.length := by
                  rw [hsetlen] at hj
                  exact hj
                have hgne : ((es.set (InternalLookup (es.map Prod.fst) key)
                    ((es.get ⟨InternalLookup (es.map Prod.fst) key, hir⟩).1, c')).get
                      ⟨j, hj⟩) = es.get ⟨j, hj2⟩ := by
                  have := @List.getElem_set_ne (α × BPage α V) es
                    (InternalLookup (es.map Prod.fst) key) j (fun hc => hji hc.symm)
                    ((es.get ⟨InternalLookup (es.map Prod.fst) key, hir⟩).1, c') hj
                  simpa using this
                rw [hgne]
                exact fillChildren_iff.1 hfch _ (List.get_mem es j hj2))
              (by
                intro e hex
                rcases List.mem_or_eq_of_mem_set hex with h5 | h5
                · exact hballs e h5
                · rw [h5]; exact hc'b)
              (by
                intro e hex
                rcases List.mem_or_eq_of_mem_set hex with h5 | h5
                · exact hhts e h5 _ hcmem
                · rw [h5]; exact hc'h)
              (by
                intro nes hn
                rw [hslot] at hn
                exact hlm nes hn)
              (by
                intro nes hn
                rw [hslot] at hn
                exact (hlint nes hn).1)
              (by
                intro nes hn
                rw [hslot] at hn
                exact (hlint nes hn).2)
            obtain ⟨hCom, hColen⟩ := hCo
            rw [hsetlen] at hColen
            have hrem2 : removeAux t.leafMax t.internalMax key (BPage.internal es) =
                some (.internal (CoalesceOrRedistribute t.leafMax t.internalMax
                    (es.set (InternalLookup (es.map Prod.fst) key)
                      ((es.get ⟨InternalLookup (es.map Prod.fst) key, hir⟩).1, c'))
                    (InternalLookup (es.map Prod.fst) key)).1,
                  (CoalesceOrRedistribute t.leafMax t.internalMax
                    (es.set (InternalLookup (es.map Prod.fst) key)
                      ((es.get ⟨InternalLookup (es.map Prod.fst) key, hir⟩).1, c'))
                    (InternalLookup (es.map Prod.fst) key)).2 &&
                    decide ((CoalesceOrRedistribute t.leafMax t.internalMax
                      (es.set (InternalLookup (es.map Prod.fst) key)
                        ((es.get ⟨InternalLookup (es.map Prod.fst) key, hir⟩).1, c'))
                      (InternalLookup (es.map Prod.fst) key)).1.length <
                      GetMinSize t.internalMax)) := by
              have h6 := @removeAux_internal_eq α _ V t.leafMax t.internalMax key es
              rw [hrem] at h6
              exact h6
            rw [hrem2] at h1
            by_cases hflag : ((CoalesceOrRedistribute t.leafMax t.internalMax
                (es.set (InternalLookup (es.map Prod.fst) key)
                  ((es.get ⟨InternalLookup (es.map Prod.fst) key, hir⟩).1, c'))
                (InternalLookup (es.map Prod.fst) key)).2 &&
                decide ((CoalesceOrRedistribute t.leafMax t.internalMax
                  (es.set (InternalLookup (es.map Prod.fst) key)
                    ((es.get ⟨InternalLookup (es.map Prod.fst) key, hir⟩).1, c'))
                  (InternalLookup (es.map Prod.fst) key)).1.length <
                  GetMinSize t.internalMax)) = true
            · rw [hflag] at h1
              rw [Bool.and_eq_true] at hflag
              obtain ⟨hflag1, hflag2⟩ := hflag
              rw [decide_eq_true_eq] at hflag2
              have hColen2 : (CoalesceOrRedistribute t.leafMax t.internalMax
                  (es.set (InternalLookup (es.map Prod.fst) key)
                    ((es.get ⟨InternalLookup (es.map Prod.fst) key, hir⟩).1, c'))
                  (InternalLookup (es.map Prod.fst) key)).1.length =
                  es.length - 1 := by
                rw [hColen, if_pos hflag1]
              rcases hshape : (CoalesceOrRedistribute t.leafMax t.internalMax
                  (es.set (InternalLookup (es.map Prod.fst) key)
                    ((es.get ⟨InternalLookup (es.map Prod.fst) key, hir⟩).1, c'))
                  (InternalLookup (es.map Prod.fst) key)).1
                with _ | ⟨e1, rest1⟩
              · exfalso
                have h5 := congrArg List.length hshape
                rw [List.length_nil, hColen2] at h5
                omega
              · obtain ⟨k1, c1⟩ := e1
                have hc1mem : (k1, c1) ∈ (CoalesceOrRedistribute t.leafMax
                    t.internalMax
                    (es.set (InternalLookup (es.map Prod.fst) key)
                      ((es.get ⟨InternalLookup (es.map Prod.fst) key, hir⟩).1, c'))
                    (InternalLookup (es.map Prod.fst) key)).1 := by
                  rw [hshape]
                  exact List.mem_cons_self _ _
                rcases rest1 with _ | ⟨e2, rest2⟩
                · -- single-child internal root: collapse into the child
                  rw [hshape] at h1
                  have hval : t.Remove key = { t with root := some c1 } := h1
                  rw [hval]
                  obtain ⟨hc1f, hc1b, hc1h⟩ := hCom _ hc1mem
                  refine ⟨?_, ?_, ?_⟩
                  · show fillPage t.leafMax t.internalMax true c1 = true
                    exact fillPage_root_of_nonroot hl (by omega) hc1f
                  · show balancedPage c1 = true
                    exact hc1b
                  · cases hc1 : c1 with
                    | leaf es4 => rfl
                    | internal es4 =>
                      show decide (2 ≤ es4.length) = true
                      rw [decide_eq_true_eq]
                      rw [hc1] at hc1f
                      rw [fillPage_internal] at hc1f
                      have h5 : GetMinSize t.internalMax ≤ es4.length := hc1f.1
                      omega
                · -- the rebalanced root keeps at least two slots
                  obtain ⟨k2, c2⟩ := e2
                  rw [hshape] at h1
                  have hval : t.Remove key =
                      { t with
                          root := some
                            (.internal ((k1, c1) :: (k2, c2) :: rest2)) } := h1
                  rw [hval]
                  have hmemsub : ∀ e ∈ (k1, c1) :: (k2, c2) :: rest2,
                      fillPage t.leafMax t.internalMax false e.2 = true ∧
                        balancedPage e.2 = true ∧
                        e.2.height =
                          (es.get ⟨InternalLookup (es.map Prod.fst) key,
                            hir⟩).2.height := by
                    intro e hex
                    rw [← hshape] at hex
                    exact hCom e hex
                  have hlen5 : ((k1, c1) :: (k2, c2) :: rest2).length =
                      es.length - 1 := by
                    rw [← hshape]
                    exact hColen2
                  refine ⟨?_, ?_, ?_⟩
                  · show fillPage t.leafMax t.internalMax true
                      (BPage.internal ((k1, c1) :: (k2, c2) :: rest2)) = true
                    rw [fillPage_internal]
                    refine ⟨?_, ?_, ?_⟩
                    · show 1 ≤ ((k1, c1) :: (k2, c2) :: rest2).length
                      rw [List.length_cons]
                      omega
                    · rw [hlen5]
                      omega
                    · rw [fillChildren_iff]
                      exact fun e hex => (hmemsub e hex).1
                  · show balancedPage
                      (BPage.internal ((k1, c1) :: (k2, c2) :: rest2)) = true
                    rw [balancedPage_internal]
                    exact @balancedChildren_of_all α _ V _
                      ((es.get ⟨InternalLookup (es.map Prod.fst) key, hir⟩).2.height)
                      (fun e hex => (hmemsub e hex).2.1)
                      (fun e hex => (hmemsub e hex).2.2)
                  · show decide (2 ≤ ((k1, c1) :: (k2, c2) :: rest2).length) = true
                    rw [decide_eq_true_eq, List.length_cons, List.length_cons]
                    omega
            · rw [Bool.not_eq_true] at hflag
              rw [hflag] at h1
              have hval : t.Remove key =
                  { t with
                      root := some
                        (.internal (CoalesceOrRedistribute t.leafMax t.internalMax
                          (es.set (InternalLookup (es.map Prod.fst) key)
                            ((es.get ⟨InternalLookup (es.map Prod.fst) key,
                              hir⟩).1, c'))
                          (InternalLookup (es.map Prod.fst) key)).1) } := h1
              rw [hval]
              have hlb5 : 2 ≤ (CoalesceOrRedistribute t.leafMax t.internalMax
                  (es.set (InternalLookup (es.map Prod.fst) key)
                    ((es.get ⟨InternalLookup (es.map Prod.fst) key, hir⟩).1, c'))
                  (InternalLookup (es.map Prod.fst) key)).1.length := by
                rw [Bool.and_eq_false_iff] at hflag
                rcases hflag with hflag | hflag
                · rw [hColen, hflag]
                  show 2 ≤ es.length
                  exact hr2
                · rw [decide_eq_false_iff_not, not_lt] at hflag
                  omega
              refine ⟨?_, ?_, ?_⟩
              · show fillPage t.leafMax t.internalMax true
                  (BPage.internal (CoalesceOrRedistribute t.leafMax t.internalMax
                    (es.set (InternalLookup (es.map Prod.fst) key)
                      ((es.get ⟨InternalLookup (es.map Prod.fst) key, hir⟩).1, c'))
                    (InternalLookup (es.map Prod.fst) key)).1) = true
                rw [fillPage_internal]
                refine ⟨?_, ?_, ?_⟩
                · show 1 ≤ (CoalesceOrRedistribute t.leafMax t.internalMax
                    (es.set (InternalLookup (es.map Prod.fst) key)
                      ((es.get ⟨InternalLookup (es.map Prod.fst) key, hir⟩).1, c'))
                    (InternalLookup (es.map Prod.fst) key)).1.length
                  omega
                · by_cases hflag2 : (CoalesceOrRedistribute t.leafMax t.internalMax
                      (es.set (InternalLookup (es.map Prod.fst) key)
                        ((es.get ⟨InternalLookup (es.map Prod.fst) key,
                          hir⟩).1, c'))
                      (InternalLookup (es.map Prod.fst) key)).2 = true
                  · rw [hColen, if_pos hflag2]
                    omega
                  · rw [hColen, if_neg hflag2]
                    exact hfr2
                · rw [fillChildren_iff]
                  exact fun e hex => (hCom e hex).1
              · show balancedPage
                  (BPage.internal (CoalesceOrRedistribute t.leafMax t.internalMax
                    (es.set (InternalLookup (es.map Prod.fst) key)
                      ((es.get ⟨InternalLookup (es.map Prod.fst) key, hir⟩).1, c'))
                    (InternalLookup (es.map Prod.fst) key)).1) = true
                rw [balancedPage_internal]
                exact @balancedChildren_of_all α _ V _
                  ((es.get ⟨InternalLookup (es.map Prod.fst) key, hir⟩).2.height)
                  (fun e hex => (hCom e hex).2.1)
                  (fun e hex => (hCom e hex).2.2)
              · show decide (2 ≤ (CoalesceOrRedistribute t.leafMax t.internalMax
                  (es.set (InternalLookup (es.map Prod.fst) key)
                    ((es.get ⟨InternalLookup (es.map Prod.fst) key, hir⟩).1, c'))
                  (InternalLookup (es.map Prod.fst) key)).1.length) = true
                rw [decide_eq_true_eq]
                exact hlb5
      · have hrem : removeAux t.leafMax t.internalMax key (BPage.internal es) =
            none := by
          rw [removeAux_internal_eq, removeEntries_high es hir]
        rw [hrem] at h1
        have hval : t.Remove key = t := h1
        rw [hval]
        exact ⟨hf, hb, hr⟩

theorem Insert_maxes [Inhabited α] (t : BPlusTree α V) (key : α) (v : V) :
    (t.Insert key v).1.leafMax = t.leafMax ∧
      (t.Insert key v).1.internalMax = t.internalMax := by
  cases hroot : t.root with
  | none =>
    have hval : t.Insert key v =
        ({ t with root := some (.leaf [(key, v)]) }, true) := by
      rw [BPlusTree.Insert, hroot]
    rw [hval]
    exact ⟨rfl, rfl⟩
  | some r =>
    have h1 : t.Insert key v =
        (match insertAux t.leafMax t.internalMax key v r with
         | .dup => (t, false)
         | .one r' => ({ t with root := some r' }, true)
         | .split l sep rr =>
           ({ t with root := some (.internal [(default, l), (sep, rr)]) },
             true)) := by
      rw [BPlusTree.Insert, hroot]
    rw [h1]
    cases insertAux t.leafMax t.internalMax key v r with
    | dup => exact ⟨rfl, rfl⟩
    | one r' => exact ⟨rfl, rfl⟩
    | split l sep rr => exact ⟨rfl, rfl⟩

theorem Remove_maxes (t : BPlusTree α V) (key : α) :
    (t.Remove key).leafMax = t.leafMax ∧
      (t.Remove key).internalMax = t.internalMax := by
  cases hroot : t.root with
  | none =>
    have hval : t.Remove key = t := by
      rw [BPlusTree.Remove, hroot]
    rw [hval]
    exact ⟨rfl, rfl⟩
  | some r =>
    have h1 : t.Remove key =
        (match removeAux t.leafMax t.internalMax key r with
         | none => t
         | some (p, ru) =>
           if ru then
             match p with
             | .leaf es2 =>
               if es2.length = 0 then { t with root := none }
               else { t with root := some p }
             | .internal [(_, c)] => { t with root := some c }
             | .internal _ => { t with root := some p }
           else { t with root := some p }) := by
      rw [BPlusTree.Remove, hroot]
    rw [h1]
    cases removeAux t.leafMax t.internalMax key r with
    | none => exact ⟨rfl, rfl⟩
    | some pr =>
      obtain ⟨p, ru⟩ := pr
      cases ru with
      | false => exact ⟨rfl, rfl⟩
      | true =>
        cases p with
        | leaf es2 =>
          cases es2 with
          | nil => exact ⟨rfl, rfl⟩
          | cons e rest => exact ⟨rfl, rfl⟩
        | internal es2 =>
          rcases es2 with _ | ⟨e1, rest1⟩
          · exact ⟨rfl, rfl⟩
          · obtain ⟨k1, c1⟩ := e1
            rcases rest1 with _ | ⟨e2, rest2⟩
            · exact ⟨rfl, rfl⟩
            · exact ⟨rfl, rfl⟩

theorem Reachable_fill [Inhabited α] {t : BPlusTree α V} (h : Reachable t) :
    t.internalMax % 2 = 0 → 4 ≤ t.internalMax →
      t.fill = true ∧ t.balanced = true ∧ rootOk t = true := by
  induction h with
  | empty lMax iMax h1 h2 =>
    intro _ _
    exact ⟨rfl, rfl, rfl⟩
  | @insert s key v h ih =>
    intro he h4
    have hml := Insert_maxes s key v
    have he2 : s.internalMax % 2 = 0 := by
      rw [← hml.2]
      exact he
    have h42 : 4 ≤ s.internalMax := by
      rw [← hml.2]
      exact h4
    obtain ⟨hf, hb, hr⟩ := ih he2 h42
    exact Insert_fb (Reachable_wf h) he2 h42 hf hb hr key v
  | @remove s key h ih =>
    intro he h4
    have hml := Remove_maxes s key
    have he2 : s.internalMax % 2 = 0 := by
      rw [← hml.2]
      exact he
    have h42 : 4 ≤ s.internalMax := by
      rw [← hml.2]
      exact h4
    obtain ⟨hf, hb, hr⟩ := ih he2 h42
    exact Remove_fb (Reachable_wf h) he2 h42 hf hb hr key

theorem fill_toList_ne_nil {lMax iMax : Nat} (hl : 1 ≤ lMax) (hi : 1 ≤ iMax) :
    ∀ p : BPage α V, ∀ b, fillPage lMax iMax b p = true → p.toList ≠ [] := by
  intro p
  induction p using BPage.ind with
  | hleaf es =>
    intro b hf
    rw [fillPage_leaf] at hf
    have hmin : GetMinSize lMax = (lMax + 1) / 2 := rfl
    have hlow : 1 ≤ (if b then 1 else GetMinSize lMax) := by
      cases b
      · show 1 ≤ GetMinSize lMax
        omega
      · exact Nat.le_refl 1
    have h1 : 1 ≤ es.length := le_trans hlow hf.1
    show es ≠ []
    intro hc
    rw [hc] at h1
    simp at h1
  | hint es ih =>
    intro b hf
    rw [fillPage_internal] at hf
    obtain ⟨h1, _, h3⟩ := hf
    have hmin : GetMinSize iMax = (iMax + 1) / 2 := rfl
    have hlow : 1 ≤ (if b then 1 else GetMinSize iMax) := by
      cases b
      · show 1 ≤ GetMinSize iMax
        omega
      · exact Nat.le_refl 1
    have h2 : 1 ≤ es.length := le_trans hlow h1
    cases es with
    | nil => simp at h2
    | cons e rest =>
      obtain ⟨k, c⟩ := e
      have hch := fillChildren_iff.1 h3 (k, c) (List.mem_cons_self _ _)
      have hne := ih (k, c) (List.mem_cons_self _ _) false hch
      show entsToList ((k, c) :: rest) ≠ []
      rw [entsToList]
      intro hc2
      rcases List.append_eq_nil.mp hc2 with ⟨ha, _⟩
      exact hne ha

/-- C2 (corrected).  For a tree reachable from empty by inserts and deletes,
when `internalMax` is even and at least 4 the fill invariant holds: every
non-root page keeps between `GetMinSize maxSize = ceil(maxSize/2)` and
`maxSize` entries, the root between 1 and `maxSize`, and the root is absent
exactly when the tree's contents are empty.  (Without the parity hypothesis
the claim is false: see the accompanying counterexample with
`internalMax = 3`, where an internal split leaves the left half below
`GetMinSize`.) -/
theorem C2_fill_invariant [Inhabited α] {t : BPlusTree α V} (h : Reachable t)
    (he : t.internalMax % 2 = 0) (h4 : 4 ≤ t.internalMax) :
    t.fill = true ∧ (t.root = none ↔ t.toList = []) := by
  obtain ⟨hf, hb, hr⟩ := Reachable_fill h he h4
  refine ⟨hf, ?_, ?_⟩
  · intro hn
    rw [BPlusTree.toList, hn]
  · intro hl
    cases hroot : t.root with
    | none => rfl
    | some r =>
      exfalso
      have hf2 : fillPage t.leafMax t.internalMax true r = true := by
        rw [BPlusTree.fill, hroot] at hf
        exact hf
      have hl2 : r.toList = [] := by
        rw [BPlusTree.toList, hroot] at hl
        exact hl
      have hlm : 1 ≤ t.leafMax := wf_leafMax (Reachable_wf h)
      exact fill_toList_ne_nil hlm (by omega) r true hf2 hl2

/-- Witness for C2 at a concrete reachable tree with even `internalMax`. -/
theorem C2_witness :
    ((BPlusTree.empty Nat Nat 2 4).Insert 1 10).1.fill = true ∧
      (((BPlusTree.empty Nat Nat 2 4).Insert 1 10).1.root = none ↔
        ((BPlusTree.empty Nat Nat 2 4).Insert 1 10).1.toList = []) :=
  C2_fill_invariant
    (Reachable.insert 1 10 (Reachable.empty 2 4 (by decide) (by decide)))
    (by decide) (by decide)

/-- Counterexample to C2 as stated: with `internalMax = 3` (odd), a tree
reachable from empty — well-formed and satisfying the fill invariant — stops
satisfying it after one more insert, because the pre-emptive internal split
leaves the left half with fewer than `GetMinSize 3 = 2` entries. -/
theorem C2_counterexample :
    ((((BPlusTree.empty Nat Nat 1 3).Insert 1 10).1.Insert 2 20).1.Insert
        3 30).1.fill = true ∧
      ((((BPlusTree.empty Nat Nat 1 3).Insert 1 10).1.Insert 2 20).1.Insert
        3 30).1.wf = true ∧
      (((((BPlusTree.empty Nat Nat 1 3).Insert 1 10).1.Insert 2 20).1.Insert
        3 30).1.Insert 4 40).1.fill = false := by
  decide

end Theorems

end BPlus
